import Mathlib

/-!
Verification of the translation pipeline of the `ai-translation-extension`
repository: placeholder codec (`src/utils.ts`), LRU translation cache
(`src/cache.ts`), rate limiter (`src/rate-limiter.ts`), API wrapper
(`src/api.ts`) and batch dispatcher (`BatchTranslator`).  Strings are
modelled as `List Char`; JavaScript `Map` objects as insertion-ordered
association lists; machine integers as `Int` reduced to 32 bits where the
code relies on 32-bit overflow.
-/

namespace ATE

/-- Coerces an integer into the range of JavaScript 32-bit signed integers,
as the bitwise operators `<<` and `&` do in the hash of `cache.ts`. -/
def toInt32 (n : Int) : Int :=
  let m := n % 4294967296
  if m < 2147483648 then m else m - 4294967296

/-- Models one loop iteration of `generateKey` in `cache.ts`:
`hash = ((hash << 5) - hash) + char; hash = hash & hash`. -/
def hashStep (h : Int) (c : Nat) : Int :=
  toInt32 (toInt32 (h * 32) - h + c)

/-- Digit characters used by JavaScript `Number.prototype.toString(36)`. -/
def base36Digit (d : Nat) : Char :=
  if d < 10 then Char.ofNat (48 + d) else Char.ofNat (87 + d)

/-- Fuelled digit recursion for base 36; the fuel bounds the recursion
depth and never runs out when it starts at the number itself. -/
def natToBase36Go : Nat → Nat → List Char
  | 0, n => [base36Digit n]
  | fuel + 1, n =>
    if n < 36 then [base36Digit n]
    else natToBase36Go fuel (n / 36) ++ [base36Digit (n % 36)]

/-- Base-36 representation of a natural number, least significant digit
last, as produced by `toString(36)` on a non-negative integer. -/
def natToBase36 (n : Nat) : List Char :=
  natToBase36Go n n

/-- JavaScript `toString(36)` on a possibly negative 32-bit integer. -/
def intToString36 (i : Int) : List Char :=
  if i < 0 then '-' :: natToBase36 i.natAbs else natToBase36 i.toNat

/-- Models `TranslationCache.generateKey`: the rolling 32-bit hash of
`targetLanguage + ":" + text`, rendered in base 36. -/
def generateKey (text targetLanguage : List Char) : List Char :=
  intToString36 ((targetLanguage ++ ':' :: text).foldl (fun h c => hashStep h c.toNat) 0)

/-- Models the `CacheEntry` interface of `cache.ts`. -/
structure CacheEntry where
  translatedText : List Char
  timestamp : Nat
deriving DecidableEq, Repr

/-- Lookup in an insertion-ordered association list, as `Map.prototype.get`. -/
def mapGet {κ α : Type} [DecidableEq κ] (m : List (κ × α)) (k : κ) : Option α :=
  match m with
  | [] => none
  | (k2, v) :: rest => if k2 = k then some v else mapGet rest k

/-- Membership test, as `Map.prototype.has`. -/
def mapHas {κ α : Type} [DecidableEq κ] (m : List (κ × α)) (k : κ) : Bool :=
  (mapGet m k).isSome

/-- Update, as `Map.prototype.set`: an existing key keeps its position in
insertion order, a new key is appended at the end. -/
def mapSet {κ α : Type} [DecidableEq κ] (m : List (κ × α)) (k : κ) (v : α) :
    List (κ × α) :=
  match m with
  | [] => [(k, v)]
  | (k2, v2) :: rest => if k2 = k then (k2, v) :: rest else (k2, v2) :: mapSet rest k v

/-- Removal, as `Map.prototype.delete` on a map with unique keys. -/
def mapDelete {κ α : Type} [DecidableEq κ] (m : List (κ × α)) (k : κ) :
    List (κ × α) :=
  match m with
  | [] => []
  | (k2, v2) :: rest => if k2 = k then rest else (k2, v2) :: mapDelete rest k

/-- First key in insertion order, as `map.keys().next().value`. -/
def firstKey {κ α : Type} (m : List (κ × α)) : Option κ :=
  match m with
  | [] => none
  | (k, _) :: _ => some k

/-- Models the `TranslationCache` class of `cache.ts`: a capacity-bounded
map from hashed `(text, language)` keys to translations, in
least-recently-used-first insertion order. -/
structure TranslationCache where
  cache : List (List Char × CacheEntry)
  maxSize : Nat
deriving DecidableEq, Repr

/-- Models `TranslationCache.get`: a hit re-inserts the entry at the end of
the insertion order (most recently used) and returns its text. -/
def TranslationCache.get (c : TranslationCache) (text targetLanguage : List Char) :
    Option (List Char) × TranslationCache :=
  let key := generateKey text targetLanguage
  match mapGet c.cache key with
  | some entry =>
      (some entry.translatedText,
        { c with cache := mapSet (mapDelete c.cache key) key entry })
  | none => (none, c)

/-- Models `TranslationCache.set`: if the cache is at capacity and the key
is new, the first (least recently used) entry is deleted, then the entry is
written.  `now` stands for `Date.now()`. -/
def TranslationCache.set (c : TranslationCache) (text targetLanguage translatedText : List Char)
    (now : Nat) : TranslationCache :=
  let key := generateKey text targetLanguage
  let cache1 :=
    if c.maxSize ≤ c.cache.length ∧ mapHas c.cache key = false then
      match firstKey c.cache with
      | some fk => mapDelete c.cache fk
      | none => c.cache
    else c.cache
  { c with cache := mapSet cache1 key { translatedText := translatedText, timestamp := now } }

/-- Models `TranslationCache.clear`. -/
def TranslationCache.clear (c : TranslationCache) : TranslationCache :=
  { c with cache := [] }

/-- Models `TranslationCache.size`. -/
def TranslationCache.size (c : TranslationCache) : Nat :=
  c.cache.length

/-- The empty cache of a given capacity, as `new TranslationCache(maxSize)`. -/
def TranslationCache.empty (maxSize : Nat) : TranslationCache :=
  { cache := [], maxSize := maxSize }

/-- Observation used by the cache theorems: the key derived from
`(text, targetLanguage)` is present. -/
def TranslationCache.hasEntry (c : TranslationCache) (text targetLanguage : List Char) : Bool :=
  mapHas c.cache (generateKey text targetLanguage)

/-! ### Placeholder codec (`src/utils.ts`) -/

/-- Characters matched by the JavaScript regex class `\s`: tab, line feed,
vertical tab, form feed, carriage return, space, no-break space, Ogham space
mark, the `U+2000`-`U+200A` spaces, line separator, paragraph separator,
narrow no-break space, medium mathematical space, ideographic space and the
zero-width no-break space. -/
def jsSpace (c : Char) : Bool :=
  let n := c.toNat
  n == 32 || n == 9 || n == 10 || n == 13 || n == 11 || n == 12 || n == 160 ||
    n == 5760 || (8192 ≤ n && n ≤ 8202) || n == 8232 || n == 8233 ||
    n == 8239 || n == 8287 || n == 12288 || n == 65279

/-- ASCII letters, the class `[a-z]` under the case-insensitive flag. -/
def isAsciiLetter (c : Char) : Bool :=
  ('a' ≤ c && c ≤ 'z') || ('A' ≤ c && c ≤ 'Z')

/-- ASCII digits, the regex class `\d`. -/
def isDigitCh (c : Char) : Bool :=
  '0' ≤ c && c ≤ '9'

/-- The class `[a-z0-9]` kept by the sanitizer of `htmlToPlaceholders`. -/
def isLowerAlnum (c : Char) : Bool :=
  ('a' ≤ c && c ≤ 'z') || isDigitCh c

/-- ASCII case folding, as `String.prototype.toLowerCase` on ASCII input. -/
def toLowerCh (c : Char) : Char :=
  if 'A' ≤ c && c ≤ 'Z' then Char.ofNat (c.toNat + 32) else c

/-- Decimal digit character. -/
def decDigit (d : Nat) : Char := Char.ofNat (48 + d)

/-- Fuelled digit recursion for base 10. -/
def natToDecGo : Nat → Nat → List Char
  | 0, n => [decDigit n]
  | fuel + 1, n =>
    if n < 10 then [decDigit n]
    else natToDecGo fuel (n / 10) ++ [decDigit (n % 10)]

/-- Decimal representation of a natural number, as JavaScript template
interpolation `${n}` renders a non-negative integer. -/
def natToDec (n : Nat) : List Char :=
  natToDecGo n n

/-- Index of the first `'>'` in a string, if any. -/
def gtIndex : List Char → Option Nat
  | [] => none
  | c :: rest => if c = '>' then some 0 else (gtIndex rest).map (· + 1)

/-- Length of the interior of a tag match of the regex `/<(\/?[^>]+)>/` at
the head of the string: `k > 0` when the string starts with `'<'`, followed
by `k ≥ 1` non-`'>'` characters, followed by `'>'`; otherwise `0`. -/
def tagInteriorLen : List Char → Nat
  | [] => 0
  | c :: rest =>
    if c = '<' then
      match gtIndex rest with
      | some k => k
      | none => 0
    else 0

/-- Strips the character `c` from the head of the string, if present. -/
def unconsIf (c : Char) (s : List Char) : Option (List Char) :=
  match s with
  | d :: r => if d = c then some r else none
  | [] => none

/-- Models `tag.replace(/^\//, '').split(/[\s>]/)[0].toLowerCase()
.replace(/[^a-z0-9]/g, '')` applied to the interior of a tag match. -/
def sanitizeTagName (interior : List Char) : List Char :=
  let noSlash := match unconsIf '/' interior with
    | some t => t
    | none => interior
  let first := noSlash.takeWhile (fun c => !(jsSpace c || c == '>'))
  (first.map toLowerCh).filter isLowerAlnum

/-- Builds the placeholder `<name_idx>` or `</name_idx>` for a tag whose
regex capture is `interior`, as the callback of `htmlToPlaceholders`. -/
def mkPlaceholder (interior : List Char) (idx : Nat) : List Char :=
  let name := sanitizeTagName interior
  match unconsIf '/' interior with
  | some _ => '<' :: '/' :: (name ++ '_' :: natToDec idx ++ ['>'])
  | none => '<' :: (name ++ '_' :: natToDec idx ++ ['>'])

/-- Models the global replace of `html.replace(/<(\/?[^>]+)>/g, cb)` in
`htmlToPlaceholders`: scans left to right, replaces every tag match by its
placeholder and records `placeholder ↦ original tag text` in order.  The
fuel argument bounds the recursion depth and never runs out when it starts
at the length of the input. -/
def encodeGo : Nat → List Char → Nat → List Char × List (List Char × List Char)
  | _, [], _ => ([], [])
  | 0, _ :: _, _ => ([], [])
  | fuel + 1, c :: rest, idx =>
    let k := tagInteriorLen (c :: rest)
    if k = 0 then
      let p := encodeGo fuel rest idx
      (c :: p.1, p.2)
    else
      let tag := (c :: rest).take (k + 2)
      let ph := mkPlaceholder (rest.take k) idx
      let p := encodeGo fuel ((c :: rest).drop (k + 2)) (idx + 1)
      (ph ++ p.1, (ph, tag) :: p.2)

/-- Models `htmlToPlaceholders` of `utils.ts`. -/
def htmlToPlaceholders (html : List Char) : List Char × List (List Char × List Char) :=
  encodeGo html.length html 0

/-- Expansion of `$`-sequences in a string replacement argument of
JavaScript `String.prototype.replace` for a regex without capture groups:
`$$`, `$&`, the before-match and after-match context sequences; anything
else is literal. -/
def expandDollar : List Char → List Char → List Char → List Char → List Char
  | [], _, _, _ => []
  | c :: rest, matched, before, after =>
    if c = '$' then
      match rest with
      | [] => ['$']
      | d :: r2 =>
        if d = '$' then '$' :: expandDollar r2 matched before after
        else if d = '&' then matched ++ expandDollar r2 matched before after
        else if d = Char.ofNat 96 then before ++ expandDollar r2 matched before after
        else if d = Char.ofNat 39 then after ++ expandDollar r2 matched before after
        else '$' :: expandDollar (d :: r2) matched before after
    else c :: expandDollar rest matched before after

/-- Models `s.replace(new RegExp(escapeRegExp(pat), 'g'), rep)`: global
literal replacement scanning left to right, continuing after each
replacement, with `$`-expansion of the replacement string.  The list
argument before the input accumulates the part of the input already
consumed; the fuel never runs out when it starts at the input length. -/
def jsReplaceAllGo (pat rep : List Char) : Nat → List Char → List Char → List Char
  | _, _, [] => []
  | 0, _, _ :: _ => []
  | fuel + 1, done, c :: rest =>
    if pat ≠ [] ∧ pat.isPrefixOf (c :: rest) then
      expandDollar rep pat done ((c :: rest).drop pat.length) ++
        jsReplaceAllGo pat rep fuel (done ++ pat) ((c :: rest).drop pat.length)
    else c :: jsReplaceAllGo pat rep fuel (done ++ [c]) rest

/-- Global literal regex replacement, as used by `placeholdersToHtml`. -/
def jsReplaceAll (s pat rep : List Char) : List Char :=
  jsReplaceAllGo pat rep s.length [] s

/-- Substring test, as `String.prototype.includes`. -/
def containsSeg : List Char → List Char → Bool
  | s, sub =>
    if sub.isPrefixOf s then true
    else
      match s with
      | [] => false
      | _ :: rest => containsSeg rest sub

/-- Variant `placeholder.replace(/</g, '< ').replace(/>/g, ' >')`. -/
def phWithSpaces (ph : List Char) : List Char :=
  jsReplaceAll (jsReplaceAll ph ['<'] ['<', ' ']) ['>'] [' ', '>']

/-- Variant `placeholder.replace(/</g, '< ')`. -/
def phLeadingSpace (ph : List Char) : List Char :=
  jsReplaceAll ph ['<'] ['<', ' ']

/-- Variant `placeholder.replace(/>/g, ' >')`. -/
def phTrailingSpace (ph : List Char) : List Char :=
  jsReplaceAll ph ['>'] [' ', '>']

/-- Loop body of `placeholdersToHtml` for one placeholder: exact
replacement, then the three space variants, each guarded by `includes`. -/
def decodeStep (map : List (List Char × List Char)) (result ph : List Char) : List Char :=
  match mapGet map ph with
  | none => result
  | some original =>
    if original = [] then result
    else
      let r1 := jsReplaceAll result ph original
      let ws := phWithSpaces ph
      let r2 := if containsSeg r1 ws then jsReplaceAll r1 ws original else r1
      let ls := phLeadingSpace ph
      let r3 := if containsSeg r2 ls then jsReplaceAll r2 ls original else r2
      let ts := phTrailingSpace ph
      if containsSeg r3 ts then jsReplaceAll r3 ts original else r3

/-- Length of the runs of whitespace, letters and digits at the head of a
string. -/
def spaceRunLen (s : List Char) : Nat := (s.takeWhile jsSpace).length

/-- Length of the letter run at the head of a string. -/
def letterRunLen (s : List Char) : Nat := (s.takeWhile isAsciiLetter).length

/-- Length of the digit run at the head of a string. -/
def digitRunLen (s : List Char) : Nat := (s.takeWhile isDigitCh).length

/-- Length of the match of the cleanup regex `/<\s*\/?\s*[a-z]+_\d+\s*>/i`
at the head of the string, `0` when there is no match.  The regex is
deterministic because its consecutive character classes are disjoint. -/
def cleanupMatchLen (s : List Char) : Nat :=
  match s with
  | [] => 0
  | c :: rest =>
    if c ≠ '<' then 0
    else
      let n1 := spaceRunLen rest
      let s2 := rest.drop n1
      let sl := match unconsIf '/' s2 with
        | some t => (1, t)
        | none => (0, s2)
      let n2 := spaceRunLen sl.2
      let s4 := sl.2.drop n2
      let nL := letterRunLen s4
      if nL = 0 then 0
      else
        match unconsIf '_' (s4.drop nL) with
        | some s6 =>
          let nD := digitRunLen s6
          if nD = 0 then 0
          else
            let s7 := s6.drop nD
            let n3 := spaceRunLen s7
            match unconsIf '>' (s7.drop n3) with
            | some _ => 1 + n1 + sl.1 + n2 + nL + 1 + nD + n3 + 1
            | none => 0
        | none => 0

/-- Case-insensitive string comparison, as
`placeholder.toLowerCase() === normalizedMatch.toLowerCase()`. -/
def lowerEq (a b : List Char) : Bool :=
  a.map toLowerCh == b.map toLowerCh

/-- The callback of the cleanup pass: looks for the first map entry whose
key matches the whitespace-stripped matched token case-insensitively,
otherwise replaces it by the empty string. -/
def cleanupLookup (map : List (List Char × List Char)) (normalized : List Char) : List Char :=
  match map with
  | [] => []
  | (ph, orig) :: rest =>
    if lowerEq ph normalized then orig else cleanupLookup rest normalized

/-- Models the final cleanup pass
`result.replace(/<\s*\/?\s*[a-z]+_\d+\s*>/gi, cb)` of `placeholdersToHtml`. -/
def cleanupScan (map : List (List Char × List Char)) : Nat → List Char → List Char
  | _, [] => []
  | 0, _ :: _ => []
  | fuel + 1, c :: rest =>
    let n := cleanupMatchLen (c :: rest)
    if n = 0 then c :: cleanupScan map fuel rest
    else
      cleanupLookup map (((c :: rest).take n).filter (fun c2 => !jsSpace c2)) ++
        cleanupScan map fuel ((c :: rest).drop n)

/-- Stable insertion into a list sorted by decreasing length, matching the
stable JavaScript `Array.prototype.sort` with comparator
`(a, b) => b.length - a.length`. -/
def insertByLenDesc (x : List Char) : List (List Char) → List (List Char)
  | [] => [x]
  | y :: rest =>
    if x.length < y.length then y :: insertByLenDesc x rest
    else x :: y :: rest

/-- Placeholders sorted longest first (stably). -/
def sortByLenDesc (l : List (List Char)) : List (List Char) :=
  l.foldr insertByLenDesc []

/-- Models `placeholdersToHtml` of `utils.ts`. -/
def placeholdersToHtml (text : List Char) (map : List (List Char × List Char)) : List Char :=
  let sorted := sortByLenDesc (map.map Prod.fst)
  let afterLoop := sorted.foldl (decodeStep map) text
  cleanupScan map afterLoop.length afterLoop

/-! ### Rate limiter (`src/rate-limiter.ts`)

The limiter is modelled as a state machine driven by timestamped events:
`execute` calls, the `setInterval` callback firing, and `clearQueue`.  Times
are `Date.now()` values in milliseconds; the requests-per-second value is a
rational so that `1000 / rps` is exact. -/

/-- State of a `RateLimiter` instance, together with the log of dispatched
operations `(operation id, dispatch time)` in dispatch order. -/
structure RLState where
  queue : List Nat
  lastProcessTime : Nat
  intervalActive : Bool
  log : List (Nat × Nat)
deriving DecidableEq, Repr

/-- Initial state of `new RateLimiter(rps)`. -/
def RLState.initial : RLState :=
  { queue := [], lastProcessTime := 0, intervalActive := false, log := [] }

/-- The interval `1000 / this.rps` in milliseconds. -/
def intervalMs (rps : ℚ) : ℚ := 1000 / rps

/-- Models `RateLimiter.processQueue` running at time `now`: returns early
when the queue is empty (clearing the interval) or an interval is already
scheduled; otherwise dispatches the first queued operation when
`lastProcessTime === 0` or the interval has elapsed, then schedules the
interval. -/
def processQueue (rps : ℚ) (now : Nat) (s : RLState) : RLState :=
  if s.queue = [] then { s with intervalActive := false }
  else if s.intervalActive then s
  else if s.lastProcessTime = 0 ∨ intervalMs rps ≤ ((now - s.lastProcessTime : Nat) : ℚ) then
    match s.queue with
    | [] => { s with intervalActive := true }
    | op :: rest =>
        { s with queue := rest, lastProcessTime := now,
                 log := s.log ++ [(op, now)], intervalActive := true }
  else { s with intervalActive := true }

/-- Models the `setInterval` callback firing at time `now`: dispatches the
next operation when the interval has elapsed, and clears the interval when
the queue has run empty; the trailing queue-empty check of the callback is
folded into each branch. -/
def tickStep (rps : ℚ) (now : Nat) (s : RLState) : RLState :=
  if s.intervalActive = false then s
  else if intervalMs rps ≤ ((now - s.lastProcessTime : Nat) : ℚ) then
    match s.queue with
    | [] => { s with intervalActive := false }
    | op :: rest =>
        if rest = [] then
          { s with queue := rest, lastProcessTime := now,
                   log := s.log ++ [(op, now)], intervalActive := false }
        else { s with queue := rest, lastProcessTime := now, log := s.log ++ [(op, now)] }
  else if s.queue = [] then { s with intervalActive := false } else s

/-- Models `RateLimiter.execute` called at time `now`: pushes the operation
and runs `processQueue`. -/
def rlExecute (rps : ℚ) (now : Nat) (op : Nat) (s : RLState) : RLState :=
  processQueue rps now { s with queue := s.queue ++ [op] }

/-- Models `RateLimiter.clearQueue`. -/
def rlClearQueue (s : RLState) : RLState :=
  { s with queue := [], intervalActive := false }

/-- Events that drive a `RateLimiter` at a fixed configured rate. -/
inductive RLEvent where
  | exec (id : Nat)
  | tick
  | clear
deriving DecidableEq, Repr

/-- One timestamped event step. -/
def rlStep (rps : ℚ) (s : RLState) (e : RLEvent × Nat) : RLState :=
  match e.1 with
  | .exec id => rlExecute rps e.2 id s
  | .tick => tickStep rps e.2 s
  | .clear => rlClearQueue s

/-- Runs a trace of timestamped events from the initial state. -/
def rlRun (rps : ℚ) (tr : List (RLEvent × Nat)) : RLState :=
  tr.foldl (rlStep rps) RLState.initial

/-- Copy of `processQueue` for a rate whose interval `1000 / rps` is a
whole number of milliseconds `ivl`; computable by kernel reduction. -/
def processQueueN (ivl : Nat) (now : Nat) (s : RLState) : RLState :=
  if s.queue = [] then { s with intervalActive := false }
  else if s.intervalActive then s
  else if s.lastProcessTime = 0 ∨ ivl ≤ now - s.lastProcessTime then
    match s.queue with
    | [] => { s with intervalActive := true }
    | op :: rest =>
        { s with queue := rest, lastProcessTime := now,
                 log := s.log ++ [(op, now)], intervalActive := true }
  else { s with intervalActive := true }

/-- Copy of `tickStep` for a whole-number interval. -/
def tickStepN (ivl : Nat) (now : Nat) (s : RLState) : RLState :=
  if s.intervalActive = false then s
  else if ivl ≤ now - s.lastProcessTime then
    match s.queue with
    | [] => { s with intervalActive := false }
    | op :: rest =>
        if rest = [] then
          { s with queue := rest, lastProcessTime := now,
                   log := s.log ++ [(op, now)], intervalActive := false }
        else { s with queue := rest, lastProcessTime := now, log := s.log ++ [(op, now)] }
  else if s.queue = [] then { s with intervalActive := false } else s

/-- Event step for a whole-number interval. -/
def rlStepN (ivl : Nat) (s : RLState) (e : RLEvent × Nat) : RLState :=
  match e.1 with
  | .exec id => processQueueN ivl e.2 { s with queue := s.queue ++ [id] }
  | .tick => tickStepN ivl e.2 s
  | .clear => rlClearQueue s

/-- Trace runner for a whole-number interval. -/
def rlRunN (ivl : Nat) (tr : List (RLEvent × Nat)) : RLState :=
  tr.foldl (rlStepN ivl) RLState.initial

/-- The scenario of the repository test `rate-limiter.test.ts`: four
operations queued at one instant on a limiter at 2 requests per second,
with the 10 ms interval callback firing from 10 ms after the queueing
instant onwards. -/
def c9trace : List (RLEvent × Nat) :=
  [(RLEvent.exec 1, 1000), (RLEvent.exec 2, 1000), (RLEvent.exec 3, 1000), (RLEvent.exec 4, 1000)]
    ++ (List.range 150).map (fun i => (RLEvent.tick, 1010 + 10 * i))

/-! ### API wrapper (`src/api.ts`) -/

/-- Dynamically typed JavaScript values, as produced by `response.json()`. -/
inductive Js where
  | undefv
  | nullv
  | boolv (b : Bool)
  | num (n : Int)
  | str (s : List Char)
  | arr (xs : List Js)
  | obj (fields : List (List Char × Js))

/-- JavaScript truthiness. -/
def truthy : Js → Bool
  | .undefv => false
  | .nullv => false
  | .boolv b => b
  | .num n => !(n == 0)
  | .str s => !s.isEmpty
  | .arr _ => true
  | .obj _ => true

/-- Plain member access `v.k`: throws a `TypeError` on `null`/`undefined`,
yields `undefined` for a missing member or a primitive receiver. -/
def jsGetField : Js → List Char → Except (List Char) Js
  | .undefv, _ => .error ("Cannot read properties of undefined".toList)
  | .nullv, _ => .error ("Cannot read properties of null".toList)
  | .obj fields, k => .ok ((mapGet fields k).getD .undefv)
  | _, _ => .ok .undefv

/-- Index access `v[i]` with a numeric literal index. -/
def jsIndex : Js → Nat → Except (List Char) Js
  | .undefv, _ => .error ("Cannot read properties of undefined".toList)
  | .nullv, _ => .error ("Cannot read properties of null".toList)
  | .arr xs, i => .ok ((xs.get? i).getD .undefv)
  | .obj fields, i => .ok ((mapGet fields (natToDec i)).getD .undefv)
  | _, _ => .ok .undefv

/-- Optional member access `v?.k`. -/
def jsOptField (v : Js) (k : List Char) : Except (List Char) Js :=
  match v with
  | .undefv => .ok .undefv
  | .nullv => .ok .undefv
  | w => jsGetField w k

/-- Decimal rendering of an integer. -/
def intToDec (i : Int) : List Char :=
  if i < 0 then '-' :: natToDec i.natAbs else natToDec i.toNat

/-- String conversion of a value interpolated into a template literal. -/
def jsDisplay : Js → List Char
  | .undefv => "undefined".toList
  | .nullv => "null".toList
  | .boolv true => "true".toList
  | .boolv false => "false".toList
  | .num n => intToDec n
  | .str s => s
  | .arr xs => jsDisplayList xs
  | .obj _ => "[object Object]".toList
where
  /-- Array elements joined by commas, `null`/`undefined` rendered empty. -/
  jsDisplayList : List Js → List Char
  | [] => []
  | [x] =>
    match x with
    | .undefv => []
    | .nullv => []
    | v => jsDisplay v
  | x :: y :: rest =>
    (match x with
     | .undefv => []
     | .nullv => []
     | v => jsDisplay v) ++ ',' :: jsDisplayList (y :: rest)

/-- Models the expression `data.choices[0]?.message?.content`. -/
def extractContent (data : Js) : Except (List Char) Js := do
  let c ← jsGetField data ("choices".toList)
  let c0 ← jsIndex c 0
  let m ← jsOptField c0 ("message".toList)
  jsOptField m ("content".toList)

/-- The `TranslationRequest` interface of `api.ts`. -/
structure TranslationRequest where
  text : List Char
  targetLanguage : List Char
  apiEndpoint : List Char
  apiKey : List Char
  model : List Char
deriving DecidableEq, Repr

/-- The outcome of the `fetch` call inside `translateText`: either the
returned promise rejects (with an `Error` carrying a message, or a
non-`Error` value), or a response arrives with a success flag, a numeric
status, a status text, and a body whose JSON parse either succeeds or
rejects with a `SyntaxError` message. -/
inductive FetchOutcome where
  | reject (isError : Bool) (message : List Char)
  | resp (ok : Bool) (status : Nat) (statusText : List Char) (body : Except (List Char) Js)

/-- The `TranslationResponse` interface of `api.ts`; `translatedText` keeps
the dynamic value `data.choices[0]?.message?.content || ''`. -/
structure TranslationResponse where
  translatedText : Js
  error : Option (List Char)

/-- Models `translateText` of `api.ts` as a function of the request and the
outcome of its single `fetch` call.  Every branch returns a value: thrown
errors (non-success status, JSON parse failure, property access on a
malformed body, fetch rejection) are converted by the surrounding
`try`/`catch` into `{ translatedText: '', error: message }`. -/
def translateTextModel (_req : TranslationRequest) (fetch : FetchOutcome) : TranslationResponse :=
  match fetch with
  | .reject isErr msg =>
      { translatedText := .str [],
        error := some (if isErr then msg else ("Unknown error".toList)) }
  | .resp ok status statusText body =>
    if ok = false then
      let errorData := match body with
        | .ok j => j
        | .error _ => Js.nullv
      let e1 := ((jsOptField errorData ("error".toList)).toOption).getD Js.undefv
      let msg := ((jsOptField e1 ("message".toList)).toOption).getD Js.undefv
      let errorMessage :=
        if truthy msg then jsDisplay msg else natToDec status ++ ' ' :: statusText
      { translatedText := .str [],
        error := some (("API request failed: ".toList) ++ errorMessage) }
    else
      match body with
      | .error msg => { translatedText := .str [], error := some msg }
      | .ok data =>
        match extractContent data with
        | .error msg => { translatedText := .str [], error := some msg }
        | .ok content =>
            { translatedText := if truthy content then content else Js.str [],
              error := none }

/-- String payload of a `Js` value; the dispatcher theorems only exercise
string-valued responses (which is what `translateTextModel` produces unless
the remote body carries a non-string `content`). -/
def jsAsString : Js → List Char
  | .str s => s
  | _ => []

/-! ### Batch dispatcher (`BatchTranslator`, chunked version) -/

/-- The `TranslationItem` interface, with the element modelled by an id. -/
structure TranslationItem where
  elemId : Nat
  originalHTML : List Char
  placeholderText : List Char
  placeholderMap : List (List Char × List Char)
  chunkIndex : Option Nat
  totalChunks : Option Nat
  chunkId : Option (List Char)
deriving DecidableEq, Repr

/-- Observable state of a page element: its content and the
`data-translated` / `data-translation-failed` attributes. -/
structure ElemState where
  innerHTML : List Char
  translated : Bool
  failed : Bool
deriving DecidableEq, Repr

/-- The `BatchTranslationConfig` after defaulting. -/
structure BatchConfig where
  maxCharactersPerBatch : Nat
  batchDelimiter : List Char
deriving DecidableEq, Repr

/-- The default delimiter `'\n---DELIMITER---\n'`. -/
def defaultDelimiter : List Char := "\n---DELIMITER---\n".toList

/-- The `TranslationSettings` interface. -/
structure TranslationSettings where
  apiEndpoint : List Char
  apiKey : List Char
  model : List Char
  targetLanguage : List Char
deriving DecidableEq, Repr

/-- Mutable state threaded through the dispatcher: page elements keyed by
id, the shared translation cache, and the chunk aggregation map. -/
structure DispatchState where
  elems : List (Nat × ElemState)
  cache : TranslationCache
  chunkTranslations : List (List Char × List (Option (List Char)))
deriving DecidableEq, Repr

/-- Applies a mutation to the element with the given id. -/
def updateElem (st : DispatchState) (id : Nat) (f : ElemState → ElemState) : DispatchState :=
  { st with elems := st.elems.map (fun p => if p.1 = id then (p.1, f p.2) else p) }

/-- JavaScript `String.prototype.trim`. -/
def jsTrim (s : List Char) : List Char :=
  ((s.dropWhile jsSpace).reverse.dropWhile jsSpace).reverse

/-- JavaScript `Array.prototype.join` with a separator. -/
def joinWith (sep : List Char) : List (List Char) → List Char
  | [] => []
  | [x] => x
  | x :: y :: rest => x ++ sep ++ joinWith sep (y :: rest)

/-- Length of the dash run at the head of a string. -/
def dashRunLen (s : List Char) : Nat := (s.takeWhile (fun c => c == '-')).length

/-- Length of the match of the flexible delimiter pattern
`/\s*-{3,}DELIMITER-{3,}\s*/` at the head of the string, `0` when there is
no match. -/
def delimMatchLen (s : List Char) : Nat :=
  let n1 := spaceRunLen s
  let s1 := s.drop n1
  let d1 := dashRunLen s1
  if d1 < 3 then 0
  else
    let s2 := s1.drop d1
    if ("DELIMITER".toList).isPrefixOf s2 = false then 0
    else
      let s3 := s2.drop 9
      let d2 := dashRunLen s3
      if d2 < 3 then 0
      else
        let s4 := s3.drop d2
        let n2 := spaceRunLen s4
        n1 + d1 + 9 + d2 + n2

/-- Models `text.split(/\s*-{3,}DELIMITER-{3,}\s*/)`; the accumulator holds
the current field reversed, and the fuel never runs out when it starts at
the input length. -/
def splitFlexGo : Nat → List Char → List Char → List (List Char)
  | _, acc, [] => [acc.reverse]
  | 0, acc, _ :: _ => [acc.reverse]
  | fuel + 1, acc, c :: rest =>
    let n := delimMatchLen (c :: rest)
    if n = 0 then splitFlexGo fuel (c :: acc) rest
    else acc.reverse :: splitFlexGo fuel [] ((c :: rest).drop n)

/-- Models `text.split(delimiter)` for a literal delimiter string. -/
def splitLitGo (delim : List Char) : Nat → List Char → List Char → List (List Char)
  | _, acc, [] => [acc.reverse]
  | 0, acc, _ :: _ => [acc.reverse]
  | fuel + 1, acc, c :: rest =>
    if delim ≠ [] ∧ delim.isPrefixOf (c :: rest) then
      acc.reverse :: splitLitGo delim fuel [] ((c :: rest).drop delim.length)
    else splitLitGo delim fuel (c :: acc) rest

/-- Models the response splitting of `processBatch`: the flexible pattern
for the default delimiter, exact splitting for a custom one. -/
def splitResponse (cfg : BatchConfig) (text : List Char) : List (List Char) :=
  if cfg.batchDelimiter = defaultDelimiter then splitFlexGo text.length [] text
  else splitLitGo cfg.batchDelimiter text.length [] text

/-- String-level view of a resolved `translateText` call, as consumed by
`processBatch` and `processSingleItem`. -/
structure RespS where
  translatedText : List Char
  error : Option (List Char)
deriving DecidableEq, Repr

/-- Converts the api-level response to the string-level view. -/
def respS (r : TranslationResponse) : RespS :=
  { translatedText := jsAsString r.translatedText, error := r.error }

/-- Models `BatchTranslator.processSingleItem` given the response its
`translateText` call resolved with: on a usable response the translation is
cached, decoded and applied and the failure marker cleared, otherwise the
element is marked failed. -/
def processSingleItem (settings : TranslationSettings) (item : TranslationItem)
    (resp : RespS) (st : DispatchState) : DispatchState :=
  if resp.error = none ∧ resp.translatedText ≠ [] then
    let st1 := { st with
      cache := st.cache.set item.placeholderText settings.targetLanguage resp.translatedText 0 }
    updateElem st1 item.elemId (fun e =>
      { e with innerHTML := placeholdersToHtml resp.translatedText item.placeholderMap,
               translated := true, failed := false })
  else
    updateElem st item.elemId (fun e => { e with failed := true })

/-- Outcome of the `translateText` call made by `processBatch`: the promise
resolved with a response, or a step inside the `try` block threw (the path
that triggers the per-item fallback of the `catch` branch). -/
inductive BatchCall where
  | resolved (resp : RespS)
  | raised
deriving DecidableEq, Repr

/-- Loop body of the apply phase of `processBatch` for one
`(item, raw segment)` pair. -/
def applyOne (settings : TranslationSettings) (st : DispatchState)
    (p : TranslationItem × List Char) : DispatchState :=
  let item := p.1
  let translation := jsTrim p.2
  if translation = [] then
    updateElem st item.elemId (fun e => { e with failed := true })
  else
    match item.chunkId, item.totalChunks with
    | some cid, some tc =>
      if cid ≠ [] ∧ 1 < tc then
        let arr := (mapGet st.chunkTranslations cid).getD (List.replicate tc none)
        let idx := item.chunkIndex.getD 0
        let arr2 := arr.set idx (some translation)
        let st1 := { st with chunkTranslations := mapSet st.chunkTranslations cid arr2 }
        -- `chunks.every(chunk => chunk !== undefined)` runs over the sparse
        -- `new Array(totalChunks)`: `every` skips the holes and each present
        -- element is a string, so the readiness check is always true and the
        -- group is joined at once, `join(' ')` rendering each hole as an
        -- empty string.
        let full := joinWith [' '] (arr2.map (fun o => o.getD []))
        let st2 := { st1 with
          cache := st1.cache.set item.originalHTML settings.targetLanguage full 0 }
        let st3 := updateElem st2 item.elemId (fun e =>
          { e with innerHTML := placeholdersToHtml full item.placeholderMap,
                   translated := true, failed := false })
        { st3 with chunkTranslations := mapDelete st3.chunkTranslations cid }
      else
        let st1 := { st with
          cache := st.cache.set item.placeholderText settings.targetLanguage translation 0 }
        updateElem st1 item.elemId (fun e =>
          { e with innerHTML := placeholdersToHtml translation item.placeholderMap,
                   translated := true, failed := false })
    | _, _ =>
      let st1 := { st with
        cache := st.cache.set item.placeholderText settings.targetLanguage translation 0 }
      updateElem st1 item.elemId (fun e =>
        { e with innerHTML := placeholdersToHtml translation item.placeholderMap,
                 translated := true, failed := false })

/-- Marks the elements of the given items failed, as the trailing loop of
`processBatch` when fewer segments than units came back. -/
def markTrailingFailed (items : List TranslationItem) (st : DispatchState) : DispatchState :=
  items.foldl (fun st2 it => updateElem st2 it.elemId (fun e => { e with failed := true })) st

/-- Models `BatchTranslator.processBatch` (chunk-aware version) given the
outcome of its `translateText` call and, for the `catch` fallback path, the
responses of the individual `processSingleItem` calls. -/
def processBatch (cfg : BatchConfig) (settings : TranslationSettings)
    (batch : List TranslationItem) (call : BatchCall) (singles : List RespS)
    (st : DispatchState) : DispatchState :=
  if batch = [] then st
  else
    match call with
    | .raised =>
        (batch.zip singles).foldl
          (fun st2 p => processSingleItem settings p.1 p.2 st2) st
    | .resolved resp =>
      if resp.error = none ∧ resp.translatedText ≠ [] then
        let translations := splitResponse cfg resp.translatedText
        let st1 := (batch.zip translations).foldl (applyOne settings) st
        if translations.length < batch.length then
          markTrailingFailed (batch.drop translations.length) st1
        else st1
      else st

/-- Sentence terminators, the class `[.!?]`. -/
def isTerm (c : Char) : Bool := c == '.' || c == '!' || c == '?'

/-- Length of the match of the sentence pattern `/[^.!?]+[.!?]+(\s+|$)/` at
the head of the string, `0` when there is no match. -/
def sentenceMatchLen (s : List Char) : Nat :=
  let n1 := (s.takeWhile (fun c => !isTerm c)).length
  if n1 = 0 then 0
  else
    let s1 := s.drop n1
    let n2 := (s1.takeWhile isTerm).length
    if n2 = 0 then 0
    else
      let s2 := s1.drop n2
      let n3 := spaceRunLen s2
      if n3 = 0 then (if s2 = [] then n1 + n2 else 0) else n1 + n2 + n3

/-- Global scan collecting the matches of the sentence pattern, as
`text.match(/[^.!?]+[.!?]+(\s+|$)/g)`. -/
def sentencesGo : Nat → List Char → List (List Char)
  | _, [] => []
  | 0, _ :: _ => []
  | fuel + 1, c :: rest =>
    let n := sentenceMatchLen (c :: rest)
    if n = 0 then sentencesGo fuel rest
    else (c :: rest).take n :: sentencesGo fuel ((c :: rest).drop n)

/-- Models `text.match(/[^.!?]+[.!?]+(\s+|$)/g) || [text]`. -/
def splitSentences (text : List Char) : List (List Char) :=
  match sentencesGo text.length text with
  | [] => [text]
  | l => l

/-- Greedy accumulation of sentences into chunks of at most `maxSize`
characters, as the first loop of `splitOversizedItem`; returns the chunk
texts (trimmed as pushed). -/
def splitChunksGo (maxSize : Nat) : List (List Char) → List Char → List (List Char)
  | [], current => if jsTrim current ≠ [] then [jsTrim current] else []
  | sentence :: rest, current =>
    if current ≠ [] ∧ maxSize < current.length + sentence.length then
      jsTrim current :: splitChunksGo maxSize rest sentence
    else splitChunksGo maxSize rest (current ++ sentence)

/-- Slices of `chunkSize` characters, as the force-split loop
`for (let i = 0; i < text.length; i += chunkSize)`.  The JavaScript loop
does not terminate for a zero chunk size; the model returns `[]` in that
unreachable case. -/
def sliceChunks (chunkSize : Nat) : Nat → List Char → List (List Char)
  | _, [] => []
  | 0, _ :: _ => []
  | fuel + 1, c :: rest =>
    if chunkSize = 0 then []
    else (c :: rest).take chunkSize :: sliceChunks chunkSize fuel ((c :: rest).drop chunkSize)

/-- Attaches `chunkId`, `chunkIndex` and `totalChunks` to the chunk texts,
as the `forEach` at the end of `splitOversizedItem`. -/
def withChunkInfo (cid : List Char) (item : TranslationItem) (texts : List (List Char)) :
    List TranslationItem :=
  texts.enum.map (fun p =>
    { item with placeholderText := p.2, chunkId := some cid,
                chunkIndex := some p.1, totalChunks := some texts.length })

/-- Models `BatchTranslator.splitOversizedItem`; `cid` stands for the
generated `chunk-${Date.now()}-${random}` identifier. -/
def splitOversizedItem (cfg : BatchConfig) (cid : List Char) (item : TranslationItem) :
    List TranslationItem :=
  let sentences := splitSentences item.placeholderText
  let maxSize := cfg.maxCharactersPerBatch * 9 / 10
  let chunkTexts := splitChunksGo maxSize sentences []
  match chunkTexts with
  | [single] =>
    if cfg.maxCharactersPerBatch < single.length then
      withChunkInfo cid item (sliceChunks maxSize single.length single)
    else withChunkInfo cid item [single]
  | [] => [item]
  | l => withChunkInfo cid item l

/-- Chunk-group identifier generated for the `counter`-th oversized item;
deterministic stand-in for `chunk-${Date.now()}-${random}`. -/
def chunkIdFor (counter : Nat) : List Char :=
  ("chunk-".toList) ++ natToDec counter

/-- Cache-filtering loop at the start of `createBatches`: applies cached
translations immediately and collects the uncached items in order. -/
def applyCachedLoop (settings : TranslationSettings) :
    List TranslationItem → List TranslationItem → DispatchState →
    List TranslationItem × DispatchState
  | [], acc, st => (acc.reverse, st)
  | item :: rest, acc, st =>
    let r := st.cache.get item.placeholderText settings.targetLanguage
    let st1 := { st with cache := r.2 }
    match r.1 with
    | some t =>
      if t ≠ [] then
        let st2 := updateElem st1 item.elemId (fun e =>
          { e with innerHTML := placeholdersToHtml t item.placeholderMap, translated := true })
        applyCachedLoop settings rest acc st2
      else applyCachedLoop settings rest (item :: acc) st1
    | none => applyCachedLoop settings rest (item :: acc) st1

/-- Main loop of `createBatches` over the uncached items: closes the
current batch when the next item would overflow the budget, splits an
oversized item into single-chunk batches, and otherwise appends the item,
adding the delimiter length for every item after the first of a batch. -/
def createBatchesLoop (cfg : BatchConfig) :
    List TranslationItem → List (List TranslationItem) → List TranslationItem →
    Nat → Nat → List (List TranslationItem) × Nat
  | [], batches, currentBatch, _, counter =>
      (if currentBatch ≠ [] then batches ++ [currentBatch] else batches, counter)
  | item :: rest, batches, currentBatch, currentSize, counter =>
    let itemLength := item.placeholderText.length
    let delimiterLength := if currentBatch ≠ [] then cfg.batchDelimiter.length else 0
    let totalItemSize := itemLength + delimiterLength
    let closed := currentBatch ≠ [] ∧
      cfg.maxCharactersPerBatch < currentSize + totalItemSize
    let batches1 := if closed then batches ++ [currentBatch] else batches
    let cb1 := if closed then [] else currentBatch
    let cs1 := if closed then 0 else currentSize
    if cb1 = [] ∧ cfg.maxCharactersPerBatch < itemLength then
      let chunks := splitOversizedItem cfg (chunkIdFor counter) item
      createBatchesLoop cfg rest (batches1 ++ chunks.map (fun c => [c])) cb1 cs1 (counter + 1)
    else
      let cb2 := cb1 ++ [item]
      let cs2 := cs1 + (if cb2.length = 1 then itemLength else totalItemSize)
      createBatchesLoop cfg rest batches1 cb2 cs2 counter

/-- Models `BatchTranslator.createBatches` (chunk-aware version). -/
def createBatches (cfg : BatchConfig) (settings : TranslationSettings)
    (items : List TranslationItem) (st : DispatchState) :
    List (List TranslationItem) × DispatchState :=
  let r := applyCachedLoop settings items [] st
  ((createBatchesLoop cfg r.1 [] [] 0 0).1, r.2)

/-! ### Observations and auxiliary notions used by the theorems -/

/-- Substring (contiguous segment) relation on strings. -/
def SubSeg (p s : List Char) : Prop :=
  ∃ x y, s = x ++ p ++ y

/-- Simplified form of `jsReplaceAllGo` valid for replacement strings
without a dollar character (no `$`-expansion, no context). -/
def replaceAllSimpleGo (pat rep : List Char) : Nat → List Char → List Char
  | _, [] => []
  | 0, _ :: _ => []
  | fuel + 1, c :: rest =>
    if pat ≠ [] ∧ pat.isPrefixOf (c :: rest) then
      rep ++ replaceAllSimpleGo pat rep fuel ((c :: rest).drop pat.length)
    else c :: replaceAllSimpleGo pat rep fuel rest

/-- Wrapper for `replaceAllSimpleGo` with full fuel. -/
def replaceAllSimple (pat rep s : List Char) : List Char :=
  replaceAllSimpleGo pat rep s.length s

/-- Alphanumeric characters of either case. -/
def isAlnumCI (c : Char) : Bool :=
  isAsciiLetter c || isDigitCh c

/-- Length of the match, at the head of the string, of the generalized
placeholder shape `'<' \s* '/'? \s* [a-zA-Z0-9]* '_' [0-9]+ \s* '>'`: this
shape covers every placeholder `htmlToPlaceholders` can generate, their
space variants tried by `placeholdersToHtml`, and every token the cleanup
regex of `placeholdersToHtml` can match. -/
def pShapeMatchLen (s : List Char) : Nat :=
  match s with
  | [] => 0
  | c :: rest =>
    if c ≠ '<' then 0
    else
      let n1 := spaceRunLen rest
      let s2 := rest.drop n1
      let sl := match unconsIf '/' s2 with
        | some t => (1, t)
        | none => (0, s2)
      let n2 := spaceRunLen sl.2
      let s4 := sl.2.drop n2
      let nA := (s4.takeWhile isAlnumCI).length
      match unconsIf '_' (s4.drop nA) with
      | some s6 =>
        let nD := digitRunLen s6
        if nD = 0 then 0
        else
          let s7 := s6.drop nD
          let n3 := spaceRunLen s7
          match unconsIf '>' (s7.drop n3) with
          | some _ => 1 + n1 + sl.1 + n2 + nA + 1 + nD + n3 + 1
          | none => 0
      | none => 0

/-- Whether some substring of `s` matches the generalized placeholder
shape. -/
def hasPShape : List Char → Bool
  | [] => false
  | c :: rest => if pShapeMatchLen (c :: rest) ≠ 0 then true else hasPShape rest

/-- Round trip of the codec on a markup string. -/
def codecRoundTrip (m : List Char) : List Char :=
  placeholdersToHtml (htmlToPlaceholders m).1 (htmlToPlaceholders m).2

/-- Cache key of a `(text, language, translation)` triple. -/
def keyOf (e : List Char × List Char × List Char) : List Char :=
  generateKey e.1 e.2.1

/-- Cache entry written for a `(text, language, translation)` triple. -/
def entryOf (e : List Char × List Char × List Char) : CacheEntry :=
  { translatedText := e.2.2, timestamp := 0 }

/-- Sequence of `set` calls for a list of `(text, language, translation)`
triples. -/
def insertAll (c : TranslationCache) (es : List (List Char × List Char × List Char)) :
    TranslationCache :=
  es.foldl (fun a e => a.set e.1 e.2.1 e.2.2 0) c

/-- Whether an item belongs to a chunk group, as the condition
`item.chunkId && item.totalChunks && item.totalChunks > 1` of
`processBatch`. -/
def isChunkGroupItem (it : TranslationItem) : Bool :=
  match it.chunkId, it.totalChunks with
  | some cid, some tc => cid ≠ [] ∧ 1 < tc
  | _, _ => false

/-- State of the element with the given id. -/
def elemAfter (st : DispatchState) (id : Nat) : Option ElemState :=
  mapGet st.elems id

/-- Encoded size of a batch: unit text lengths plus one delimiter per
adjacent pair, the length of the request text `processBatch` builds. -/
def encodedSize (cfg : BatchConfig) (b : List TranslationItem) : Nat :=
  (joinWith cfg.batchDelimiter (b.map (fun it => it.placeholderText))).length

/-- Longest sentence produced by the sentence scan of an oversized item. -/
def maxSentenceLen (text : List Char) : Nat :=
  ((splitSentences text).map List.length).foldr max 0

/-- Shape of a batch produced by `createBatches`: either a batch of
chunk-free items within the character budget, or a single chunk produced by
`splitOversizedItem` from some input item. -/
def BatchOK (cfg : BatchConfig) (items : List TranslationItem)
    (b : List TranslationItem) : Prop :=
  ((∀ it ∈ b, it.chunkId = none) ∧ encodedSize cfg b ≤ cfg.maxCharactersPerBatch) ∨
  (∃ c src cid, b = [c] ∧ src ∈ items ∧ c ∈ splitOversizedItem cfg cid src)

/-- Rate bound on a dispatch log: consecutive dispatch times are strictly
increasing and at least `1000 / rps` milliseconds apart. -/
def dispatchGapsOk (r : ℚ) (log : List (Nat × Nat)) : Prop :=
  List.Chain' (fun a b => a.2 < b.2 ∧ intervalMs r ≤ ((b.2 - a.2 : Nat) : ℚ)) log

/-- Invariant tying the dispatch log to `lastProcessTime`: the gaps are
within bound, and `lastProcessTime` is `0` before the first dispatch and
the (positive) time of the most recent dispatch afterwards. -/
def RLInvP (r : ℚ) (log : List (Nat × Nat)) (lpt : Nat) : Prop :=
  dispatchGapsOk r log ∧
    ((log = [] ∧ lpt = 0) ∨ (∃ p, log.getLast? = some p ∧ lpt = p.2 ∧ 0 < p.2))

/-- The invariant, as a property of a rate limiter state. -/
def RLInv (r : ℚ) (s : RLState) : Prop :=
  RLInvP r s.log s.lastProcessTime

/-! ### Structural notions for the codec round-trip proof -/

/-- Interleaving of text segments and slot strings: `s0 x0 s1 x1 ... sk`,
the shape of both the original markup (slots = original tag units) and the
encoded text (slots = placeholders). -/
def weave : List (List Char) → List (List Char) → List Char
  | [], _ => []
  | s :: _, [] => s
  | s :: srest, x :: xrest => s ++ x ++ weave srest xrest

/-- A slot string: starts with `<`, ends with `>`, has no other `>`, and
either has no other `<` (placeholders) or contains no placeholder-shaped
substring (original tag units taken from a shape-free input). -/
def SlotOK (x : List Char) : Prop :=
  ∃ xm, x = '<' :: (xm ++ ['>']) ∧ '>' ∉ xm ∧ ('<' ∉ xm ∨ hasPShape x = false)

/-- A replacement pattern of the decoder: starts with `<`, ends with `>`,
has no other `<` or `>`, and is an initial match of the generalized
placeholder shape however the string continues. -/
def PatOK (pat : List Char) : Prop :=
  ∃ pm, pat = '<' :: (pm ++ ['>']) ∧ '>' ∉ pm ∧ '<' ∉ pm ∧
    ∀ t, pShapeMatchLen (pat ++ t) ≠ 0

/-- Shape of a placeholder generated for index `idx`. -/
def PhShape (p : List Char) (idx : Nat) : Prop :=
  ∃ nm sl, (∀ c ∈ nm, isLowerAlnum c) ∧ (sl = [] ∨ sl = ['/']) ∧
    p = '<' :: (sl ++ (nm ++ ('_' :: (natToDec idx ++ ['>']))))

/-- Shape of an original tag unit `<interior>` with non-empty,
`>`-free interior. -/
def UnitShape (u : List Char) : Prop :=
  ∃ um, um ≠ [] ∧ '>' ∉ um ∧ u = '<' :: (um ++ ['>'])

/-- Value of a decimal digit string. -/
def decVal (l : List Char) : Nat := l.foldl (fun a c => a * 10 + (c.toNat - 48)) 0

/-- Slot assignment during the decode loop: a slot still pending in `Q`
shows its placeholder, a processed one its original unit. -/
def slotsFor (Q : List (List Char)) (entries : List (List Char × List Char)) :
    List (List Char) :=
  entries.map (fun e => if e.1 ∈ Q then e.1 else e.2)

/-- Well-formedness of the placeholder map produced by the encoder on a
dollar-free, placeholder-shape-free input: distinct placeholder keys, each
key a placeholder shape, each value a tag unit free of placeholder shapes
and of `$`. -/
def EncEntriesOK (entries : List (List Char × List Char)) : Prop :=
  (entries.map Prod.fst).Nodup ∧
  ∀ e ∈ entries, (∃ idx, PhShape e.1 idx) ∧ UnitShape e.2 ∧
    hasPShape e.2 = false ∧ '$' ∉ e.2

/-! ## Association list lemmas -/

theorem mapGet_eq_none {κ α : Type} [DecidableEq κ] {m : List (κ × α)} {k : κ}
    (h : ∀ p ∈ m, p.1 ≠ k) : mapGet m k = none := by
  induction m with
  | nil => rfl
  | cons p rest ih =>
    obtain ⟨k2, v⟩ := p
    simp only [mapGet]
    rw [if_neg (h (k2, v) (by simp))]
    exact ih fun q hq => h q (by simp [hq])

theorem mapGet_append_right {κ α : Type} [DecidableEq κ] {a : List (κ × α)}
    (b : List (κ × α)) {k : κ} (h : mapGet a k = none) :
    mapGet (a ++ b) k = mapGet b k := by
  induction a with
  | nil => rfl
  | cons p rest ih =>
    obtain ⟨k2, v⟩ := p
    simp only [mapGet] at h ⊢
    by_cases hk : k2 = k
    · rw [if_pos hk] at h
      exact absurd h (by simp)
    · rw [if_neg hk] at h
      simp only [List.cons_append, mapGet, List.append_eq]
      rw [if_neg hk]
      exact ih h

theorem mapGet_append_none {κ α : Type} [DecidableEq κ] {a b : List (κ × α)} {k : κ}
    (ha : mapGet a k = none) (hb : mapGet b k = none) : mapGet (a ++ b) k = none := by
  rw [mapGet_append_right b ha]
  exact hb

theorem mapGet_isSome_of_mem {κ α : Type} [DecidableEq κ] {m : List (κ × α)} {k : κ} {v : α}
    (h : (k, v) ∈ m) : (mapGet m k).isSome = true := by
  induction m with
  | nil => cases h
  | cons p rest ih =>
    obtain ⟨k2, v2⟩ := p
    simp only [mapGet]
    by_cases hk : k2 = k
    · rw [if_pos hk]; rfl
    · rw [if_neg hk]
      rcases List.mem_cons.mp h with heq | hmem
      · cases heq
        exact absurd rfl hk
      · exact ih hmem

theorem mapSet_absent {κ α : Type} [DecidableEq κ] {m : List (κ × α)} {k : κ} (v : α)
    (h : mapGet m k = none) : mapSet m k v = m ++ [(k, v)] := by
  induction m with
  | nil => rfl
  | cons p rest ih =>
    obtain ⟨k2, v2⟩ := p
    simp only [mapGet] at h
    by_cases hk : k2 = k
    · rw [if_pos hk] at h
      exact absurd h (by simp)
    · rw [if_neg hk] at h
      simp only [mapSet]
      rw [if_neg hk, ih h]
      rfl

theorem mapDelete_mid {κ α : Type} [DecidableEq κ] {x : List (κ × α)} (y : List (κ × α))
    {k : κ} (v : α) (h : ∀ p ∈ x, p.1 ≠ k) :
    mapDelete (x ++ (k, v) :: y) k = x ++ y := by
  induction x with
  | nil => simp [mapDelete]
  | cons p rest ih =>
    obtain ⟨k2, v2⟩ := p
    have hk : k2 ≠ k := h (k2, v2) (by simp)
    simp only [List.cons_append, mapDelete, List.append_eq]
    rw [if_neg hk, ih fun q hq => h q (by simp [hq])]

theorem mapGet_mid {κ α : Type} [DecidableEq κ] {x : List (κ × α)} (y : List (κ × α))
    {k : κ} (v : α) (h : ∀ p ∈ x, p.1 ≠ k) :
    mapGet (x ++ (k, v) :: y) k = some v := by
  rw [mapGet_append_right _ (mapGet_eq_none h)]
  simp [mapGet]

/-! ## Cache lemmas and claim C7 -/

theorem cacheSet_fresh (c : TranslationCache) (t l v : List Char) (now : Nat)
    (hfresh : mapGet c.cache (generateKey t l) = none)
    (hcap : c.cache.length < c.maxSize) :
    c.set t l v now =
      { c with cache := c.cache ++ [(generateKey t l, { translatedText := v, timestamp := now })] } := by
  simp only [TranslationCache.set]
  rw [if_neg (by
    intro hand
    exact absurd hand.1 (not_le.mpr hcap))]
  rw [mapSet_absent _ hfresh]

theorem cacheSet_evict (c : TranslationCache) (t l v : List Char) (now : Nat)
    (k0 : List Char) (v0 : CacheEntry) (rest : List (List Char × CacheEntry))
    (hc : c.cache = (k0, v0) :: rest)
    (hfresh : mapGet c.cache (generateKey t l) = none)
    (hcap : c.maxSize ≤ c.cache.length) :
    c.set t l v now =
      { c with cache := rest ++ [(generateKey t l, { translatedText := v, timestamp := now })] } := by
  have hfrest : mapGet rest (generateKey t l) = none := by
    rw [hc] at hfresh
    simp only [mapGet] at hfresh
    by_cases hk : k0 = generateKey t l
    · rw [if_pos hk] at hfresh
      exact absurd hfresh (by simp)
    · rwa [if_neg hk] at hfresh
  simp only [TranslationCache.set]
  rw [if_pos (by
    refine ⟨hcap, ?_⟩
    unfold mapHas
    rw [hfresh]
    rfl)]
  rw [hc]
  have hdel : mapDelete ((k0, v0) :: rest) k0 = rest := by simp [mapDelete]
  simp only [firstKey]
  rw [hdel, mapSet_absent _ hfrest]

theorem insertAll_fresh (es : List (List Char × List Char × List Char)) :
    ∀ c : TranslationCache,
    (∀ e ∈ es, mapGet c.cache (keyOf e) = none) →
    (es.map keyOf).Nodup →
    c.cache.length + es.length ≤ c.maxSize →
    insertAll c es =
      { c with cache := c.cache ++ es.map (fun e => (keyOf e, entryOf e)) } := by
  induction es with
  | nil =>
    intro c _ _ _
    simp [insertAll]
  | cons e rest ih =>
    intro c hfresh hnd hcap
    have hlen : c.cache.length < c.maxSize := by
      have := hcap
      simp only [List.length_cons] at this
      omega
    have hstep : c.set e.1 e.2.1 e.2.2 0 =
        { c with cache := c.cache ++ [(keyOf e, entryOf e)] } :=
      cacheSet_fresh c _ _ _ _ (hfresh e (by simp)) hlen
    have hkey : keyOf e ∉ rest.map keyOf := by
      simp only [List.map_cons, List.nodup_cons] at hnd
      exact hnd.1
    have hrest : ∀ e2 ∈ rest,
        mapGet (c.cache ++ [(keyOf e, entryOf e)]) (keyOf e2) = none := by
      intro e2 he2
      refine mapGet_append_none (hfresh e2 (by simp [he2])) ?_
      refine mapGet_eq_none ?_
      intro p hp
      simp only [List.mem_singleton] at hp
      subst hp
      intro hcontra
      have hcontra2 : keyOf e = keyOf e2 := hcontra
      exact hkey (by
        rw [hcontra2]
        exact List.mem_map_of_mem keyOf he2)
    have hnd2 : (rest.map keyOf).Nodup := by
      simp only [List.map_cons, List.nodup_cons] at hnd
      exact hnd.2
    have hcap2 : (c.cache ++ [(keyOf e, entryOf e)]).length + rest.length ≤ c.maxSize := by
      simp only [List.length_append, List.length_cons, List.length_nil] at hcap ⊢
      omega
    calc insertAll c (e :: rest)
      = insertAll (c.set e.1 e.2.1 e.2.2 0) rest := rfl
    _ = insertAll { c with cache := c.cache ++ [(keyOf e, entryOf e)] } rest := by rw [hstep]
    _ = { c with cache := (c.cache ++ [(keyOf e, entryOf e)]) ++ rest.map (fun e2 => (keyOf e2, entryOf e2)) } := by
          exact ih _ hrest hnd2 hcap2
    _ = { c with cache := c.cache ++ (e :: rest).map (fun e2 => (keyOf e2, entryOf e2)) } := by
          simp

theorem cacheGet_refresh (c : TranslationCache) (t l : List Char)
    (x y : List (List Char × CacheEntry)) (v : CacheEntry)
    (hc : c.cache = x ++ (generateKey t l, v) :: y)
    (hx : ∀ p ∈ x, p.1 ≠ generateKey t l)
    (hy : ∀ p ∈ y, p.1 ≠ generateKey t l) :
    c.get t l = (some v.translatedText,
      { c with cache := (x ++ y) ++ [(generateKey t l, v)] }) := by
  have hget : mapGet c.cache (generateKey t l) = some v := by
    rw [hc]
    exact mapGet_mid y v hx
  have hdel : mapDelete c.cache (generateKey t l) = x ++ y := by
    rw [hc]
    exact mapDelete_mid y v hx
  have hfresh : mapGet (x ++ y) (generateKey t l) = none :=
    mapGet_append_none (mapGet_eq_none hx) (mapGet_eq_none hy)
  simp only [TranslationCache.get]
  rw [hget]
  simp only
  rw [hdel, mapSet_absent _ hfresh]

theorem insertAll_append (c : TranslationCache)
    (a b : List (List Char × List Char × List Char)) :
    insertAll c (a ++ b) = insertAll (insertAll c a) b := by
  simp [insertAll, List.foldl_append]

theorem nodup_append_singleton {α : Type} {l : List α} {x : α}
    (h : (l ++ [x]).Nodup) : x ∉ l := by
  intro hx
  obtain ⟨-, -, hdisj⟩ := List.nodup_append.mp h
  exact hdisj hx (by simp)

theorem mapGet_pairs_eq_none (l : List (List Char × List Char × List Char))
    {k : List Char} (h : k ∉ l.map keyOf) :
    mapGet (l.map fun e => (keyOf e, entryOf e)) k = none := by
  refine mapGet_eq_none ?_
  intro p hp
  obtain ⟨e, he, rfl⟩ := List.mem_map.mp hp
  intro heq
  have heq2 : keyOf e = k := heq
  exact h (heq2 ▸ List.mem_map_of_mem keyOf he)

/-- Claim C7: for a `TranslationCache` of capacity `k`, inserting `k + 1`
distinct keys via `set` evicts exactly the least-recently-touched entry and
no other; a `get` on a present key refreshes its recency so that it is not
the victim of the next capacity eviction.  The capacity is
`k = (e0 :: e1 :: mid).length ≥ 2` and `eNew` is the `(k+1)`-st insertion;
the hypothesis states that the `k + 1` cache keys are pairwise distinct. -/
theorem c7_lru_order
    (e0 e1 eNew : List Char × List Char × List Char)
    (mid : List (List Char × List Char × List Char))
    (hnd : (((e0 :: e1 :: mid) ++ [eNew]).map keyOf).Nodup) :
    let k := (e0 :: e1 :: mid).length
    (let cA := insertAll (TranslationCache.empty k) ((e0 :: e1 :: mid) ++ [eNew])
     cA.hasEntry e0.1 e0.2.1 = false ∧
       ∀ e ∈ e1 :: (mid ++ [eNew]), cA.hasEntry e.1 e.2.1 = true) ∧
    (let c1 := insertAll (TranslationCache.empty k) (e0 :: e1 :: mid)
     let c3 := ((c1.get e0.1 e0.2.1).2).set eNew.1 eNew.2.1 eNew.2.2 0
     c3.hasEntry e0.1 e0.2.1 = true ∧ c3.hasEntry e1.1 e1.2.1 = false) := by
  intro k
  have hmap : ((e0 :: e1 :: mid) ++ [eNew]).map keyOf
      = keyOf e0 :: keyOf e1 :: (mid.map keyOf ++ [keyOf eNew]) := by simp
  rw [hmap] at hnd
  obtain ⟨h0, hnd1⟩ := List.nodup_cons.mp hnd
  obtain ⟨h1m, hnd2⟩ := List.nodup_cons.mp hnd1
  simp only [List.mem_cons, List.mem_append, List.mem_singleton, not_or] at h0 h1m
  obtain ⟨h01, h0mid, h0new, -⟩ := h0
  obtain ⟨h1mid, h1new, -⟩ := h1m
  have hnewmid : keyOf eNew ∉ mid.map keyOf := nodup_append_singleton hnd2
  -- the cache after inserting the first k entries
  have hfirstnd : ((e0 :: e1 :: mid).map keyOf).Nodup := by
    have hsub : List.Sublist ((e0 :: e1 :: mid).map keyOf)
        (((e0 :: e1 :: mid) ++ [eNew]).map keyOf) := by
      refine List.Sublist.map keyOf ?_
      exact List.sublist_append_left _ _
    refine List.Nodup.sublist hsub ?_
    rw [hmap]
    exact hnd
  have h1 : insertAll (TranslationCache.empty k) (e0 :: e1 :: mid) =
      { cache := (e0 :: e1 :: mid).map (fun e => (keyOf e, entryOf e)), maxSize := k } := by
    have := insertAll_fresh (e0 :: e1 :: mid) (TranslationCache.empty k)
      (by intro e _; rfl) hfirstnd (by
        show 0 + (e0 :: e1 :: mid).length ≤ (e0 :: e1 :: mid).length
        omega)
    simpa [TranslationCache.empty] using this
  have hlenfirst : ((e0 :: e1 :: mid).map (fun e => (keyOf e, entryOf e))).length = k := by
    rw [List.length_map]
  have hfreshnew : mapGet ((e0 :: e1 :: mid).map (fun e => (keyOf e, entryOf e))) (keyOf eNew)
      = none := by
    refine mapGet_pairs_eq_none _ ?_
    simp only [List.map_cons, List.mem_cons, not_or]
    exact ⟨fun h => h0new h.symm, fun h => h1new h.symm, hnewmid⟩
  constructor
  · -- part A: plain eviction of the least recently used entry
    intro cA
    have hA : cA = ⟨((e1 :: mid).map (fun e => (keyOf e, entryOf e))) ++
        [(keyOf eNew, entryOf eNew)], k⟩ := by
      show insertAll (TranslationCache.empty k) ((e0 :: e1 :: mid) ++ [eNew]) = _
      rw [insertAll_append, h1]
      show TranslationCache.set _ eNew.1 eNew.2.1 eNew.2.2 0 = _
      rw [cacheSet_evict _ _ _ _ _ (keyOf e0) (entryOf e0)
        ((e1 :: mid).map (fun e => (keyOf e, entryOf e))) (by simp) hfreshnew
        (by rw [hlenfirst])]
      rfl
    rw [hA]
    constructor
    · show mapHas _ _ = false
      unfold mapHas
      rw [mapGet_append_none]
      · rfl
      · refine mapGet_pairs_eq_none _ ?_
        simp only [List.map_cons, List.mem_cons, not_or]
        exact ⟨h01, h0mid⟩
      · refine mapGet_eq_none ?_
        intro p hp
        simp only [List.mem_singleton] at hp
        subst hp
        exact fun h => h0new (show keyOf eNew = keyOf e0 from h).symm
    · intro e he
      show mapHas _ _ = true
      unfold mapHas
      rcases List.mem_cons.mp he with rfl | he2
      · exact @mapGet_isSome_of_mem _ _ _ _ _ (entryOf e)
          (List.mem_append_left _ (List.mem_map_of_mem _ (List.mem_cons_self _ _)))
      · rcases List.mem_append.mp he2 with he3 | he3
        · exact @mapGet_isSome_of_mem _ _ _ _ _ (entryOf e)
            (List.mem_append_left _ (List.mem_map_of_mem _ (List.mem_cons_of_mem _ he3)))
        · simp only [List.mem_singleton] at he3
          subst he3
          exact @mapGet_isSome_of_mem _ _ _ _ _ (entryOf e)
            (List.mem_append_right _ (List.mem_singleton.mpr rfl))
  · -- part B: a get refreshes recency, protecting the entry from eviction
    intro c1 c3

    have hget : c1.get e0.1 e0.2.1 = (some (entryOf e0).translatedText,
        { c1 with cache := ([] ++ (e1 :: mid).map (fun e => (keyOf e, entryOf e)))
            ++ [(keyOf e0, entryOf e0)] }) := by
      refine cacheGet_refresh c1 e0.1 e0.2.1 [] _ (entryOf e0) ?_ (by simp) ?_
      · show (insertAll (TranslationCache.empty k) (e0 :: e1 :: mid)).cache = _
        rw [h1]
        rfl
      · intro p hp
        obtain ⟨e, he, rfl⟩ := List.mem_map.mp hp
        show keyOf e ≠ keyOf e0
        rcases List.mem_cons.mp he with rfl | he2
        · exact fun h => h01 h.symm
        · exact fun h => h0mid (h ▸ List.mem_map_of_mem keyOf he2)
    have hc2cache : (c1.get e0.1 e0.2.1).2.cache =
        (keyOf e1, entryOf e1) :: (mid.map (fun e => (keyOf e, entryOf e))
          ++ [(keyOf e0, entryOf e0)]) := by
      rw [hget]
      simp
    have hc2max : (c1.get e0.1 e0.2.1).2.maxSize = k := by
      rw [hget]
      show c1.maxSize = k
      show (insertAll (TranslationCache.empty k) (e0 :: e1 :: mid)).maxSize = k
      rw [h1]
    have hfresh3 : mapGet (c1.get e0.1 e0.2.1).2.cache (keyOf eNew) = none := by
      rw [hc2cache]
      refine mapGet_eq_none ?_
      intro p hp
      rcases List.mem_cons.mp hp with rfl | hp2
      · exact fun h => h1new (show keyOf e1 = keyOf eNew from h)
      · rcases List.mem_append.mp hp2 with hp3 | hp3
        · obtain ⟨e, he, rfl⟩ := List.mem_map.mp hp3
          exact fun h => hnewmid ((show keyOf e = keyOf eNew from h) ▸
            List.mem_map_of_mem keyOf he)
        · simp only [List.mem_singleton] at hp3
          subst hp3
          exact fun h => h0new (show keyOf e0 = keyOf eNew from h)
    have hcap3 : (c1.get e0.1 e0.2.1).2.maxSize ≤ (c1.get e0.1 e0.2.1).2.cache.length := by
      rw [hc2cache, hc2max]
      show (e0 :: e1 :: mid).length ≤ _
      simp
    have hc3 : c3 = ⟨(mid.map (fun e => (keyOf e, entryOf e))
        ++ [(keyOf e0, entryOf e0)])
        ++ [(keyOf eNew, entryOf eNew)], k⟩ := by
      show TranslationCache.set _ eNew.1 eNew.2.1 eNew.2.2 0 = _
      rw [cacheSet_evict _ _ _ _ _ (keyOf e1) (entryOf e1) _ hc2cache hfresh3 hcap3]
      rw [hc2max]
      exact rfl
    rw [hc3]
    constructor
    · show mapHas _ _ = true
      unfold mapHas
      exact @mapGet_isSome_of_mem _ _ _ _ _ (entryOf e0)
        (List.mem_append_left _ (List.mem_append_right _ (List.mem_singleton.mpr rfl)))
    · show mapHas _ _ = false
      unfold mapHas
      rw [mapGet_append_none]
      · rfl
      · refine mapGet_append_none ?_ ?_
        · refine mapGet_pairs_eq_none _ ?_
          exact fun h => h1mid h
        · refine mapGet_eq_none ?_
          intro p hp
          simp only [List.mem_singleton] at hp
          subst hp
          exact fun h => h01 (show keyOf e0 = keyOf e1 from h)
      · refine mapGet_eq_none ?_
        intro p hp
        simp only [List.mem_singleton] at hp
        subst hp
        exact fun h => h1new (show keyOf eNew = keyOf e1 from h).symm

/-- Witness for C7 at a concrete capacity-2 cache and three texts with
pairwise distinct keys. -/
theorem c7_lru_order_witness :
    ((((("a".toList, "ja".toList, "A".toList) :: ("b".toList, "ja".toList, "B".toList) :: []) ++
        [("c".toList, "ja".toList, "C".toList)]).map keyOf).Nodup) ∧
    (let k := (("a".toList, "ja".toList, "A".toList) :: ("b".toList, "ja".toList, "B".toList) :: []).length
     (let cA := insertAll (TranslationCache.empty k)
        ((("a".toList, "ja".toList, "A".toList) :: ("b".toList, "ja".toList, "B".toList) :: []) ++
          [("c".toList, "ja".toList, "C".toList)])
      cA.hasEntry "a".toList "ja".toList = false ∧
        ∀ e ∈ ("b".toList, "ja".toList, "B".toList) :: ([] ++ [("c".toList, "ja".toList, "C".toList)]),
          cA.hasEntry e.1 e.2.1 = true) ∧
     (let c1 := insertAll (TranslationCache.empty k)
        (("a".toList, "ja".toList, "A".toList) :: ("b".toList, "ja".toList, "B".toList) :: [])
      let c3 := ((c1.get "a".toList "ja".toList).2).set "c".toList "ja".toList "C".toList 0
      c3.hasEntry "a".toList "ja".toList = true ∧ c3.hasEntry "b".toList "ja".toList = false)) := by
  refine ⟨by decide, ?_⟩
  exact c7_lru_order ("a".toList, "ja".toList, "A".toList) ("b".toList, "ja".toList, "B".toList)
    ("c".toList, "ja".toList, "C".toList) [] (by decide)

/-! ## Rate limiter lemmas and claims C6, C9 -/

theorem intervalMs_pos (r : ℚ) (hr : 0 < r) : 0 < intervalMs r := by
  unfold intervalMs
  positivity

theorem RLInvP_dispatch (r : ℚ) (hr : 0 < r) (log : List (Nat × Nat)) (lpt op now : Nat)
    (hnow : 0 < now) (hinv : RLInvP r log lpt)
    (hcond : lpt = 0 ∨ intervalMs r ≤ ((now - lpt : Nat) : ℚ)) :
    RLInvP r (log ++ [(op, now)]) now := by
  obtain ⟨hchain, hlink⟩ := hinv
  rcases hlink with ⟨hnil, -⟩ | ⟨p, hlast, hlpt, hp⟩
  · subst hnil
    exact ⟨by simp [dispatchGapsOk], Or.inr ⟨(op, now), by simp, rfl, hnow⟩⟩
  · have hcond2 : intervalMs r ≤ ((now - lpt : Nat) : ℚ) := by
      rcases hcond with h0 | h
      · rw [hlpt] at h0
        omega
      · exact h
    have hlt : lpt < now := by
      by_contra hge
      push_neg at hge
      have hz : ((now - lpt : Nat) : ℚ) = 0 := by
        have hz2 : now - lpt = 0 := Nat.sub_eq_zero_of_le hge
        rw [hz2]
        norm_num
      rw [hz] at hcond2
      exact absurd hcond2 (not_le.mpr (intervalMs_pos r hr))
    refine ⟨?_, Or.inr ⟨(op, now), by simp, rfl, hnow⟩⟩
    unfold dispatchGapsOk at hchain ⊢
    rw [List.chain'_append]
    refine ⟨hchain, by simp, ?_⟩
    intro x hx y hy
    rw [hlast, Option.mem_def, Option.some_inj] at hx
    simp only [List.head?_cons, Option.mem_def, Option.some_inj] at hy
    subst hx
    subst hy
    rw [hlpt] at hlt hcond2
    exact ⟨hlt, hcond2⟩

theorem RLInv_processQueue (r : ℚ) (hr : 0 < r) (now : Nat) (hnow : 0 < now) (s : RLState)
    (h : RLInv r s) : RLInv r (processQueue r now s) := by
  unfold RLInv at h ⊢
  unfold processQueue
  split
  · exact h
  · split
    · exact h
    · split
      · split
        · exact h
        · exact RLInvP_dispatch r hr s.log s.lastProcessTime _ now hnow h (by assumption)
      · exact h

theorem RLInv_tickStep (r : ℚ) (hr : 0 < r) (now : Nat) (hnow : 0 < now) (s : RLState)
    (h : RLInv r s) : RLInv r (tickStep r now s) := by
  unfold RLInv at h ⊢
  unfold tickStep
  split
  · exact h
  · split
    · split
      · exact h
      · split
        · exact RLInvP_dispatch r hr s.log s.lastProcessTime _ now hnow h
            (Or.inr (by assumption))
        · exact RLInvP_dispatch r hr s.log s.lastProcessTime _ now hnow h
            (Or.inr (by assumption))
    · split
      · exact h
      · exact h

theorem RLInv_rlStep (r : ℚ) (hr : 0 < r) (s : RLState) (e : RLEvent × Nat)
    (hnow : 0 < e.2) (h : RLInv r s) : RLInv r (rlStep r s e) := by
  obtain ⟨ev, t⟩ := e
  cases ev with
  | exec id =>
      exact RLInv_processQueue r hr t hnow _ (by exact h)
  | tick => exact RLInv_tickStep r hr t hnow s h
  | clear => exact h

/-- Claim C6: for every configured rate `rps = r > 0` and every sequence of
`execute` calls, interval callbacks and `clearQueue` calls at positive
`Date.now()` times, no two operations are dispatched less than `1000 / r`
milliseconds apart: consecutive entries of the dispatch log are strictly
increasing in time with gaps of at least `1000 / r`. -/
theorem c6_rate_bound (r : ℚ) (hr : 0 < r) (tr : List (RLEvent × Nat))
    (ht : ∀ e ∈ tr, 0 < e.2) :
    dispatchGapsOk r (rlRun r tr).log := by
  have main : ∀ (tr2 : List (RLEvent × Nat)) (s : RLState), (∀ e ∈ tr2, 0 < e.2) →
      RLInv r s → RLInv r (tr2.foldl (rlStep r) s) := by
    intro tr2
    induction tr2 with
    | nil => exact fun s _ h => h
    | cons e rest ih =>
      intro s htimes h
      exact ih _ (fun e2 he2 => htimes e2 (by simp [he2]))
        (RLInv_rlStep r hr s e (htimes e (by simp)) h)
  have hinit : RLInv r RLState.initial := by
    exact ⟨by simp [dispatchGapsOk, RLState.initial], Or.inl ⟨rfl, rfl⟩⟩
  exact (main tr RLState.initial ht hinit).1

/-- Witness for C6: rate 2 requests per second, two operations queued 50 ms
apart and one interval tick at 700 ms; dispatch gaps stay at or above
500 ms. -/
theorem c6_rate_bound_witness :
    (0 < (2 : ℚ)) ∧
    (∀ e ∈ [(RLEvent.exec 1, 100), (RLEvent.exec 2, 150), (RLEvent.tick, 700)], 0 < e.2) ∧
    dispatchGapsOk 2 (rlRun 2 [(RLEvent.exec 1, 100), (RLEvent.exec 2, 150), (RLEvent.tick, 700)]).log := by
  refine ⟨by norm_num, by decide, ?_⟩
  exact c6_rate_bound 2 (by norm_num) _ (by decide)

theorem processQueue_eq_processQueueN (r : ℚ) (ivl : Nat)
    (hivl : intervalMs r = (ivl : ℚ)) (now : Nat) (s : RLState) :
    processQueue r now s = processQueueN ivl now s := by
  unfold processQueue processQueueN
  rw [hivl]
  norm_cast

theorem tickStep_eq_tickStepN (r : ℚ) (ivl : Nat)
    (hivl : intervalMs r = (ivl : ℚ)) (now : Nat) (s : RLState) :
    tickStep r now s = tickStepN ivl now s := by
  unfold tickStep tickStepN
  rw [hivl]
  norm_cast

theorem rlRun_eq_rlRunN (r : ℚ) (ivl : Nat) (hivl : intervalMs r = (ivl : ℚ))
    (tr : List (RLEvent × Nat)) : rlRun r tr = rlRunN ivl tr := by
  have main : ∀ (tr2 : List (RLEvent × Nat)) (s : RLState),
      tr2.foldl (rlStep r) s = tr2.foldl (rlStepN ivl) s := by
    intro tr2
    induction tr2 with
    | nil => exact fun s => rfl
    | cons e rest ih =>
      intro s
      have hstep : rlStep r s e = rlStepN ivl s e := by
        obtain ⟨ev, t⟩ := e
        cases ev with
        | exec id => exact processQueue_eq_processQueueN r ivl hivl t _
        | tick => exact tickStep_eq_tickStepN r ivl hivl t s
        | clear => rfl
      rw [List.foldl_cons, List.foldl_cons, hstep, ih]
  exact main tr RLState.initial

set_option maxRecDepth 40000 in
/-- Claim C9 (code bug): a rate limiter at 2 requests per second given four
operations queued at one instant dispatches them 500 ms apart — at relative
times 0, 500, 1000 and 1500 ms — and not at the times 0, 0, 500 and 1000 ms
asserted by the specification scenario and the repository test: only the
first operation runs immediately, because `processQueue` returns without
dispatching while the interval is scheduled. -/
theorem c9_dispatch_schedule :
    (rlRun 2 c9trace).log = [(1, 1000), (2, 1500), (3, 2000), (4, 2500)] := by
  rw [rlRun_eq_rlRunN 2 500 (by norm_num [intervalMs]) c9trace]
  decide

/-! ## API wrapper: claim C10 -/

/-- Claim C10, counterexample: an ok response whose body is the malformed
JSON `{"choices": []}` makes `translateText` resolve with the empty string
and NO error field, contradicting the claim that every malformed response
body yields a non-empty error message. -/
theorem c10_malformed_body_counterexample :
    (translateTextModel
      { text := "t".toList, targetLanguage := "ja".toList, apiEndpoint := "e".toList,
        apiKey := "k".toList, model := "m".toList }
      (FetchOutcome.resp true 200 ("OK".toList)
        (Except.ok (Js.obj [("choices".toList, Js.arr [])])))).translatedText = Js.str [] ∧
    (translateTextModel
      { text := "t".toList, targetLanguage := "ja".toList, apiEndpoint := "e".toList,
        apiKey := "k".toList, model := "m".toList }
      (FetchOutcome.resp true 200 ("OK".toList)
        (Except.ok (Js.obj [("choices".toList, Js.arr [])])))).error = none := by
  exact ⟨rfl, rfl⟩

/-- Claim C10 as amended: `translateText` always resolves (it is a total
function of the fetch outcome); on a fetch rejection, a non-success status,
a JSON parse failure, or a body whose `choices[0]` access throws it
resolves with an empty `translatedText` and an error message — prefixed by
`API request failed: ` (hence non-empty) in the non-success-status case —
while on an ok response whose content extraction succeeds it resolves with
the extracted content (or the empty string when the content is missing or
falsy) and no error field, even when the body is malformed. -/
theorem c10_translateText_total_amended (req : TranslationRequest) (f : FetchOutcome) :
    (∀ isErr msg, f = .reject isErr msg →
        (translateTextModel req f).translatedText = .str [] ∧
        (translateTextModel req f).error =
          some (if isErr then msg else ("Unknown error".toList))) ∧
    (∀ status stext body, f = .resp false status stext body →
        (translateTextModel req f).translatedText = .str [] ∧
        ∃ m, (translateTextModel req f).error = some (("API request failed: ".toList) ++ m)) ∧
    (∀ status stext msg, f = .resp true status stext (.error msg) →
        (translateTextModel req f).translatedText = .str [] ∧
        (translateTextModel req f).error = some msg) ∧
    (∀ status stext data msg, f = .resp true status stext (.ok data) →
        extractContent data = .error msg →
        (translateTextModel req f).translatedText = .str [] ∧
        (translateTextModel req f).error = some msg) ∧
    (∀ status stext data content, f = .resp true status stext (.ok data) →
        extractContent data = .ok content →
        (translateTextModel req f).error = none ∧
        (translateTextModel req f).translatedText =
          (if truthy content then content else .str [])) := by
  refine ⟨?_, ?_, ?_, ?_, ?_⟩
  · intro isErr msg hf
    subst hf
    exact ⟨rfl, rfl⟩
  · intro status stext body hf
    subst hf
    refine ⟨rfl, ?_⟩
    refine ⟨(let errorData := match body with
        | .ok j => j
        | .error _ => Js.nullv
      let e1 := ((jsOptField errorData ("error".toList)).toOption).getD Js.undefv
      let msg := ((jsOptField e1 ("message".toList)).toOption).getD Js.undefv
      if truthy msg then jsDisplay msg else natToDec status ++ ' ' :: stext), ?_⟩
    rfl
  · intro status stext msg hf
    subst hf
    exact ⟨rfl, rfl⟩
  · intro status stext data msg hf hex
    subst hf
    unfold translateTextModel
    simp only [if_neg (by simp : ¬(true = false))]
    rw [hex]
    exact ⟨rfl, rfl⟩
  · intro status stext data content hf hex
    subst hf
    unfold translateTextModel
    simp only [if_neg (by simp : ¬(true = false))]
    rw [hex]
    exact ⟨rfl, rfl⟩

/-- Witness for C10 at a concrete non-success response (status 500 with an
empty JSON object body). -/
theorem c10_translateText_total_amended_witness :
    (translateTextModel
      { text := "t".toList, targetLanguage := "ja".toList, apiEndpoint := "e".toList,
        apiKey := "k".toList, model := "m".toList }
      (FetchOutcome.resp false 500 ("Internal Server Error".toList)
        (Except.ok (Js.obj [])))).translatedText = .str [] ∧
    ∃ m, (translateTextModel
      { text := "t".toList, targetLanguage := "ja".toList, apiEndpoint := "e".toList,
        apiKey := "k".toList, model := "m".toList }
      (FetchOutcome.resp false 500 ("Internal Server Error".toList)
        (Except.ok (Js.obj [])))).error = some (("API request failed: ".toList) ++ m) := by
  exact (c10_translateText_total_amended
    { text := "t".toList, targetLanguage := "ja".toList, apiEndpoint := "e".toList,
      apiKey := "k".toList, model := "m".toList }
    (FetchOutcome.resp false 500 ("Internal Server Error".toList)
      (Except.ok (Js.obj [])))).2.1 500 ("Internal Server Error".toList)
    (Except.ok (Js.obj [])) rfl

/-! ## Dispatcher transport-error path: claims C2 and C3 -/

/-- Claim C2 (code bug): when the batch request fails with a non-success
status, `translateText` resolves with an error field, `processBatch` takes
its `else` branch which only logs, and every item of the batch is left with
neither `data-translated` nor `data-translation-failed` — the whole
dispatcher state is unchanged — contradicting the guarantee that each item
ends the pass in a determinate state. -/
theorem c2_transport_error_indeterminate :
    (let item1 : TranslationItem :=
      { elemId := 1, originalHTML := "a".toList, placeholderText := "a".toList,
        placeholderMap := [], chunkIndex := none, totalChunks := none, chunkId := none }
     let item2 : TranslationItem :=
      { elemId := 2, originalHTML := "b".toList, placeholderText := "b".toList,
        placeholderMap := [], chunkIndex := none, totalChunks := none, chunkId := none }
     let st : DispatchState :=
      { elems := [(1, ⟨"a".toList, false, false⟩), (2, ⟨"b".toList, false, false⟩)],
        cache := TranslationCache.empty 1000, chunkTranslations := [] }
     let cfg : BatchConfig :=
      { maxCharactersPerBatch := 4000, batchDelimiter := defaultDelimiter }
     let settings : TranslationSettings :=
      { apiEndpoint := "e".toList, apiKey := "k".toList, model := "m".toList,
        targetLanguage := "ja".toList }
     let resp := respS (translateTextModel
       { text := joinWith cfg.batchDelimiter [item1.placeholderText, item2.placeholderText],
         targetLanguage := settings.targetLanguage, apiEndpoint := settings.apiEndpoint,
         apiKey := settings.apiKey, model := settings.model }
       (FetchOutcome.resp false 500 ("Internal Server Error".toList)
         (Except.ok (Js.obj []))))
     let final := processBatch cfg settings [item1, item2] (BatchCall.resolved resp) [] st
     elemAfter final 1 = some ⟨"a".toList, false, false⟩ ∧
       elemAfter final 2 = some ⟨"b".toList, false, false⟩ ∧ final = st) := by
  exact ⟨rfl, rfl, rfl⟩

/-- Claim C3 (code bug): when the batch request fails with a transport
error (here a rejected `fetch`), `translateText` resolves with an error
field instead of throwing, so the `catch`-based per-item fallback of
`processBatch` never runs: no item is retried through the single-fragment
path, no cache entry is written and the elements stay untranslated — the
state is exactly the input state. -/
theorem c3_no_individual_fallback_on_transport_error :
    (let item1 : TranslationItem :=
      { elemId := 7, originalHTML := "x".toList, placeholderText := "x".toList,
        placeholderMap := [], chunkIndex := none, totalChunks := none, chunkId := none }
     let item2 : TranslationItem :=
      { elemId := 8, originalHTML := "y".toList, placeholderText := "y".toList,
        placeholderMap := [], chunkIndex := none, totalChunks := none, chunkId := none }
     let st : DispatchState :=
      { elems := [(7, ⟨"x".toList, false, false⟩), (8, ⟨"y".toList, false, false⟩)],
        cache := TranslationCache.empty 1000, chunkTranslations := [] }
     let cfg : BatchConfig :=
      { maxCharactersPerBatch := 4000, batchDelimiter := defaultDelimiter }
     let settings : TranslationSettings :=
      { apiEndpoint := "e".toList, apiKey := "k".toList, model := "m".toList,
        targetLanguage := "ja".toList }
     let resp := respS (translateTextModel
       { text := joinWith cfg.batchDelimiter [item1.placeholderText, item2.placeholderText],
         targetLanguage := settings.targetLanguage, apiEndpoint := settings.apiEndpoint,
         apiKey := settings.apiKey, model := settings.model }
       (FetchOutcome.reject true ("Failed to fetch".toList)))
     let final := processBatch cfg settings [item1, item2] (BatchCall.resolved resp) [] st
     final.cache.cache = [] ∧ final = st) := by
  exact ⟨rfl, rfl⟩

/-! ## Batch planner: claim C4 -/

theorem joinWith_append_one (sep : List Char) (xs : List (List Char)) (x : List Char)
    (hxs : xs ≠ []) : joinWith sep (xs ++ [x]) = joinWith sep xs ++ sep ++ x := by
  induction xs with
  | nil => exact absurd rfl hxs
  | cons y rest ih =>
    cases rest with
    | nil => rfl
    | cons z rest2 =>
      have := ih (by simp)
      simp only [List.cons_append] at this ⊢
      rw [joinWith, this, joinWith]
      simp [List.append_assoc]

theorem encodedSize_nil (cfg : BatchConfig) : encodedSize cfg [] = 0 := rfl

theorem encodedSize_singleton (cfg : BatchConfig) (it : TranslationItem) :
    encodedSize cfg [it] = it.placeholderText.length := rfl

theorem encodedSize_append_one (cfg : BatchConfig) (b : List TranslationItem)
    (hb : b ≠ []) (it : TranslationItem) :
    encodedSize cfg (b ++ [it]) =
      encodedSize cfg b + cfg.batchDelimiter.length + it.placeholderText.length := by
  unfold encodedSize
  rw [List.map_append]
  simp only [List.map_cons, List.map_nil]
  rw [joinWith_append_one _ _ _ (by simpa using hb)]
  simp [List.length_append]
  omega

theorem jsTrim_length_le (s : List Char) : (jsTrim s).length ≤ s.length := by
  unfold jsTrim
  calc ((s.dropWhile jsSpace).reverse.dropWhile jsSpace).reverse.length
      = ((s.dropWhile jsSpace).reverse.dropWhile jsSpace).length := List.length_reverse _
    _ ≤ (s.dropWhile jsSpace).reverse.length := (List.dropWhile_sublist _).length_le
    _ = (s.dropWhile jsSpace).length := List.length_reverse _
    _ ≤ s.length := (List.dropWhile_sublist _).length_le

theorem mem_le_foldr_max (l : List Nat) (x : Nat) (hx : x ∈ l) :
    x ≤ l.foldr max 0 := by
  induction l with
  | nil => cases hx
  | cons y rest ih =>
    rcases List.mem_cons.mp hx with rfl | h2
    · exact le_max_left _ _
    · exact le_trans (ih h2) (le_max_right _ _)

theorem sentence_le_maxSentenceLen (text s : List Char) (hs : s ∈ splitSentences text) :
    s.length ≤ maxSentenceLen text := by
  unfold maxSentenceLen
  exact mem_le_foldr_max _ _ (List.mem_map_of_mem List.length hs)

theorem splitChunksGo_bound (maxSize L : Nat) :
    ∀ (sentences : List (List Char)) (current : List Char),
    (∀ s ∈ sentences, s.length ≤ L) → current.length ≤ max maxSize L →
    ∀ c ∈ splitChunksGo maxSize sentences current, c.length ≤ max maxSize L := by
  intro sentences
  induction sentences with
  | nil =>
    intro current _ hcur c hc
    unfold splitChunksGo at hc
    split at hc
    · simp only [List.mem_singleton] at hc
      subst hc
      exact le_trans (jsTrim_length_le current) hcur
    · cases hc
  | cons s rest ih =>
    intro current hsen hcur c hc
    unfold splitChunksGo at hc
    split at hc
    · rcases List.mem_cons.mp hc with rfl | hc2
      · exact le_trans (jsTrim_length_le current) hcur
      · refine ih s ?_ ?_ c hc2
        · exact fun s2 hs2 => hsen s2 (by simp [hs2])
        · exact le_trans (hsen s (by simp)) (le_max_right _ _)
    · rename_i hcond
      push_neg at hcond
      by_cases hcur0 : current = []
      · subst hcur0
        refine ih s ?_ ?_ c hc
        · exact fun s2 hs2 => hsen s2 (by simp [hs2])
        · simpa using le_trans (hsen s (by simp)) (le_max_right _ _)
      · have hle : current.length + s.length ≤ maxSize := hcond hcur0
        refine ih (current ++ s) ?_ ?_ c hc
        · exact fun s2 hs2 => hsen s2 (by simp [hs2])
        · rw [List.length_append]
          exact le_trans hle (le_max_left _ _)

theorem sliceChunks_bound (chunkSize : Nat) :
    ∀ (fuel : Nat) (s : List Char), ∀ c ∈ sliceChunks chunkSize fuel s,
    c.length ≤ chunkSize := by
  intro fuel
  induction fuel with
  | zero =>
    intro s c hc
    cases s with
    | nil => cases hc
    | cons a rest => cases hc
  | succ fuel ih =>
    intro s c hc
    cases s with
    | nil => cases hc
    | cons a rest =>
      unfold sliceChunks at hc
      split at hc
      · cases hc
      · rcases List.mem_cons.mp hc with rfl | hc2
        · exact le_trans (List.length_take_le _ _) (le_refl _)
        · exact ih _ c hc2

theorem mem_withChunkInfo (cid : List Char) (item : TranslationItem)
    (texts : List (List Char)) (c : TranslationItem)
    (hc : c ∈ withChunkInfo cid item texts) : c.placeholderText ∈ texts := by
  unfold withChunkInfo at hc
  obtain ⟨p, hp, rfl⟩ := List.mem_map.mp hc
  show p.2 ∈ texts
  exact List.getElem?_mem (List.mem_enum_iff_getElem?.mp hp)

theorem splitChunksGo_eq_nil (maxSize : Nat) :
    ∀ (sentences : List (List Char)) (current : List Char),
    splitChunksGo maxSize sentences current = [] →
    jsTrim (current ++ sentences.flatten) = [] := by
  intro sentences
  induction sentences with
  | nil =>
    intro current h
    unfold splitChunksGo at h
    split at h
    · exact absurd h (by simp)
    · rename_i hcond
      rw [List.flatten_nil, List.append_nil]
      exact not_not.mp hcond
  | cons s rest ih =>
    intro current h
    unfold splitChunksGo at h
    split at h
    · exact absurd h (by simp)
    · have h2 := ih (current ++ s) h
      rwa [List.flatten_cons, ← List.append_assoc]

theorem jsTrim_eq_nil_forall {s : List Char} (h : jsTrim s = []) :
    ∀ c ∈ s, jsSpace c := by
  unfold jsTrim at h
  have h1 : (s.dropWhile jsSpace).reverse.dropWhile jsSpace = [] := by
    have h0 := congrArg List.reverse h
    rwa [List.reverse_reverse, List.reverse_nil] at h0
  have h3 : ∀ c ∈ s.dropWhile jsSpace, jsSpace c :=
    fun c hc => List.dropWhile_eq_nil_iff.mp h1 c (List.mem_reverse.mpr hc)
  intro c hc
  rw [← List.takeWhile_append_dropWhile jsSpace s] at hc
  rcases List.mem_append.mp hc with h4 | h4
  · exact List.mem_takeWhile_imp h4
  · exact h3 c h4

theorem splitOversizedItem_bound (cfg : BatchConfig) (cid : List Char)
    (item : TranslationItem) (c : TranslationItem)
    (hc : c ∈ splitOversizedItem cfg cid item) :
    (c.placeholderText.length ≤
        max cfg.maxCharactersPerBatch (maxSentenceLen item.placeholderText) ∧
      ((∀ s ∈ splitSentences item.placeholderText,
          s.length ≤ cfg.maxCharactersPerBatch * 9 / 10) →
        c.placeholderText.length ≤ cfg.maxCharactersPerBatch * 9 / 10)) ∨
    (c = item ∧ ∀ ch ∈ (splitSentences item.placeholderText).flatten, jsSpace ch) := by
  simp only [splitOversizedItem] at hc
  set B := cfg.maxCharactersPerBatch with hB
  set text := item.placeholderText with htext
  set maxSize := B * 9 / 10 with hms
  set L := maxSentenceLen text with hL
  have hsen : ∀ s ∈ splitSentences text, s.length ≤ L :=
    fun s hs => sentence_le_maxSentenceLen text s hs
  have hall : ∀ ct ∈ splitChunksGo maxSize (splitSentences text) [],
      ct.length ≤ max maxSize L :=
    splitChunksGo_bound maxSize L (splitSentences text) [] hsen (by simp)
  have hallR : (∀ s ∈ splitSentences text, s.length ≤ maxSize) →
      ∀ ct ∈ splitChunksGo maxSize (splitSentences text) [], ct.length ≤ maxSize := by
    intro hy ct hct
    have h0 := splitChunksGo_bound maxSize maxSize (splitSentences text) [] hy (by simp) ct hct
    simpa using h0
  have hmsB : maxSize ≤ B := by omega
  split at hc
  · rename_i single heq
    split at hc
    · rename_i hforce
      have h1 := mem_withChunkInfo _ _ _ _ hc
      have h2 := sliceChunks_bound maxSize _ _ _ h1
      exact Or.inl ⟨le_trans h2 (le_trans hmsB (le_max_left _ _)), fun _ => h2⟩
    · rename_i hforce
      have h1 := mem_withChunkInfo _ _ _ _ hc
      have h2 : c.placeholderText = single := by simpa using h1
      have h3 : single.length ≤ B := le_of_not_lt hforce
      refine Or.inl ⟨h2 ▸ le_trans h3 (le_max_left _ _), fun hy => ?_⟩
      have h4 : single ∈ splitChunksGo maxSize (splitSentences text) [] := by
        rw [heq]; simp
      exact h2 ▸ hallR hy single h4
  · rename_i heq
    have h1 : c = item := by simpa using hc
    refine Or.inr ⟨h1, ?_⟩
    have h2 := splitChunksGo_eq_nil maxSize (splitSentences text) [] heq
    rw [List.nil_append] at h2
    exact jsTrim_eq_nil_forall h2
  · have h3 := mem_withChunkInfo _ _ _ _ hc
    refine Or.inl ⟨le_trans (hall _ h3) (max_le_max hmsB (le_refl L)), fun hy => hallR hy _ h3⟩

theorem applyCachedLoop_subset (settings : TranslationSettings) :
    ∀ (items acc : List TranslationItem) (st : DispatchState),
    ∀ x ∈ (applyCachedLoop settings items acc st).1, x ∈ acc ∨ x ∈ items := by
  intro items
  induction items with
  | nil =>
    intro acc st x hx
    simp only [applyCachedLoop] at hx
    exact Or.inl (List.mem_reverse.mp hx)
  | cons item rest ih =>
    intro acc st x hx
    simp only [applyCachedLoop] at hx
    split at hx
    · split at hx
      · rcases ih _ _ x hx with h | h
        · exact Or.inl h
        · exact Or.inr (List.mem_cons_of_mem _ h)
      · rcases ih _ _ x hx with h | h
        · rcases List.mem_cons.mp h with rfl | h2
          · exact Or.inr (List.mem_cons_self _ _)
          · exact Or.inl h2
        · exact Or.inr (List.mem_cons_of_mem _ h)
    · rcases ih _ _ x hx with h | h
      · rcases List.mem_cons.mp h with rfl | h2
        · exact Or.inr (List.mem_cons_self _ _)
        · exact Or.inl h2
      · exact Or.inr (List.mem_cons_of_mem _ h)

theorem createBatchesLoop_ok (cfg : BatchConfig) (items0 : List TranslationItem) :
    ∀ (pending : List TranslationItem) (batches : List (List TranslationItem))
      (currentBatch : List TranslationItem) (currentSize counter : Nat),
    (∀ it ∈ pending, it ∈ items0 ∧ it.chunkId = none) →
    (∀ b ∈ batches, BatchOK cfg items0 b) →
    ((currentBatch = [] ∧ currentSize = 0) ∨
      (currentBatch ≠ [] ∧ currentSize = encodedSize cfg currentBatch ∧
        currentSize ≤ cfg.maxCharactersPerBatch ∧
        ∀ it ∈ currentBatch, it.chunkId = none)) →
    ∀ b ∈ (createBatchesLoop cfg pending batches currentBatch currentSize counter).1,
      BatchOK cfg items0 b := by
  intro pending
  induction pending with
  | nil =>
    intro batches currentBatch currentSize counter hpen hb hcur b hmem
    simp only [createBatchesLoop] at hmem
    by_cases hne : currentBatch = []
    · rw [if_neg (not_not.mpr hne)] at hmem
      exact hb b hmem
    · rw [if_pos hne] at hmem
      rcases List.mem_append.mp hmem with h | h
      · exact hb b h
      · rcases hcur with ⟨h1, _⟩ | ⟨_, hsz, hle, hck⟩
        · exact absurd h1 hne
        · have hbc : b = currentBatch := by simpa using h
          subst hbc
          exact Or.inl ⟨hck, hsz ▸ hle⟩
  | cons item rest ih =>
    intro batches currentBatch currentSize counter hpen hb hcur b hmem
    have hpen2 : ∀ it ∈ rest, it ∈ items0 ∧ it.chunkId = none :=
      fun it hit => hpen it (List.mem_cons_of_mem _ hit)
    have hitem := hpen item (List.mem_cons_self _ _)
    by_cases hne : currentBatch = []
    · subst hne
      have hsz0 : currentSize = 0 := by
        rcases hcur with ⟨_, h⟩ | ⟨h, _⟩
        · exact h
        · exact absurd rfl h
      subst hsz0
      simp only [createBatchesLoop, ne_eq, not_true_eq_false, false_and, if_false,
        List.nil_append, List.length_singleton, if_true, true_and, add_zero, zero_add,
        ite_false, ite_true] at hmem
      by_cases hbig : cfg.maxCharactersPerBatch < item.placeholderText.length
      · rw [if_pos hbig] at hmem
        refine ih _ _ _ _ hpen2 ?_ (Or.inl ⟨rfl, rfl⟩) b hmem
        intro b2 hb2
        rcases List.mem_append.mp hb2 with h | h
        · exact hb b2 h
        · obtain ⟨ch, hch, rfl⟩ := List.mem_map.mp h
          exact Or.inr ⟨ch, item, chunkIdFor counter, rfl, hitem.1, hch⟩
      · rw [if_neg hbig] at hmem
        refine ih _ _ _ _ hpen2 hb ?_ b hmem
        refine Or.inr ⟨by simp, (encodedSize_singleton cfg item).symm, le_of_not_lt hbig, ?_⟩
        intro it hit
        have : it = item := by simpa using hit
        exact this ▸ hitem.2
    · rcases hcur with ⟨h1, _⟩ | ⟨_, hsz, hle, hck⟩
      · exact absurd h1 hne
      simp only [createBatchesLoop, ne_eq, hne, not_false_eq_true, if_true, true_and,
        ite_true] at hmem
      by_cases hov : cfg.maxCharactersPerBatch <
          currentSize + (item.placeholderText.length + cfg.batchDelimiter.length)
      · simp only [if_pos hov, true_and, List.nil_append, List.length_singleton,
          ite_true, zero_add] at hmem
        have hbOK : ∀ b2 ∈ batches ++ [currentBatch], BatchOK cfg items0 b2 := by
          intro b2 hb2
          rcases List.mem_append.mp hb2 with h | h
          · exact hb b2 h
          · have hbc : b2 = currentBatch := by simpa using h
            subst hbc
            exact Or.inl ⟨hck, hsz ▸ hle⟩
        by_cases hbig : cfg.maxCharactersPerBatch < item.placeholderText.length
        · simp only [if_pos hbig] at hmem
          refine ih _ _ _ _ hpen2 ?_ (Or.inl ⟨rfl, rfl⟩) b hmem
          intro b2 hb2
          rcases List.mem_append.mp hb2 with h | h
          · exact hbOK b2 h
          · obtain ⟨ch, hch, rfl⟩ := List.mem_map.mp h
            exact Or.inr ⟨ch, item, chunkIdFor counter, rfl, hitem.1, hch⟩
        · simp only [if_neg hbig] at hmem
          refine ih _ _ _ _ hpen2 hbOK ?_ b hmem
          refine Or.inr ⟨by simp, (encodedSize_singleton cfg item).symm, le_of_not_lt hbig, ?_⟩
          intro it hit
          have : it = item := by simpa using hit
          exact this ▸ hitem.2
      · simp only [if_neg hov] at hmem
        simp only [hne, false_and, if_false, ite_false] at hmem
        have hlen : ¬ (currentBatch ++ [item]).length = 1 := by
          simp [List.length_append, List.length_eq_zero, hne]
        simp only [if_neg hlen] at hmem
        refine ih _ _ _ _ hpen2 hb ?_ b hmem
        refine Or.inr ⟨by simp [hne], ?_, ?_, ?_⟩
        · rw [encodedSize_append_one cfg currentBatch hne item, ← hsz]
          omega
        · omega
        · intro it hit
          rcases List.mem_append.mp hit with h | h
          · exact hck it h
          · have : it = item := by simpa using h
            exact this ▸ hitem.2

/-- C4, corrected: every batch produced by `createBatches` from chunk-free
items either consists of chunk-free items whose encoded size (unit texts
plus one inter-unit delimiter per adjacent pair) is at most the configured
budget, or is a single-chunk batch obtained by `splitOversizedItem` from
one of the input items.  A chunk's text is bounded by the larger of the
budget and the longest sentence of its source item; it is bounded by 90% of
the budget only under the extra hypothesis that every sentence of the
source fits in 90% of the budget; and a sentence-matched-whitespace-only
oversized item passes through unsplit. -/
theorem c4_batch_size_bound_amended (cfg : BatchConfig) (settings : TranslationSettings)
    (items : List TranslationItem) (st : DispatchState)
    (hchunk : ∀ it ∈ items, it.chunkId = none) :
    ∀ b ∈ (createBatches cfg settings items st).1,
      ((∀ it ∈ b, it.chunkId = none) ∧ encodedSize cfg b ≤ cfg.maxCharactersPerBatch) ∨
      (∃ c src cid, b = [c] ∧ src ∈ items ∧ c ∈ splitOversizedItem cfg cid src ∧
        ((c.placeholderText.length ≤
            max cfg.maxCharactersPerBatch (maxSentenceLen src.placeholderText) ∧
          ((∀ s ∈ splitSentences src.placeholderText,
              s.length ≤ cfg.maxCharactersPerBatch * 9 / 10) →
            c.placeholderText.length ≤ cfg.maxCharactersPerBatch * 9 / 10)) ∨
         (c = src ∧ ∀ ch ∈ (splitSentences src.placeholderText).flatten, jsSpace ch))) := by
  intro b hmem
  simp only [createBatches] at hmem
  have hsub : ∀ x ∈ (applyCachedLoop settings items [] st).1, x ∈ items := by
    intro x hx
    rcases applyCachedLoop_subset settings items [] st x hx with h | h
    · cases h
    · exact h
  have hok := createBatchesLoop_ok cfg items (applyCachedLoop settings items [] st).1
    [] [] 0 0 (fun it hit => ⟨hsub it hit, hchunk it (hsub it hit)⟩)
    (fun b2 hb2 => absurd hb2 (List.not_mem_nil _)) (Or.inl ⟨rfl, rfl⟩) b hmem
  rcases hok with h | ⟨c, src, cid, rfl, hsrc, hc⟩
  · exact Or.inl h
  · exact Or.inr ⟨c, src, cid, rfl, hsrc, hc, splitOversizedItem_bound cfg cid src c hc⟩

/-- C4, counterexample to the literal claim: with a budget of 20, the single
item `"aa. bbbbbbbbbbbbbbbbbbbbbbbbb."` is split into the two single-chunk
batches `"aa."` and `"bbbbbbbbbbbbbbbbbbbbbbbbb."`; the second chunk batch
has encoded size 26, which exceeds both 90% of the budget (18) and the
budget itself, because a chunk that consists of a single oversized sentence
is pushed whole, without the force-split that only a one-chunk result
triggers. -/
theorem c4_chunk_over_budget_counterexample :
    ((createBatches ⟨20, defaultDelimiter⟩ ⟨[], [], [], []⟩
        [⟨0, [], "aa. bbbbbbbbbbbbbbbbbbbbbbbbb.".toList, [], none, none, none⟩]
        ⟨[], TranslationCache.empty 1000, []⟩).1.map
      (fun b => b.map (fun it => it.placeholderText)) =
        [["aa.".toList], ["bbbbbbbbbbbbbbbbbbbbbbbbb.".toList]]) ∧
    ((createBatches ⟨20, defaultDelimiter⟩ ⟨[], [], [], []⟩
        [⟨0, [], "aa. bbbbbbbbbbbbbbbbbbbbbbbbb.".toList, [], none, none, none⟩]
        ⟨[], TranslationCache.empty 1000, []⟩).1.map
      (fun b => encodedSize ⟨20, defaultDelimiter⟩ b) = [3, 26]) ∧
    ¬ (26 ≤ 20 * 9 / 10) ∧ ¬ (26 ≤ 20) := by
  decide

/-- Witness instantiating the corrected C4 theorem on a concrete run: one
chunk-free item `"Hi. Yo."` under a budget of 20. -/
theorem c4_batch_size_bound_amended_witness :
    (∀ it ∈ [(⟨0, [], "Hi. Yo.".toList, [], none, none, none⟩ : TranslationItem)],
        it.chunkId = none) ∧
    ∀ b ∈ (createBatches ⟨20, defaultDelimiter⟩ ⟨[], [], [], []⟩
        [⟨0, [], "Hi. Yo.".toList, [], none, none, none⟩]
        ⟨[], TranslationCache.empty 4, []⟩).1,
      ((∀ it ∈ b, it.chunkId = none) ∧
        encodedSize ⟨20, defaultDelimiter⟩ b ≤ (20 : Nat)) ∨
      (∃ c src cid, b = [c] ∧
        src ∈ [(⟨0, [], "Hi. Yo.".toList, [], none, none, none⟩ : TranslationItem)] ∧
        c ∈ splitOversizedItem ⟨20, defaultDelimiter⟩ cid src ∧
        ((c.placeholderText.length ≤ max 20 (maxSentenceLen src.placeholderText) ∧
          ((∀ s ∈ splitSentences src.placeholderText, s.length ≤ 20 * 9 / 10) →
            c.placeholderText.length ≤ 20 * 9 / 10)) ∨
         (c = src ∧ ∀ ch ∈ (splitSentences src.placeholderText).flatten, jsSpace ch))) :=
  ⟨by decide,
    c4_batch_size_bound_amended ⟨20, defaultDelimiter⟩ ⟨[], [], [], []⟩
      [⟨0, [], "Hi. Yo.".toList, [], none, none, none⟩]
      ⟨[], TranslationCache.empty 4, []⟩ (by decide)⟩

theorem elemAfter_updateElem (st : DispatchState) (id : Nat) (f : ElemState → ElemState) :
    elemAfter (updateElem st id f) id = (elemAfter st id).map f := by
  unfold elemAfter updateElem
  show mapGet (st.elems.map fun p => if p.1 = id then (p.1, f p.2) else p) id
      = (mapGet st.elems id).map f
  induction st.elems with
  | nil => rfl
  | cons p rest ih =>
    obtain ⟨k, v⟩ := p
    simp only [List.map_cons]
    by_cases hk : k = id
    · subst hk
      rw [if_pos rfl]
      simp [mapGet]
    · rw [if_neg hk]
      simp only [mapGet]
      rw [if_neg hk, if_neg hk]
      exact ih

/-- C5, corrected: for a single-chunk batch (the shape `createBatches`
produces for the chunks of an oversized item) whose group has `tc > 1`
chunks, `processBatch` does not wait for the rest of the group: JavaScript
`Array.prototype.every` skips the holes of the sparse
`new Array(totalChunks)`, so the readiness check passes as soon as the
arriving chunk is stored.  The trimmed segment is put at the chunk's index,
the group's slots are immediately joined with single spaces in chunk-index
order — every chunk that has not arrived contributing an empty string —
the join is cached under the item's `originalHTML` (not, as the spec says,
under the original pre-split encoded placeholder text), decoded with the
item's placeholder map, applied to the element with the failure marker
cleared, and the group is deleted from the aggregation map. -/
theorem c5_chunk_reassembly_amended (cfg : BatchConfig) (settings : TranslationSettings)
    (item : TranslationItem) (st : DispatchState) (singles : List RespS)
    (cid : List Char) (idx tc : Nat) (resp : RespS) (seg : List Char) (segs : List (List Char))
    (hcid : item.chunkId = some cid) (hcidne : cid ≠ [])
    (htc : item.totalChunks = some tc) (htc1 : 1 < tc)
    (hidx : item.chunkIndex = some idx)
    (herr : resp.error = none) (htext : resp.translatedText ≠ [])
    (hsplit : splitResponse cfg resp.translatedText = seg :: segs)
    (htrim : jsTrim seg ≠ []) :
    let A := ((mapGet st.chunkTranslations cid).getD (List.replicate tc none)).set
      idx (some (jsTrim seg))
    let full := joinWith [' '] (A.map (fun o => o.getD []))
    (processBatch cfg settings [item] (.resolved resp) singles st).cache =
      st.cache.set item.originalHTML settings.targetLanguage full 0 ∧
    elemAfter (processBatch cfg settings [item] (.resolved resp) singles st) item.elemId =
      (elemAfter st item.elemId).map (fun e =>
        { e with innerHTML := placeholdersToHtml full item.placeholderMap,
                 translated := true, failed := false }) ∧
    (processBatch cfg settings [item] (.resolved resp) singles st).chunkTranslations =
      mapDelete (mapSet st.chunkTranslations cid A) cid := by
  intro A full
  have hres : processBatch cfg settings [item] (.resolved resp) singles st
      = applyOne settings st (item, seg) := by
    show (if ([item] : List TranslationItem) = [] then st else
      if resp.error = none ∧ resp.translatedText ≠ [] then
        let translations := splitResponse cfg resp.translatedText
        let st1 := ([item].zip translations).foldl (applyOne settings) st
        if translations.length < [item].length then
          markTrailingFailed ([item].drop translations.length) st1
        else st1
      else st) = applyOne settings st (item, seg)
    rw [if_neg (by simp), if_pos ⟨herr, htext⟩]
    simp only [hsplit, List.zip_cons_cons, List.zip_nil_left, List.foldl_cons,
      List.foldl_nil, List.length_cons, List.length_singleton, List.length_nil]
    rw [if_neg (by omega)]
  rw [hres]
  have happ : applyOne settings st (item, seg) =
      (let st1 := { st with chunkTranslations := mapSet st.chunkTranslations cid A }
       let st2 := { st1 with
         cache := st1.cache.set item.originalHTML settings.targetLanguage full 0 }
       let st3 := updateElem st2 item.elemId (fun e =>
         { e with innerHTML := placeholdersToHtml full item.placeholderMap,
                  translated := true, failed := false })
       { st3 with chunkTranslations := mapDelete st3.chunkTranslations cid }) := by
    simp only [applyOne, hcid, htc, hidx]
    rw [if_neg htrim, if_pos ⟨hcidne, htc1⟩]
    simp only [Option.getD_some]
  rw [happ]
  refine ⟨rfl, ?_, rfl⟩
  exact elemAfter_updateElem
    ⟨st.elems, st.cache.set item.originalHTML settings.targetLanguage full 0,
      mapSet st.chunkTranslations cid A⟩
    item.elemId
    (fun e => { e with
      innerHTML := placeholdersToHtml full item.placeholderMap,
      translated := true, failed := false })

set_option maxRecDepth 40000 in
/-- C5, counterexample to the literal claim: an oversized item is split
into two chunks; already after the FIRST chunk's response, while the second
chunk is still missing, the element is updated with the decoded join
`"T1 "` (the absent chunk contributes an empty string after the separator)
and the join is cached — under the key derived from the item's
`originalHTML` (`"<p>A</p>"`), while a lookup under the original pre-split
encoded placeholder text, the key the spec prescribes, misses; the
aggregation map is already empty again. -/
theorem c5_cache_key_counterexample :
    let cfg : BatchConfig := ⟨20, defaultDelimiter⟩
    let settings : TranslationSettings := ⟨[], [], [], "ja".toList⟩
    let src : TranslationItem :=
      ⟨0, "<p>A</p>".toList, "aa. bbbbbbbbbbbbbbbbbbbbbbbbb.".toList, [], none, none, none⟩
    let st0 : DispatchState :=
      ⟨[(0, ⟨src.originalHTML, false, false⟩)], TranslationCache.empty 10, []⟩
    let r := createBatches cfg settings [src] st0
    let st1 := processBatch cfg settings (r.1.getD 0 []) (.resolved ⟨"T1".toList, none⟩) [] r.2
    (st1.cache.get src.originalHTML settings.targetLanguage).1 = some "T1 ".toList ∧
    elemAfter st1 0 = some ⟨"T1 ".toList, true, false⟩ ∧
    (st1.cache.get src.placeholderText settings.targetLanguage).1 = none ∧
    st1.chunkTranslations = [] := by
  decide

/-- C5 witness: the second chunk of a two-chunk group arrives while the
first chunk's slot is still stored, so `"Hi!"` and `"Hello"` are joined,
cached under the item's original HTML and applied. -/
theorem c5_chunk_reassembly_amended_witness :
    ((⟨3, "<p>Z</p>".toList, "t".toList, [], some 1, some 2, some "g".toList⟩ :
        TranslationItem).chunkId = some "g".toList) ∧
    ("g".toList ≠ []) ∧
    ((⟨3, "<p>Z</p>".toList, "t".toList, [], some 1, some 2, some "g".toList⟩ :
        TranslationItem).totalChunks = some 2) ∧
    (1 < 2) ∧
    ((⟨3, "<p>Z</p>".toList, "t".toList, [], some 1, some 2, some "g".toList⟩ :
        TranslationItem).chunkIndex = some 1) ∧
    ((⟨"Hello".toList, none⟩ : RespS).error = none) ∧
    ((⟨"Hello".toList, none⟩ : RespS).translatedText ≠ []) ∧
    (splitResponse ⟨100, defaultDelimiter⟩ "Hello".toList = ["Hello".toList]) ∧
    (jsTrim "Hello".toList ≠ []) ∧
    (let A := ((mapGet ([("g".toList, [some "Hi!".toList, none])] :
        List (List Char × List (Option (List Char)))) "g".toList).getD
        (List.replicate 2 none)).set 1 (some (jsTrim "Hello".toList))
     let full := joinWith [' '] (A.map (fun o => o.getD []))
     (processBatch ⟨100, defaultDelimiter⟩ ⟨[], [], [], "ja".toList⟩
         [⟨3, "<p>Z</p>".toList, "t".toList, [], some 1, some 2, some "g".toList⟩]
         (.resolved ⟨"Hello".toList, none⟩) []
         ⟨[(3, ⟨[], false, false⟩)], TranslationCache.empty 5,
           [("g".toList, [some "Hi!".toList, none])]⟩).cache =
       (⟨[(3, ⟨[], false, false⟩)], TranslationCache.empty 5,
           [("g".toList, [some "Hi!".toList, none])]⟩ : DispatchState).cache.set
         "<p>Z</p>".toList "ja".toList full 0 ∧
     elemAfter (processBatch ⟨100, defaultDelimiter⟩ ⟨[], [], [], "ja".toList⟩
         [⟨3, "<p>Z</p>".toList, "t".toList, [], some 1, some 2, some "g".toList⟩]
         (.resolved ⟨"Hello".toList, none⟩) []
         ⟨[(3, ⟨[], false, false⟩)], TranslationCache.empty 5,
           [("g".toList, [some "Hi!".toList, none])]⟩) 3 =
       (elemAfter (⟨[(3, ⟨[], false, false⟩)], TranslationCache.empty 5,
           [("g".toList, [some "Hi!".toList, none])]⟩ : DispatchState) 3).map (fun e =>
         { e with innerHTML := placeholdersToHtml full [],
                  translated := true, failed := false }) ∧
     (processBatch ⟨100, defaultDelimiter⟩ ⟨[], [], [], "ja".toList⟩
         [⟨3, "<p>Z</p>".toList, "t".toList, [], some 1, some 2, some "g".toList⟩]
         (.resolved ⟨"Hello".toList, none⟩) []
         ⟨[(3, ⟨[], false, false⟩)], TranslationCache.empty 5,
           [("g".toList, [some "Hi!".toList, none])]⟩).chunkTranslations =
       mapDelete (mapSet [("g".toList, [some "Hi!".toList, none])] "g".toList A)
         "g".toList) :=
  ⟨rfl, by decide, rfl, by decide, rfl, rfl, by decide, by decide, by decide,
    c5_chunk_reassembly_amended ⟨100, defaultDelimiter⟩ ⟨[], [], [], "ja".toList⟩
      ⟨3, "<p>Z</p>".toList, "t".toList, [], some 1, some 2, some "g".toList⟩
      ⟨[(3, ⟨[], false, false⟩)], TranslationCache.empty 5,
        [("g".toList, [some "Hi!".toList, none])]⟩
      [] "g".toList 1 2 ⟨"Hello".toList, none⟩ "Hello".toList []
      rfl (by decide) rfl (by decide) rfl rfl (by decide) (by decide) (by decide)⟩

theorem zip_take_left {α β : Type} : ∀ (l1 : List α) (l2 : List β),
    l1.zip l2 = (l1.take l2.length).zip l2 := by
  intro l1
  induction l1 with
  | nil => intro l2; simp
  | cons a t ih =>
    intro l2
    cases l2 with
    | nil => simp
    | cons b t2 =>
      simp only [List.length_cons, List.take_succ_cons, List.zip_cons_cons]
      rw [← ih t2]

theorem mapGet_mapSet_self {κ α : Type} [DecidableEq κ] :
    ∀ (m : List (κ × α)) (k : κ) (v : α), mapGet (mapSet m k v) k = some v := by
  intro m
  induction m with
  | nil => intro k v; simp [mapSet, mapGet]
  | cons p rest ih =>
    intro k v
    obtain ⟨k2, v2⟩ := p
    simp only [mapSet]
    by_cases hk : k2 = k
    · rw [if_pos hk]
      simp [mapGet, hk]
    · rw [if_neg hk]
      simp only [mapGet]
      rw [if_neg hk]
      exact ih k v

theorem mapGet_mapSet_ne {κ α : Type} [DecidableEq κ] :
    ∀ (m : List (κ × α)) (k1 k : κ) (v : α), k1 ≠ k →
    mapGet (mapSet m k1 v) k = mapGet m k := by
  intro m
  induction m with
  | nil =>
    intro k1 k v hk
    simp only [mapSet, mapGet]
    rw [if_neg hk]
  | cons p rest ih =>
    intro k1 k v hk
    obtain ⟨k2, v2⟩ := p
    simp only [mapSet]
    by_cases hk2 : k2 = k1
    · rw [if_pos hk2]
      simp only [mapGet]
      rw [if_neg (hk2 ▸ hk), if_neg (hk2 ▸ hk)]
    · rw [if_neg hk2]
      simp only [mapGet]
      by_cases hk3 : k2 = k
      · rw [if_pos hk3, if_pos hk3]
      · rw [if_neg hk3, if_neg hk3]
        exact ih k1 k v hk

theorem length_mapSet_le {κ α : Type} [DecidableEq κ] :
    ∀ (m : List (κ × α)) (k : κ) (v : α), (mapSet m k v).length ≤ m.length + 1 := by
  intro m
  induction m with
  | nil => intro k v; simp [mapSet]
  | cons p rest ih =>
    intro k v
    obtain ⟨k2, v2⟩ := p
    simp only [mapSet]
    by_cases hk : k2 = k
    · rw [if_pos hk]
      simp
    · rw [if_neg hk]
      simp only [List.length_cons]
      exact Nat.succ_le_succ (ih k v)

theorem cacheSet_no_evict (c : TranslationCache) (t l v : List Char) (now : Nat)
    (hcap : c.cache.length < c.maxSize) :
    c.set t l v now =
      { c with cache := mapSet c.cache (generateKey t l) { translatedText := v, timestamp := now } } := by
  simp only [TranslationCache.set]
  rw [if_neg (fun h => absurd h.1 (not_le.mpr hcap))]

theorem elemAfter_updateElem_ne (st : DispatchState) (id2 : Nat) (f : ElemState → ElemState)
    (id : Nat) (h : id2 ≠ id) :
    elemAfter (updateElem st id2 f) id = elemAfter st id := by
  unfold elemAfter updateElem
  show mapGet (st.elems.map fun p => if p.1 = id2 then (p.1, f p.2) else p) id
      = mapGet st.elems id
  induction st.elems with
  | nil => rfl
  | cons p rest ih =>
    obtain ⟨k, v⟩ := p
    simp only [List.map_cons]
    by_cases hk : k = id2
    · subst hk
      rw [if_pos rfl]
      simp only [mapGet]
      rw [if_neg h, if_neg h]
      exact ih
    · rw [if_neg hk]
      simp only [mapGet]
      by_cases hk2 : k = id
      · rw [if_pos hk2, if_pos hk2]
      · rw [if_neg hk2, if_neg hk2]
        exact ih

theorem applyOne_empty_seg (settings : TranslationSettings) (st : DispatchState)
    (p : TranslationItem × List Char) (htrim : jsTrim p.2 = []) :
    applyOne settings st p = updateElem st p.1.elemId (fun e => { e with failed := true }) := by
  simp only [applyOne]
  rw [if_pos htrim]

theorem applyOne_nonchunk (settings : TranslationSettings) (st : DispatchState)
    (p : TranslationItem × List Char) (hchunk : p.1.chunkId = none)
    (htrim : jsTrim p.2 ≠ []) :
    applyOne settings st p =
      updateElem
        { st with cache := st.cache.set p.1.placeholderText settings.targetLanguage (jsTrim p.2) 0 }
        p.1.elemId
        (fun e => { e with
          innerHTML := placeholdersToHtml (jsTrim p.2) p.1.placeholderMap,
          translated := true, failed := false }) := by
  simp only [applyOne, hchunk]
  rw [if_neg htrim]

theorem applyOne_elem_step (settings : TranslationSettings) (st : DispatchState)
    (p : TranslationItem × List Char) (id : Nat)
    (hchunk : p.1.chunkId = none) (hid : p.1.elemId ≠ id) :
    elemAfter (applyOne settings st p) id = elemAfter st id := by
  by_cases htrim : jsTrim p.2 = []
  · rw [applyOne_empty_seg settings st p htrim]
    exact elemAfter_updateElem_ne st p.1.elemId _ id hid
  · rw [applyOne_nonchunk settings st p hchunk htrim]
    exact elemAfter_updateElem_ne _ p.1.elemId _ id hid

theorem applyOne_cache_step (settings : TranslationSettings) (st : DispatchState)
    (p : TranslationItem × List Char)
    (hchunk : p.1.chunkId = none) (hcap : st.cache.cache.length < st.cache.maxSize) :
    (applyOne settings st p).cache.cache.length ≤ st.cache.cache.length + 1 ∧
    (applyOne settings st p).cache.maxSize = st.cache.maxSize ∧
    ∀ k, generateKey p.1.placeholderText settings.targetLanguage ≠ k →
      mapGet (applyOne settings st p).cache.cache k = mapGet st.cache.cache k := by
  by_cases htrim : jsTrim p.2 = []
  · rw [applyOne_empty_seg settings st p htrim]
    exact ⟨Nat.le_succ _, rfl, fun k _ => rfl⟩
  · rw [applyOne_nonchunk settings st p hchunk htrim]
    have hset := cacheSet_no_evict st.cache p.1.placeholderText settings.targetLanguage
      (jsTrim p.2) 0 hcap
    refine ⟨?_, ?_, ?_⟩
    · show (st.cache.set p.1.placeholderText settings.targetLanguage
        (jsTrim p.2) 0).cache.length ≤ _
      rw [hset]
      exact length_mapSet_le _ _ _
    · show (st.cache.set p.1.placeholderText settings.targetLanguage
        (jsTrim p.2) 0).maxSize = _
      rw [hset]
    · intro k hk
      show mapGet (st.cache.set p.1.placeholderText settings.targetLanguage
        (jsTrim p.2) 0).cache k = _
      rw [hset]
      exact mapGet_mapSet_ne _ _ _ _ hk

theorem applyFold_elems_preserve (settings : TranslationSettings) :
    ∀ (pairs : List (TranslationItem × List Char)) (st : DispatchState) (id : Nat),
    (∀ p ∈ pairs, p.1.chunkId = none) →
    (∀ p ∈ pairs, p.1.elemId ≠ id) →
    elemAfter (pairs.foldl (applyOne settings) st) id = elemAfter st id := by
  intro pairs
  induction pairs with
  | nil => intro st id _ _; rfl
  | cons p rest ih =>
    intro st id hchunk hid
    rw [List.foldl_cons]
    rw [ih _ id (fun q hq => hchunk q (List.mem_cons_of_mem _ hq))
      (fun q hq => hid q (List.mem_cons_of_mem _ hq))]
    exact applyOne_elem_step settings st p id (hchunk p (List.mem_cons_self _ _))
      (hid p (List.mem_cons_self _ _))

theorem applyFold_cache (settings : TranslationSettings) :
    ∀ (pairs : List (TranslationItem × List Char)) (st : DispatchState),
    (∀ p ∈ pairs, p.1.chunkId = none) →
    st.cache.cache.length + pairs.length ≤ st.cache.maxSize →
    ((pairs.foldl (applyOne settings) st).cache.cache.length ≤
        st.cache.cache.length + pairs.length ∧
      (pairs.foldl (applyOne settings) st).cache.maxSize = st.cache.maxSize) ∧
    ∀ k, (∀ p ∈ pairs, generateKey p.1.placeholderText settings.targetLanguage ≠ k) →
      mapGet (pairs.foldl (applyOne settings) st).cache.cache k = mapGet st.cache.cache k := by
  intro pairs
  induction pairs with
  | nil => intro st _ _; exact ⟨⟨by simp, rfl⟩, fun k _ => rfl⟩
  | cons p rest ih =>
    intro st hchunk hcap
    have hcap1 : st.cache.cache.length < st.cache.maxSize := by
      simp only [List.length_cons] at hcap
      omega
    have hstep := applyOne_cache_step settings st p (hchunk p (List.mem_cons_self _ _)) hcap1
    have hcap2 : (applyOne settings st p).cache.cache.length + rest.length ≤
        (applyOne settings st p).cache.maxSize := by
      rw [hstep.2.1]
      simp only [List.length_cons] at hcap
      omega
    have hih := ih (applyOne settings st p)
      (fun q hq => hchunk q (List.mem_cons_of_mem _ hq)) hcap2
    rw [List.foldl_cons]
    refine ⟨⟨?_, ?_⟩, ?_⟩
    · calc (rest.foldl (applyOne settings) (applyOne settings st p)).cache.cache.length
          ≤ (applyOne settings st p).cache.cache.length + rest.length := hih.1.1
        _ ≤ st.cache.cache.length + (p :: rest).length := by
            simp only [List.length_cons]
            omega
    · rw [hih.1.2, hstep.2.1]
    · intro k hk
      rw [hih.2 k (fun q hq => hk q (List.mem_cons_of_mem _ hq))]
      exact hstep.2.2 k (hk p (List.mem_cons_self _ _))

theorem applyFold_effect (settings : TranslationSettings) :
    ∀ (pairs : List (TranslationItem × List Char)) (st : DispatchState)
      (item : TranslationItem) (seg : List Char),
    (item, seg) ∈ pairs →
    (∀ p ∈ pairs, p.1.chunkId = none) →
    (pairs.map (fun p => p.1.elemId)).Nodup →
    (pairs.map (fun p => generateKey p.1.placeholderText settings.targetLanguage)).Nodup →
    st.cache.cache.length + pairs.length ≤ st.cache.maxSize →
    jsTrim seg ≠ [] →
    elemAfter (pairs.foldl (applyOne settings) st) item.elemId =
      (elemAfter st item.elemId).map (fun e =>
        { e with innerHTML := placeholdersToHtml (jsTrim seg) item.placeholderMap,
                 translated := true, failed := false }) ∧
    mapGet (pairs.foldl (applyOne settings) st).cache.cache
        (generateKey item.placeholderText settings.targetLanguage) =
      some { translatedText := jsTrim seg, timestamp := 0 } := by
  intro pairs
  induction pairs with
  | nil => intro st item seg hmem; cases hmem
  | cons p rest ih =>
    intro st item seg hmem hchunk hids hkeys hcap htrim
    simp only [List.map_cons, List.nodup_cons] at hids hkeys
    have hchunkR : ∀ q ∈ rest, q.1.chunkId = none :=
      fun q hq => hchunk q (List.mem_cons_of_mem _ hq)
    have hcap1 : st.cache.cache.length < st.cache.maxSize := by
      simp only [List.length_cons] at hcap
      omega
    rw [List.foldl_cons]
    rcases List.mem_cons.mp hmem with heq | hmem2
    · subst heq
      have hidR : ∀ q ∈ rest, q.1.elemId ≠ item.elemId := by
        intro q hq h
        exact hids.1 (h ▸ List.mem_map_of_mem (fun p => p.1.elemId) hq)
      have hkeyR : ∀ q ∈ rest,
          generateKey q.1.placeholderText settings.targetLanguage ≠
            generateKey item.placeholderText settings.targetLanguage := by
        intro q hq h
        exact hkeys.1 (h ▸ List.mem_map_of_mem
          (fun p => generateKey p.1.placeholderText settings.targetLanguage) hq)
      rw [applyOne_nonchunk settings st (item, seg) (hchunk _ (List.mem_cons_self _ _)) htrim]
      have hsetc := cacheSet_no_evict st.cache item.placeholderText settings.targetLanguage
        (jsTrim seg) 0 hcap1
      have hcap2 : (st.cache.set item.placeholderText settings.targetLanguage
          (jsTrim seg) 0).cache.length + rest.length ≤
          (st.cache.set item.placeholderText settings.targetLanguage (jsTrim seg) 0).maxSize := by
        rw [hsetc]
        have hlen := length_mapSet_le st.cache.cache
          (generateKey item.placeholderText settings.targetLanguage)
          { translatedText := jsTrim seg, timestamp := (0 : Nat) }
        simp only [List.length_cons] at hcap
        show (mapSet st.cache.cache _ _).length + rest.length ≤ st.cache.maxSize
        omega
      constructor
      · rw [applyFold_elems_preserve settings rest _ item.elemId hchunkR hidR]
        exact elemAfter_updateElem
          ⟨st.elems, st.cache.set item.placeholderText settings.targetLanguage (jsTrim seg) 0,
            st.chunkTranslations⟩ item.elemId _
      · rw [(applyFold_cache settings rest _ hchunkR hcap2).2 _ hkeyR]
        show mapGet (st.cache.set item.placeholderText settings.targetLanguage
          (jsTrim seg) 0).cache (generateKey item.placeholderText settings.targetLanguage) =
          some { translatedText := jsTrim seg, timestamp := 0 }
        rw [hsetc]
        exact mapGet_mapSet_self _ _ _
    · have hpid : p.1.elemId ≠ item.elemId := by
        intro h
        exact hids.1 (h ▸ List.mem_map_of_mem (fun p => p.1.elemId) hmem2)
      have hstep := applyOne_cache_step settings st p (hchunk p (List.mem_cons_self _ _)) hcap1
      have hcap2 : (applyOne settings st p).cache.cache.length + rest.length ≤
          (applyOne settings st p).cache.maxSize := by
        rw [hstep.2.1]
        simp only [List.length_cons] at hcap
        omega
      have hih := ih (applyOne settings st p) item seg hmem2 hchunkR hids.2 hkeys.2 hcap2 htrim
      constructor
      · rw [hih.1, applyOne_elem_step settings st p item.elemId
          (hchunk p (List.mem_cons_self _ _)) hpid]
      · exact hih.2

theorem markTrailingFailed_cache : ∀ (items : List TranslationItem) (st : DispatchState),
    (markTrailingFailed items st).cache = st.cache ∧
    (markTrailingFailed items st).chunkTranslations = st.chunkTranslations := by
  intro items
  induction items with
  | nil => intro st; exact ⟨rfl, rfl⟩
  | cons it rest ih =>
    intro st
    simp only [markTrailingFailed, List.foldl_cons]
    exact ih (updateElem st it.elemId (fun e => { e with failed := true }))

theorem markTrailingFailed_preserve : ∀ (items : List TranslationItem) (st : DispatchState)
    (id : Nat), (∀ it ∈ items, it.elemId ≠ id) →
    elemAfter (markTrailingFailed items st) id = elemAfter st id := by
  intro items
  induction items with
  | nil => intro st id _; rfl
  | cons it rest ih =>
    intro st id h
    exact (ih (updateElem st it.elemId (fun e => { e with failed := true })) id
      (fun q hq => h q (List.mem_cons_of_mem _ hq))).trans
      (elemAfter_updateElem_ne st it.elemId _ id (h it (List.mem_cons_self _ _)))

theorem markTrailingFailed_effect : ∀ (items : List TranslationItem) (st : DispatchState)
    (it : TranslationItem), it ∈ items → (items.map TranslationItem.elemId).Nodup →
    elemAfter (markTrailingFailed items st) it.elemId =
      (elemAfter st it.elemId).map (fun e => { e with failed := true }) := by
  intro items
  induction items with
  | nil => intro st it hmem; cases hmem
  | cons p rest ih =>
    intro st it hmem hnd
    simp only [List.map_cons, List.nodup_cons] at hnd
    rcases List.mem_cons.mp hmem with heq | hmem2
    · subst heq
      have hne : ∀ q ∈ rest, q.elemId ≠ it.elemId := by
        intro q hq h
        exact hnd.1 (h ▸ List.mem_map_of_mem TranslationItem.elemId hq)
      exact (markTrailingFailed_preserve rest
        (updateElem st it.elemId (fun e => { e with failed := true })) it.elemId hne).trans
        (elemAfter_updateElem st it.elemId _)
    · have hne : p.elemId ≠ it.elemId := by
        intro h
        exact hnd.1 (h ▸ List.mem_map_of_mem TranslationItem.elemId hmem2)
      exact (ih (updateElem st p.elemId (fun e => { e with failed := true })) it hmem2
        hnd.2).trans
        (congrArg (Option.map _) (elemAfter_updateElem_ne st p.elemId _ it.elemId hne))

/-- C8, corrected: for a batch of chunk-free units with pairwise-distinct
element ids and pairwise-distinct cache keys, processed against a usable
response under sufficient cache headroom, every trailing unit beyond the
returned segments is marked failed (not dropped), and every unit whose
segment is non-empty after trimming has the trimmed segment cached under
its placeholder text, decoded with its placeholder map, applied to its
element, and its failure marker cleared.  The chunk-free restriction is the
correction: a chunk unit is not cached under its own placeholder-text key
nor applied with its own segment — the chunk path immediately joins the
group's sparse slot array and caches the join under `originalHTML` (see
the counterexample). -/
theorem c8_partial_response_amended (cfg : BatchConfig) (settings : TranslationSettings)
    (batch : List TranslationItem) (resp : RespS) (singles : List RespS) (st : DispatchState)
    (hchunkAll : ∀ it ∈ batch, it.chunkId = none)
    (hids : (batch.map TranslationItem.elemId).Nodup)
    (hkeys : (batch.map (fun it =>
      generateKey it.placeholderText settings.targetLanguage)).Nodup)
    (hcap : st.cache.cache.length + batch.length ≤ st.cache.maxSize)
    (herr : resp.error = none) (htext : resp.translatedText ≠ []) :
    let T := splitResponse cfg resp.translatedText
    (∀ it ∈ batch.drop T.length,
      elemAfter (processBatch cfg settings batch (.resolved resp) singles st) it.elemId =
        (elemAfter st it.elemId).map (fun e => { e with failed := true })) ∧
    (∀ (i : Nat) (hi : i < batch.length) (hiT : i < T.length),
      jsTrim (T.get ⟨i, hiT⟩) ≠ [] →
      elemAfter (processBatch cfg settings batch (.resolved resp) singles st)
          (batch.get ⟨i, hi⟩).elemId =
        (elemAfter st (batch.get ⟨i, hi⟩).elemId).map (fun e =>
          { e with
            innerHTML := placeholdersToHtml (jsTrim (T.get ⟨i, hiT⟩)) (batch.get ⟨i, hi⟩).placeholderMap,
            translated := true, failed := false }) ∧
      mapGet (processBatch cfg settings batch (.resolved resp) singles st).cache.cache
          (generateKey (batch.get ⟨i, hi⟩).placeholderText settings.targetLanguage) =
        some { translatedText := jsTrim (T.get ⟨i, hiT⟩), timestamp := 0 }) := by
  intro T
  by_cases hb0 : batch = []
  · subst hb0
    refine ⟨fun it hit => absurd hit (by simp), fun i hi => absurd hi (by simp)⟩
  have hres : processBatch cfg settings batch (.resolved resp) singles st =
      (if T.length < batch.length then
        markTrailingFailed (batch.drop T.length) ((batch.zip T).foldl (applyOne settings) st)
      else (batch.zip T).foldl (applyOne settings) st) := by
    show (if batch = [] then st
      else
        if resp.error = none ∧ resp.translatedText ≠ [] then
          let translations := splitResponse cfg resp.translatedText
          let st1 := (batch.zip translations).foldl (applyOne settings) st
          if translations.length < batch.length then
            markTrailingFailed (batch.drop translations.length) st1
          else st1
        else st) = _
    rw [if_neg hb0, if_pos ⟨herr, htext⟩]
  have hZ1 : batch.zip T = (batch.take T.length).zip T := zip_take_left batch T
  have hZ2 : (batch.take T.length).length ≤ T.length := by
    rw [List.length_take]
    exact min_le_left _ _
  have hZfst : (batch.zip T).map Prod.fst = batch.take T.length := by
    rw [hZ1]
    exact List.map_fst_zip _ _ hZ2
  have hZchunk : ∀ p ∈ batch.zip T, p.1.chunkId = none :=
    fun p hp => hchunkAll p.1 (List.of_mem_zip hp).1
  have hZids2 : (batch.zip T).map (fun p => p.1.elemId) =
      (batch.map TranslationItem.elemId).take T.length := by
    rw [← List.map_take, ← hZfst, List.map_map]
    rfl
  have hZkeys2 : (batch.zip T).map (fun p =>
      generateKey p.1.placeholderText settings.targetLanguage) =
      (batch.map (fun it =>
        generateKey it.placeholderText settings.targetLanguage)).take T.length := by
    rw [← List.map_take, ← hZfst, List.map_map]
    rfl
  have hZids : ((batch.zip T).map (fun p => p.1.elemId)).Nodup := by
    rw [hZids2]
    exact hids.sublist (List.take_sublist _ _)
  have hZkeys : ((batch.zip T).map (fun p =>
      generateKey p.1.placeholderText settings.targetLanguage)).Nodup := by
    rw [hZkeys2]
    exact hkeys.sublist (List.take_sublist _ _)
  have hZcap : st.cache.cache.length + (batch.zip T).length ≤ st.cache.maxSize := by
    have h1 : (batch.zip T).length ≤ batch.length := by
      rw [List.length_zip]
      exact min_le_left _ _
    omega
  have hdisj : ∀ a ∈ (batch.map TranslationItem.elemId).take T.length,
      a ∉ (batch.map TranslationItem.elemId).drop T.length := by
    have h0 := hids
    rw [← List.take_append_drop T.length (batch.map TranslationItem.elemId)] at h0
    exact (List.nodup_append.mp h0).2.2
  refine ⟨?_, ?_⟩
  · intro it hit
    rw [hres]
    by_cases hlt : T.length < batch.length
    · rw [if_pos hlt]
      have hdropids : ((batch.drop T.length).map TranslationItem.elemId).Nodup := by
        rw [List.map_drop]
        exact hids.sublist (List.drop_sublist _ _)
      have hitd : it.elemId ∈ (batch.map TranslationItem.elemId).drop T.length := by
        rw [← List.map_drop]
        exact List.mem_map_of_mem TranslationItem.elemId hit
      have hZne : ∀ p ∈ batch.zip T, p.1.elemId ≠ it.elemId := by
        intro p hp h
        have h2 : p.1.elemId ∈ (batch.map TranslationItem.elemId).take T.length := by
          rw [← hZids2]
          exact List.mem_map_of_mem (fun p => p.1.elemId) hp
        exact hdisj p.1.elemId h2 (h ▸ hitd)
      exact (markTrailingFailed_effect (batch.drop T.length) _ it hit hdropids).trans
        (congrArg (Option.map _)
          (applyFold_elems_preserve settings (batch.zip T) st it.elemId hZchunk hZne))
    · exact absurd hit (by rw [List.drop_eq_nil_of_le (le_of_not_lt hlt)]; simp)
  · intro i hi hiT htr
    have hiZ : i < (batch.zip T).length := by
      rw [List.length_zip]
      exact lt_min hi hiT
    have hgz : (batch.zip T).get ⟨i, hiZ⟩ = (batch.get ⟨i, hi⟩, T.get ⟨i, hiT⟩) := by
      simp only [List.get_eq_getElem]
      exact List.getElem_zip
    have hmemZ : (batch.get ⟨i, hi⟩, T.get ⟨i, hiT⟩) ∈ batch.zip T := by
      rw [← hgz]
      exact List.get_mem _ _ hiZ
    have hfx := applyFold_effect settings (batch.zip T) st (batch.get ⟨i, hi⟩)
      (T.get ⟨i, hiT⟩) hmemZ hZchunk hZids hZkeys hZcap htr
    rw [hres]
    by_cases hlt : T.length < batch.length
    · rw [if_pos hlt]
      have hitk : (batch.get ⟨i, hi⟩).elemId ∈
          (batch.map TranslationItem.elemId).take T.length := by
        rw [← hZids2]
        exact List.mem_map_of_mem (fun p => p.1.elemId) hmemZ
      have hne : ∀ q ∈ batch.drop T.length, q.elemId ≠ (batch.get ⟨i, hi⟩).elemId := by
        intro q hq h
        have h2 : q.elemId ∈ (batch.map TranslationItem.elemId).drop T.length := by
          rw [← List.map_drop]
          exact List.mem_map_of_mem TranslationItem.elemId hq
        exact hdisj _ hitk (h ▸ h2)
      refine ⟨?_, ?_⟩
      · exact (markTrailingFailed_preserve (batch.drop T.length) _ _ hne).trans hfx.1
      · rw [(markTrailingFailed_cache (batch.drop T.length) _).1]
        exact hfx.2
    · rw [if_neg hlt]
      exact ⟨hfx.1, hfx.2⟩

set_option maxRecDepth 40000 in
/-- C8, counterexample to the literal claim: a chunk unit (first of a
two-chunk group) receives the non-empty segment `"T1"`, but what reaches
the element and the cache is not the unit's trimmed segment: the sparse
`new Array(totalChunks)` passes the `every` readiness check at once, so
the join `"T1 "` — the missing chunk rendered as an empty string after
the separator — is applied and cached, and under the `originalHTML` key,
not under the unit's placeholder text, whose lookup misses. -/
theorem c8_chunk_unit_counterexample :
    (jsTrim "T1".toList ≠ []) ∧
    elemAfter (processBatch ⟨100, defaultDelimiter⟩ ⟨[], [], [], "ja".toList⟩
        [⟨0, "<p>O</p>".toList, "c1".toList, [], some 0, some 2, some "g".toList⟩]
        (.resolved ⟨"T1".toList, none⟩) []
        ⟨[(0, ⟨[], false, false⟩)], TranslationCache.empty 10, []⟩) 0 =
      some ⟨"T1 ".toList, true, false⟩ ∧
    "T1 ".toList ≠ jsTrim "T1".toList ∧
    ((processBatch ⟨100, defaultDelimiter⟩ ⟨[], [], [], "ja".toList⟩
        [⟨0, "<p>O</p>".toList, "c1".toList, [], some 0, some 2, some "g".toList⟩]
        (.resolved ⟨"T1".toList, none⟩) []
        ⟨[(0, ⟨[], false, false⟩)], TranslationCache.empty 10, []⟩).cache.get
      "<p>O</p>".toList "ja".toList).1 = some "T1 ".toList ∧
    ((processBatch ⟨100, defaultDelimiter⟩ ⟨[], [], [], "ja".toList⟩
        [⟨0, "<p>O</p>".toList, "c1".toList, [], some 0, some 2, some "g".toList⟩]
        (.resolved ⟨"T1".toList, none⟩) []
        ⟨[(0, ⟨[], false, false⟩)], TranslationCache.empty 10, []⟩).cache.get
      "c1".toList "ja".toList).1 = none ∧
    (processBatch ⟨100, defaultDelimiter⟩ ⟨[], [], [], "ja".toList⟩
        [⟨0, "<p>O</p>".toList, "c1".toList, [], some 0, some 2, some "g".toList⟩]
        (.resolved ⟨"T1".toList, none⟩) []
        ⟨[(0, ⟨[], false, false⟩)], TranslationCache.empty 10, []⟩).chunkTranslations =
      [] := by
  decide

/-- Witness instantiating the corrected C8 theorem: two chunk-free units,
one returned segment — the first unit is applied and cached, the second is
marked failed. -/
theorem c8_partial_response_amended_witness :
    (∀ it ∈ [(⟨1, [], "a".toList, [], none, none, none⟩ : TranslationItem),
        ⟨2, [], "b".toList, [], none, none, none⟩], it.chunkId = none) ∧
    (([(⟨1, [], "a".toList, [], none, none, none⟩ : TranslationItem),
        ⟨2, [], "b".toList, [], none, none, none⟩].map TranslationItem.elemId).Nodup) ∧
    (([(⟨1, [], "a".toList, [], none, none, none⟩ : TranslationItem),
        ⟨2, [], "b".toList, [], none, none, none⟩].map (fun it =>
      generateKey it.placeholderText "ja".toList)).Nodup) ∧
    ((⟨[(1, ⟨"x".toList, false, false⟩), (2, ⟨"y".toList, false, true⟩)],
        TranslationCache.empty 10, []⟩ : DispatchState).cache.cache.length +
      ([(⟨1, [], "a".toList, [], none, none, none⟩ : TranslationItem),
        ⟨2, [], "b".toList, [], none, none, none⟩]).length ≤
      (⟨[(1, ⟨"x".toList, false, false⟩), (2, ⟨"y".toList, false, true⟩)],
        TranslationCache.empty 10, []⟩ : DispatchState).cache.maxSize) ∧
    ((⟨"Hello".toList, none⟩ : RespS).error = none) ∧
    ((⟨"Hello".toList, none⟩ : RespS).translatedText ≠ []) ∧
    (let T := splitResponse ⟨100, defaultDelimiter⟩ "Hello".toList
     (∀ it ∈ [(⟨1, [], "a".toList, [], none, none, none⟩ : TranslationItem),
          ⟨2, [], "b".toList, [], none, none, none⟩].drop T.length,
       elemAfter (processBatch ⟨100, defaultDelimiter⟩ ⟨[], [], [], "ja".toList⟩
           [⟨1, [], "a".toList, [], none, none, none⟩,
             ⟨2, [], "b".toList, [], none, none, none⟩]
           (.resolved ⟨"Hello".toList, none⟩) []
           ⟨[(1, ⟨"x".toList, false, false⟩), (2, ⟨"y".toList, false, true⟩)],
             TranslationCache.empty 10, []⟩) it.elemId =
         (elemAfter (⟨[(1, ⟨"x".toList, false, false⟩), (2, ⟨"y".toList, false, true⟩)],
             TranslationCache.empty 10, []⟩ : DispatchState) it.elemId).map
           (fun e => { e with failed := true })) ∧
     (∀ (i : Nat)
        (hi : i < ([(⟨1, [], "a".toList, [], none, none, none⟩ : TranslationItem),
          ⟨2, [], "b".toList, [], none, none, none⟩]).length) (hiT : i < T.length),
       jsTrim (T.get ⟨i, hiT⟩) ≠ [] →
       elemAfter (processBatch ⟨100, defaultDelimiter⟩ ⟨[], [], [], "ja".toList⟩
           [⟨1, [], "a".toList, [], none, none, none⟩,
             ⟨2, [], "b".toList, [], none, none, none⟩]
           (.resolved ⟨"Hello".toList, none⟩) []
           ⟨[(1, ⟨"x".toList, false, false⟩), (2, ⟨"y".toList, false, true⟩)],
             TranslationCache.empty 10, []⟩)
           (([(⟨1, [], "a".toList, [], none, none, none⟩ : TranslationItem),
             ⟨2, [], "b".toList, [], none, none, none⟩]).get ⟨i, hi⟩).elemId =
         (elemAfter (⟨[(1, ⟨"x".toList, false, false⟩), (2, ⟨"y".toList, false, true⟩)],
             TranslationCache.empty 10, []⟩ : DispatchState)
             (([(⟨1, [], "a".toList, [], none, none, none⟩ : TranslationItem),
               ⟨2, [], "b".toList, [], none, none, none⟩]).get ⟨i, hi⟩).elemId).map (fun e =>
           { e with
             innerHTML := placeholdersToHtml (jsTrim (T.get ⟨i, hiT⟩)) (([(⟨1, [], "a".toList, [], none, none, none⟩ : TranslationItem), ⟨2, [], "b".toList, [], none, none, none⟩]).get ⟨i, hi⟩).placeholderMap,
             translated := true, failed := false }) ∧
       mapGet (processBatch ⟨100, defaultDelimiter⟩ ⟨[], [], [], "ja".toList⟩
           [⟨1, [], "a".toList, [], none, none, none⟩,
             ⟨2, [], "b".toList, [], none, none, none⟩]
           (.resolved ⟨"Hello".toList, none⟩) []
           ⟨[(1, ⟨"x".toList, false, false⟩), (2, ⟨"y".toList, false, true⟩)],
             TranslationCache.empty 10, []⟩).cache.cache
           (generateKey (([(⟨1, [], "a".toList, [], none, none, none⟩ : TranslationItem),
             ⟨2, [], "b".toList, [], none, none, none⟩]).get ⟨i, hi⟩).placeholderText
             "ja".toList) =
         some { translatedText := jsTrim (T.get ⟨i, hiT⟩), timestamp := 0 })) :=
  ⟨by decide, by decide, by decide, by decide, rfl, by decide,
    c8_partial_response_amended ⟨100, defaultDelimiter⟩ ⟨[], [], [], "ja".toList⟩
      [⟨1, [], "a".toList, [], none, none, none⟩,
        ⟨2, [], "b".toList, [], none, none, none⟩]
      ⟨"Hello".toList, none⟩ []
      ⟨[(1, ⟨"x".toList, false, false⟩), (2, ⟨"y".toList, false, true⟩)],
        TranslationCache.empty 10, []⟩
      (by decide) (by decide) (by decide) (by decide) rfl (by decide)⟩

/-! ## Codec round-trip infrastructure (claim C1) -/

theorem drop_takeWhile_len (p : Char → Bool) (l : List Char) :
    l.drop (l.takeWhile p).length = l.dropWhile p := by
  have h := List.takeWhile_append_dropWhile p l
  calc l.drop (l.takeWhile p).length
      = (l.takeWhile p ++ l.dropWhile p).drop (l.takeWhile p).length := by rw [h]
    _ = l.dropWhile p := List.drop_left _ _

theorem takeWhile_append_all {p : Char → Bool} :
    ∀ (a b : List Char), (∀ c ∈ a, p c) → (a ++ b).takeWhile p = a ++ b.takeWhile p := by
  intro a
  induction a with
  | nil => intro b _; rfl
  | cons c rest ih =>
    intro b h
    rw [List.cons_append, List.takeWhile_cons_of_pos (h c (List.mem_cons_self _ _)),
      ih b (fun d hd => h d (List.mem_cons_of_mem _ hd)), List.cons_append]

theorem takeWhile_eq_of_sandwich {p : Char → Bool} (a : List Char) :
    ∀ (b : List Char), (∀ c ∈ a, p c) → (b = [] ∨ ∃ d r, b = d :: r ∧ p d = false) →
    (a ++ b).takeWhile p = a := by
  intro b ha hb
  rw [takeWhile_append_all a b ha]
  rcases hb with rfl | ⟨d, r, rfl, hd⟩
  · simp
  · rw [List.takeWhile_cons_of_neg (by simp [hd])]
    simp

theorem digit_toNat (d : Nat) (hd : d < 10) : (decDigit d).toNat = 48 + d := by
  interval_cases d <;> decide

theorem isDigit_decDigit (d : Nat) (hd : d < 10) : isDigitCh (decDigit d) = true := by
  interval_cases d <;> decide

theorem natToDecGo_digits : ∀ (fuel n : Nat), n ≤ fuel →
    ∀ c ∈ natToDecGo fuel n, isDigitCh c = true := by
  intro fuel
  induction fuel with
  | zero =>
    intro n hn c hc
    interval_cases n
    simp only [natToDecGo, List.mem_singleton] at hc
    subst hc
    decide
  | succ fuel ih =>
    intro n hn c hc
    unfold natToDecGo at hc
    split at hc
    · rename_i h10
      simp only [List.mem_singleton] at hc
      subst hc
      exact isDigit_decDigit n h10
    · rename_i h10
      rcases List.mem_append.mp hc with h | h
      · exact ih (n / 10) (by omega) c h
      · simp only [List.mem_singleton] at h
        subst h
        exact isDigit_decDigit (n % 10) (Nat.mod_lt _ (by omega))

theorem natToDec_digits (n : Nat) : ∀ c ∈ natToDec n, isDigitCh c = true :=
  natToDecGo_digits n n (le_refl n)

theorem natToDecGo_ne_nil : ∀ (fuel n : Nat), natToDecGo fuel n ≠ [] := by
  intro fuel
  cases fuel with
  | zero => intro n; simp [natToDecGo]
  | succ fuel =>
    intro n
    unfold natToDecGo
    split
    · simp
    · simp

theorem natToDec_ne_nil (n : Nat) : natToDec n ≠ [] := natToDecGo_ne_nil n n

theorem decVal_append_digit (a : List Char) (c : Char) :
    decVal (a ++ [c]) = decVal a * 10 + (c.toNat - 48) := by
  unfold decVal
  rw [List.foldl_append]
  rfl

theorem decVal_natToDecGo : ∀ (fuel n : Nat), n ≤ fuel →
    decVal (natToDecGo fuel n) = n := by
  intro fuel
  induction fuel with
  | zero =>
    intro n hn
    interval_cases n
    decide
  | succ fuel ih =>
    intro n hn
    unfold natToDecGo
    split
    · rename_i h10
      show decVal [decDigit n] = n
      unfold decVal
      simp only [List.foldl_cons, List.foldl_nil]
      rw [digit_toNat n h10]
      omega
    · rename_i h10
      rw [decVal_append_digit, ih (n / 10) (by omega),
        digit_toNat (n % 10) (Nat.mod_lt _ (by omega))]
      omega

theorem natToDec_inj {a b : Nat} (h : natToDec a = natToDec b) : a = b := by
  have ha := decVal_natToDecGo a a (le_refl a)
  have hb := decVal_natToDecGo b b (le_refl b)
  rw [← ha, ← hb]
  exact congrArg decVal h

theorem isDigitCh_range {c : Char} (h : isDigitCh c = true) :
    48 ≤ c.toNat ∧ c.toNat ≤ 57 := by
  simp only [isDigitCh, Bool.and_eq_true, decide_eq_true_eq] at h
  exact h

theorem isAsciiLetter_range {c : Char} (h : isAsciiLetter c = true) :
    (97 ≤ c.toNat ∧ c.toNat ≤ 122) ∨ (65 ≤ c.toNat ∧ c.toNat ≤ 90) := by
  simp only [isAsciiLetter, Bool.or_eq_true, Bool.and_eq_true, decide_eq_true_eq] at h
  exact h

theorem isAlnumCI_range {c : Char} (h : isAlnumCI c = true) :
    (97 ≤ c.toNat ∧ c.toNat ≤ 122) ∨ (65 ≤ c.toNat ∧ c.toNat ≤ 90) ∨
      (48 ≤ c.toNat ∧ c.toNat ≤ 57) := by
  simp only [isAlnumCI, Bool.or_eq_true] at h
  rcases h with h | h
  · rcases isAsciiLetter_range h with h2 | h2
    · exact Or.inl h2
    · exact Or.inr (Or.inl h2)
  · exact Or.inr (Or.inr (isDigitCh_range h))

theorem isLowerAlnum_range {c : Char} (h : isLowerAlnum c = true) :
    (97 ≤ c.toNat ∧ c.toNat ≤ 122) ∨ (48 ≤ c.toNat ∧ c.toNat ≤ 57) := by
  simp only [isLowerAlnum, Bool.or_eq_true, Bool.and_eq_true, decide_eq_true_eq] at h
  rcases h with h | h
  · exact Or.inl h
  · exact Or.inr (isDigitCh_range h)

theorem jsSpace_range {c : Char} (h : jsSpace c = true) :
    c.toNat = 32 ∨ c.toNat = 9 ∨ c.toNat = 10 ∨ c.toNat = 13 ∨
      c.toNat = 11 ∨ c.toNat = 12 ∨ 160 ≤ c.toNat := by
  simp only [jsSpace, Bool.or_eq_true, Bool.and_eq_true, beq_iff_eq,
    decide_eq_true_eq] at h
  omega

theorem toNat_eq_of_eq {c d : Char} (h : c = d) : c.toNat = d.toNat := congrArg Char.toNat h

theorem isAlnumCI_not_space {c : Char} (h : isAlnumCI c = true) : jsSpace c = false := by
  cases hb : jsSpace c
  · rfl
  · have h3 := jsSpace_range hb
    rcases isAlnumCI_range h with h4 | h4 | h4 <;> omega

theorem isDigitCh_not_space {c : Char} (h : isDigitCh c = true) : jsSpace c = false := by
  cases hb : jsSpace c
  · rfl
  · have h3 := jsSpace_range hb
    have h4 := isDigitCh_range h
    omega

theorem char_ne_of_ranges {c d : Char} (hc : c.toNat ≠ d.toNat) : c ≠ d :=
  fun he => hc (toNat_eq_of_eq he)

theorem isAlnumCI_ne {c : Char} (h : isAlnumCI c = true) :
    c ≠ '_' ∧ c ≠ '>' ∧ c ≠ '<' ∧ c ≠ '/' := by
  have h2 := isAlnumCI_range h
  refine ⟨char_ne_of_ranges ?_, char_ne_of_ranges ?_, char_ne_of_ranges ?_,
    char_ne_of_ranges ?_⟩
  · rw [show (Char.toNat '_') = 95 from rfl]; omega
  · rw [show (Char.toNat '>') = 62 from rfl]; omega
  · rw [show (Char.toNat '<') = 60 from rfl]; omega
  · rw [show (Char.toNat '/') = 47 from rfl]; omega

theorem isDigitCh_ne {c : Char} (h : isDigitCh c = true) :
    c ≠ '_' ∧ c ≠ '>' ∧ c ≠ '<' := by
  have h2 := isDigitCh_range h
  refine ⟨char_ne_of_ranges ?_, char_ne_of_ranges ?_, char_ne_of_ranges ?_⟩
  · rw [show (Char.toNat '_') = 95 from rfl]; omega
  · rw [show (Char.toNat '>') = 62 from rfl]; omega
  · rw [show (Char.toNat '<') = 60 from rfl]; omega

theorem jsSpace_ne {c : Char} (h : jsSpace c = true) :
    c ≠ '/' ∧ c ≠ '_' ∧ c ≠ '>' ∧ c ≠ '<' := by
  have h2 := jsSpace_range h
  refine ⟨char_ne_of_ranges ?_, char_ne_of_ranges ?_, char_ne_of_ranges ?_,
    char_ne_of_ranges ?_⟩
  · rw [show (Char.toNat '/') = 47 from rfl]; omega
  · rw [show (Char.toNat '_') = 95 from rfl]; omega
  · rw [show (Char.toNat '>') = 62 from rfl]; omega
  · rw [show (Char.toNat '<') = 60 from rfl]; omega

theorem isLowerAlnum_alnumCI {c : Char} (h : isLowerAlnum c = true) : isAlnumCI c = true := by
  simp only [isLowerAlnum, Bool.or_eq_true] at h
  simp only [isAlnumCI, isAsciiLetter, Bool.or_eq_true, Bool.and_eq_true]
  rcases h with h | h
  · simp only [Bool.and_eq_true] at h
    exact Or.inl (Or.inl h)
  · exact Or.inr h

theorem isLowerAlnum_ne {c : Char} (h : isLowerAlnum c = true) :
    c ≠ '_' ∧ c ≠ '>' ∧ c ≠ '<' ∧ c ≠ '/' ∧ jsSpace c = false := by
  have h2 := isAlnumCI_ne (isLowerAlnum_alnumCI h)
  exact ⟨h2.1, h2.2.1, h2.2.2.1, h2.2.2.2, isAlnumCI_not_space (isLowerAlnum_alnumCI h)⟩

theorem run_exact (p : Char → Bool) (a b : List Char) (ha : ∀ c ∈ a, p c = true)
    (hb : b = [] ∨ ∃ d r, b = d :: r ∧ p d = false) :
    ((a ++ b).takeWhile p).length = a.length ∧
      (a ++ b).drop ((a ++ b).takeWhile p).length = b := by
  have h1 : (a ++ b).takeWhile p = a := by
    refine takeWhile_eq_of_sandwich a b ha ?_
    rcases hb with rfl | ⟨d, r, rfl, hd⟩
    · exact Or.inl rfl
    · exact Or.inr ⟨d, r, rfl, hd⟩
  refine ⟨by rw [h1], ?_⟩
  rw [h1]
  exact List.drop_left a b

theorem head_not_space_of_alnum_underscore (nm : List Char) (X : List Char)
    (hnm : ∀ c ∈ nm, isAlnumCI c = true) :
    nm ++ '_' :: X = [] ∨ ∃ d r, nm ++ '_' :: X = d :: r ∧ jsSpace d = false := by
  cases nm with
  | nil => exact Or.inr ⟨'_', X, rfl, by decide⟩
  | cons a nm2 =>
    exact Or.inr ⟨a, nm2 ++ '_' :: X, rfl,
      isAlnumCI_not_space (hnm a (List.mem_cons_self _ _))⟩

theorem head_not_digit_space_gt (w3 : List Char) (t : List Char)
    (hw3 : ∀ c ∈ w3, jsSpace c = true) :
    w3 ++ '>' :: t = [] ∨ ∃ d r, w3 ++ '>' :: t = d :: r ∧ isDigitCh d = false := by
  cases w3 with
  | nil => exact Or.inr ⟨'>', t, rfl, by decide⟩
  | cons a w2 =>
    refine Or.inr ⟨a, w2 ++ '>' :: t, rfl, ?_⟩
    cases hd : isDigitCh a
    · rfl
    · have h1 := hw3 a (List.mem_cons_self _ _)
      rw [isDigitCh_not_space hd] at h1
      exact absurd h1 (by simp)


theorem unconsIf_cons_self (c : Char) (r : List Char) : unconsIf c (c :: r) = some r := by
  simp [unconsIf]

theorem unconsIf_cons_ne {c d : Char} (r : List Char) (h : d ≠ c) :
    unconsIf c (d :: r) = none := by
  simp [unconsIf, h]

theorem unconsIf_nil (c : Char) : unconsIf c [] = none := rfl

theorem unconsIf_eq_some {c : Char} {s r : List Char} (h : unconsIf c s = some r) :
    s = c :: r := by
  cases s with
  | nil => cases h
  | cons d t =>
    simp only [unconsIf] at h
    by_cases hd : d = c
    · rw [if_pos hd] at h
      rw [hd, (Option.some.injEq _ _).mp h]
    · rw [if_neg hd] at h
      cases h

theorem unconsIf_slash_alnum (nm : List Char) (Y : List Char)
    (hnm : ∀ c ∈ nm, isAlnumCI c = true) :
    unconsIf '/' (nm ++ '_' :: Y) = none := by
  cases nm with
  | nil => exact unconsIf_cons_ne _ (by decide)
  | cons a nm2 =>
    exact unconsIf_cons_ne _ (isAlnumCI_ne (hnm a (List.mem_cons_self _ _))).2.2.2

theorem takeWhile_nil_of_head {p : Char → Bool} {b : List Char}
    (hb : ∃ d r, b = d :: r ∧ p d = false) : b.takeWhile p = [] := by
  obtain ⟨d, r, rfl, hd⟩ := hb
  exact List.takeWhile_cons_of_neg (by simp [hd])

theorem pShape_construct (w1 sl w2 nm dg w3 t : List Char)
    (hw1 : ∀ c ∈ w1, jsSpace c = true) (hsl : sl = [] ∨ sl = ['/'])
    (hw2 : ∀ c ∈ w2, jsSpace c = true) (hnm : ∀ c ∈ nm, isAlnumCI c = true)
    (hdg : ∀ c ∈ dg, isDigitCh c = true) (hdg0 : dg ≠ [])
    (hw3 : ∀ c ∈ w3, jsSpace c = true) :
    pShapeMatchLen ('<' :: (w1 ++ sl ++ w2 ++ nm ++ '_' :: dg ++ w3 ++ '>' :: t)) ≠ 0 := by
  have hgtd : (dg ++ (w3 ++ '>' :: t)).takeWhile isDigitCh = dg := by
    refine takeWhile_eq_of_sandwich dg _ hdg ?_
    rcases head_not_digit_space_gt w3 t hw3 with h | ⟨d, r, he, hd⟩
    · exact absurd h (by simp)
    · exact Or.inr ⟨d, r, he, hd⟩
  have hddrop : (dg ++ (w3 ++ '>' :: t)).drop dg.length = w3 ++ '>' :: t :=
    List.drop_left _ _
  have hsp3 : (w3 ++ '>' :: t).takeWhile jsSpace = w3 :=
    takeWhile_eq_of_sandwich w3 _ hw3 (Or.inr ⟨'>', t, rfl, by decide⟩)
  have hsp3drop : (w3 ++ '>' :: t).drop w3.length = '>' :: t := List.drop_left _ _
  have hnmrun : (nm ++ '_' :: (dg ++ (w3 ++ '>' :: t))).takeWhile isAlnumCI = nm :=
    takeWhile_eq_of_sandwich nm _ hnm (Or.inr ⟨'_', _, rfl, by decide⟩)
  have hnmdrop : (nm ++ '_' :: (dg ++ (w3 ++ '>' :: t))).drop nm.length =
      '_' :: (dg ++ (w3 ++ '>' :: t)) := List.drop_left _ _
  have hdglen : ¬ dg.length = 0 := fun h => hdg0 (List.length_eq_zero.mp h)
  have hnmhead := head_not_space_of_alnum_underscore nm (dg ++ (w3 ++ '>' :: t)) hnm
  have hnmhead2 : ∃ d r, nm ++ '_' :: (dg ++ (w3 ++ '>' :: t)) = d :: r ∧ jsSpace d = false := by
    rcases hnmhead with h | h
    · exact absurd h (by simp)
    · exact h
  rcases hsl with rfl | rfl
  · have hsprun : (w1 ++ (w2 ++ (nm ++ '_' :: (dg ++ (w3 ++ '>' :: t))))).takeWhile jsSpace
        = w1 ++ w2 := by
      rw [takeWhile_append_all w1 _ hw1,
        takeWhile_eq_of_sandwich w2 _ hw2 hnmhead]
    have hspdrop : (w1 ++ (w2 ++ (nm ++ '_' :: (dg ++ (w3 ++ '>' :: t))))).drop
        (w1 ++ w2).length = nm ++ '_' :: (dg ++ (w3 ++ '>' :: t)) := by
      rw [← List.append_assoc]
      exact List.drop_left _ _
    simp only [List.append_assoc, List.nil_append, List.append_nil, List.cons_append]
    simp only [pShapeMatchLen, spaceRunLen, digitRunLen]
    rw [if_neg (by simp)]
    rw [hsprun, hspdrop, unconsIf_slash_alnum nm _ hnm]
    dsimp only
    rw [takeWhile_nil_of_head hnmhead2]
    simp only [List.length_nil, List.drop_zero]
    rw [hnmrun, hnmdrop, unconsIf_cons_self]
    dsimp only
    rw [hgtd]
    rw [if_neg hdglen]
    rw [hddrop, hsp3, hsp3drop, unconsIf_cons_self]
    dsimp only
    omega
  · have hsprun : (w1 ++ ('/' :: (w2 ++ (nm ++ '_' :: (dg ++ (w3 ++ '>' :: t)))))).takeWhile
        jsSpace = w1 :=
      takeWhile_eq_of_sandwich w1 _ hw1 (Or.inr ⟨'/', _, rfl, by decide⟩)
    have hspdrop : (w1 ++ ('/' :: (w2 ++ (nm ++ '_' :: (dg ++ (w3 ++ '>' :: t)))))).drop
        w1.length = '/' :: (w2 ++ (nm ++ '_' :: (dg ++ (w3 ++ '>' :: t)))) :=
      List.drop_left _ _
    have hsp2run : (w2 ++ (nm ++ '_' :: (dg ++ (w3 ++ '>' :: t)))).takeWhile jsSpace = w2 :=
      takeWhile_eq_of_sandwich w2 _ hw2 hnmhead
    have hsp2drop : (w2 ++ (nm ++ '_' :: (dg ++ (w3 ++ '>' :: t)))).drop w2.length =
        nm ++ '_' :: (dg ++ (w3 ++ '>' :: t)) := List.drop_left _ _
    simp only [List.append_assoc, List.nil_append, List.append_nil, List.cons_append,
      List.singleton_append]
    simp only [pShapeMatchLen, spaceRunLen, digitRunLen]
    rw [if_neg (by simp)]
    rw [hsprun, hspdrop, unconsIf_cons_self]
    dsimp only
    rw [hsp2run, hsp2drop, hnmrun, hnmdrop, unconsIf_cons_self]
    dsimp only
    rw [hgtd]
    rw [if_neg hdglen]
    rw [hddrop, hsp3, hsp3drop, unconsIf_cons_self]
    dsimp only
    omega

theorem pShape_inversion (s : List Char) (h : pShapeMatchLen s ≠ 0) :
    ∃ w1 sl w2 nm dg w3 t,
      (∀ c ∈ w1, jsSpace c = true) ∧ (sl = [] ∨ sl = ['/']) ∧
      (∀ c ∈ w2, jsSpace c = true) ∧ (∀ c ∈ nm, isAlnumCI c = true) ∧
      (∀ c ∈ dg, isDigitCh c = true) ∧ dg ≠ [] ∧ (∀ c ∈ w3, jsSpace c = true) ∧
      s = '<' :: (w1 ++ sl ++ w2 ++ nm ++ '_' :: dg ++ w3 ++ '>' :: t) := by
  cases s with
  | nil => exact absurd rfl h
  | cons c rest =>
    simp only [pShapeMatchLen, spaceRunLen, digitRunLen] at h
    by_cases hc : c = '<'
    · rw [if_neg (not_not_intro hc)] at h
      subst hc
      rw [drop_takeWhile_len jsSpace rest] at h
      have hw1 : ∀ d ∈ rest.takeWhile jsSpace, jsSpace d = true :=
        fun d hd => List.mem_takeWhile_imp hd
      have hrest : rest = rest.takeWhile jsSpace ++ rest.dropWhile jsSpace :=
        (List.takeWhile_append_dropWhile jsSpace rest).symm
      cases hu : unconsIf '/' (rest.dropWhile jsSpace) with
      | none =>
        rw [hu] at h
        dsimp only at h
        rw [drop_takeWhile_len jsSpace (rest.dropWhile jsSpace)] at h
        rw [drop_takeWhile_len isAlnumCI ((rest.dropWhile jsSpace).dropWhile jsSpace)] at h
        have hw2 : ∀ d ∈ (rest.dropWhile jsSpace).takeWhile jsSpace, jsSpace d = true :=
          fun d hd => List.mem_takeWhile_imp hd
        have hs2 : rest.dropWhile jsSpace =
            (rest.dropWhile jsSpace).takeWhile jsSpace ++
              (rest.dropWhile jsSpace).dropWhile jsSpace :=
          (List.takeWhile_append_dropWhile jsSpace _).symm
        have hnm : ∀ d ∈ ((rest.dropWhile jsSpace).dropWhile jsSpace).takeWhile isAlnumCI,
            isAlnumCI d = true := fun d hd => List.mem_takeWhile_imp hd
        have hs4 : (rest.dropWhile jsSpace).dropWhile jsSpace =
            ((rest.dropWhile jsSpace).dropWhile jsSpace).takeWhile isAlnumCI ++
              ((rest.dropWhile jsSpace).dropWhile jsSpace).dropWhile isAlnumCI :=
          (List.takeWhile_append_dropWhile isAlnumCI _).symm
        cases hu2 : unconsIf '_' (((rest.dropWhile jsSpace).dropWhile jsSpace).dropWhile
            isAlnumCI) with
        | none =>
          rw [hu2] at h
          exact absurd rfl h
        | some s6 =>
          rw [hu2] at h
          dsimp only at h
          by_cases hnd : (s6.takeWhile isDigitCh).length = 0
          · rw [if_pos hnd] at h
            exact absurd rfl h
          · rw [if_neg hnd] at h
            rw [drop_takeWhile_len isDigitCh s6] at h
            rw [drop_takeWhile_len jsSpace (s6.dropWhile isDigitCh)] at h
            have hdg : ∀ d ∈ s6.takeWhile isDigitCh, isDigitCh d = true :=
              fun d hd => List.mem_takeWhile_imp hd
            have hs6 : s6 = s6.takeWhile isDigitCh ++ s6.dropWhile isDigitCh :=
              (List.takeWhile_append_dropWhile isDigitCh _).symm
            have hw3 : ∀ d ∈ (s6.dropWhile isDigitCh).takeWhile jsSpace, jsSpace d = true :=
              fun d hd => List.mem_takeWhile_imp hd
            have hs7 : s6.dropWhile isDigitCh =
                (s6.dropWhile isDigitCh).takeWhile jsSpace ++
                  (s6.dropWhile isDigitCh).dropWhile jsSpace :=
              (List.takeWhile_append_dropWhile jsSpace _).symm
            cases hu3 : unconsIf '>' ((s6.dropWhile isDigitCh).dropWhile jsSpace) with
            | none =>
              rw [hu3] at h
              exact absurd rfl h
            | some t2 =>
              refine ⟨rest.takeWhile jsSpace, [], (rest.dropWhile jsSpace).takeWhile jsSpace,
                ((rest.dropWhile jsSpace).dropWhile jsSpace).takeWhile isAlnumCI,
                s6.takeWhile isDigitCh, (s6.dropWhile isDigitCh).takeWhile jsSpace, t2,
                hw1, Or.inl rfl, hw2, hnm, hdg,
                fun he => hnd (by rw [he]; rfl), hw3, ?_⟩
              have he6 := unconsIf_eq_some hu2
              have he7 := unconsIf_eq_some hu3
              rw [List.cons_eq_cons]
              refine ⟨rfl, ?_⟩
              conv_lhs => rw [hrest]
              conv_lhs => rw [hs2]
              conv_lhs => rw [hs4, he6]
              conv_lhs => rw [hs6]
              conv_lhs => rw [hs7, he7]
              simp [List.append_assoc]
      | some t1 =>
        rw [hu] at h
        dsimp only at h
        rw [drop_takeWhile_len jsSpace t1] at h
        rw [drop_takeWhile_len isAlnumCI (t1.dropWhile jsSpace)] at h
        have hw2 : ∀ d ∈ t1.takeWhile jsSpace, jsSpace d = true :=
          fun d hd => List.mem_takeWhile_imp hd
        have hs2 : t1 = t1.takeWhile jsSpace ++ t1.dropWhile jsSpace :=
          (List.takeWhile_append_dropWhile jsSpace _).symm
        have hnm : ∀ d ∈ (t1.dropWhile jsSpace).takeWhile isAlnumCI,
            isAlnumCI d = true := fun d hd => List.mem_takeWhile_imp hd
        have hs4 : t1.dropWhile jsSpace =
            (t1.dropWhile jsSpace).takeWhile isAlnumCI ++
              (t1.dropWhile jsSpace).dropWhile isAlnumCI :=
          (List.takeWhile_append_dropWhile isAlnumCI _).symm
        cases hu2 : unconsIf '_' ((t1.dropWhile jsSpace).dropWhile isAlnumCI) with
        | none =>
          rw [hu2] at h
          exact absurd rfl h
        | some s6 =>
          rw [hu2] at h
          dsimp only at h
          by_cases hnd : (s6.takeWhile isDigitCh).length = 0
          · rw [if_pos hnd] at h
            exact absurd rfl h
          · rw [if_neg hnd] at h
            rw [drop_takeWhile_len isDigitCh s6] at h
            rw [drop_takeWhile_len jsSpace (s6.dropWhile isDigitCh)] at h
            have hdg : ∀ d ∈ s6.takeWhile isDigitCh, isDigitCh d = true :=
              fun d hd => List.mem_takeWhile_imp hd
            have hs6 : s6 = s6.takeWhile isDigitCh ++ s6.dropWhile isDigitCh :=
              (List.takeWhile_append_dropWhile isDigitCh _).symm
            have hw3 : ∀ d ∈ (s6.dropWhile isDigitCh).takeWhile jsSpace, jsSpace d = true :=
              fun d hd => List.mem_takeWhile_imp hd
            have hs7 : s6.dropWhile isDigitCh =
                (s6.dropWhile isDigitCh).takeWhile jsSpace ++
                  (s6.dropWhile isDigitCh).dropWhile jsSpace :=
              (List.takeWhile_append_dropWhile jsSpace _).symm
            cases hu3 : unconsIf '>' ((s6.dropWhile isDigitCh).dropWhile jsSpace) with
            | none =>
              rw [hu3] at h
              exact absurd rfl h
            | some t2 =>
              refine ⟨rest.takeWhile jsSpace, ['/'], t1.takeWhile jsSpace,
                (t1.dropWhile jsSpace).takeWhile isAlnumCI,
                s6.takeWhile isDigitCh, (s6.dropWhile isDigitCh).takeWhile jsSpace, t2,
                hw1, Or.inr rfl, hw2, hnm, hdg,
                fun he => hnd (by rw [he]; rfl), hw3, ?_⟩
              have he1 := unconsIf_eq_some hu
              have he6 := unconsIf_eq_some hu2
              have he7 := unconsIf_eq_some hu3
              rw [List.cons_eq_cons]
              refine ⟨rfl, ?_⟩
              conv_lhs => rw [hrest]
              conv_lhs => rw [he1]
              conv_lhs => rw [hs2]
              conv_lhs => rw [hs4, he6]
              conv_lhs => rw [hs6]
              conv_lhs => rw [hs7, he7]
              simp [List.append_assoc]
    · rw [if_pos hc] at h
      exact absurd rfl h

theorem pShapeMatchLen_append (s t : List Char) (h : pShapeMatchLen s ≠ 0) :
    pShapeMatchLen (s ++ t) ≠ 0 := by
  obtain ⟨w1, sl, w2, nm, dg, w3, t0, hw1, hsl, hw2, hnm, hdg, hdg0, hw3, rfl⟩ :=
    pShape_inversion s h
  have h2 := pShape_construct w1 sl w2 nm dg w3 (t0 ++ t) hw1 hsl hw2 hnm hdg hdg0 hw3
  have he : '<' :: (w1 ++ sl ++ w2 ++ nm ++ '_' :: dg ++ w3 ++ '>' :: t0) ++ t =
      '<' :: (w1 ++ sl ++ w2 ++ nm ++ '_' :: dg ++ w3 ++ '>' :: (t0 ++ t)) := by
    simp [List.append_assoc]
  rw [he]
  exact h2

theorem hasPShape_cons_zero {c : Char} {s : List Char} (h : hasPShape (c :: s) = false) :
    pShapeMatchLen (c :: s) = 0 ∧ hasPShape s = false := by
  unfold hasPShape at h
  split at h
  · cases h
  · rename_i h2
    exact ⟨not_not.mp h2, h⟩

theorem hasPShape_true_of_match {s : List Char} (h : pShapeMatchLen s ≠ 0) :
    hasPShape s = true := by
  cases s with
  | nil => exact absurd rfl h
  | cons c rest =>
    unfold hasPShape
    rw [if_pos h]

theorem hasPShape_append_true (x pat y : List Char) (h : pShapeMatchLen (pat ++ y) ≠ 0) :
    hasPShape (x ++ pat ++ y) = true := by
  induction x with
  | nil =>
    rw [List.nil_append]
    exact hasPShape_true_of_match h
  | cons c x2 ih =>
    show hasPShape (c :: (x2 ++ pat ++ y)) = true
    unfold hasPShape
    split
    · rfl
    · exact ih

theorem hasPShape_exists {s : List Char} (h : hasPShape s = true) :
    ∃ i, pShapeMatchLen (s.drop i) ≠ 0 := by
  induction s with
  | nil => cases h
  | cons c rest ih =>
    unfold hasPShape at h
    split at h
    · rename_i h2
      exact ⟨0, h2⟩
    · obtain ⟨i, hi⟩ := ih h
      exact ⟨i + 1, hi⟩

theorem hasPShape_drop {s : List Char} (h : hasPShape s = false) :
    ∀ i, hasPShape (s.drop i) = false := by
  induction s with
  | nil => intro i; rw [List.drop_nil]; exact h
  | cons c rest ih =>
    intro i
    cases i with
    | zero => exact h
    | succ i2 => exact ih (hasPShape_cons_zero h).2 i2

theorem hasPShape_append_left {a b : List Char} (h : hasPShape (a ++ b) = false) :
    hasPShape a = false := by
  cases ha : hasPShape a
  · rfl
  · obtain ⟨i, hi⟩ := hasPShape_exists ha
    have h2 : a ++ b = a.take i ++ (a.drop i) ++ b := by
      rw [List.take_append_drop]
    have h3 := hasPShape_append_true (a.take i) (a.drop i) b
      (pShapeMatchLen_append _ b hi)
    rw [← h2] at h3
    rw [h3] at h
    cases h

theorem hasPShape_infix {s x pat y : List Char} (h : hasPShape s = false)
    (he : s = x ++ pat ++ y) (hm : pShapeMatchLen (pat ++ y) ≠ 0) : False := by
  rw [he, hasPShape_append_true x pat y hm] at h
  cases h

theorem isAsciiLetter_alnumCI {c : Char} (h : isAsciiLetter c = true) : isAlnumCI c = true := by
  simp [isAlnumCI, h]

theorem cleanup_imp_pShape (s : List Char) (h : cleanupMatchLen s ≠ 0) :
    pShapeMatchLen s ≠ 0 := by
  cases s with
  | nil => exact absurd rfl h
  | cons c rest =>
    simp only [cleanupMatchLen, spaceRunLen, letterRunLen, digitRunLen] at h
    by_cases hc : c = '<'
    · rw [if_neg (not_not_intro hc)] at h
      subst hc
      rw [drop_takeWhile_len jsSpace rest] at h
      have hw1 : ∀ d ∈ rest.takeWhile jsSpace, jsSpace d = true :=
        fun d hd => List.mem_takeWhile_imp hd
      have hrest : rest = rest.takeWhile jsSpace ++ rest.dropWhile jsSpace :=
        (List.takeWhile_append_dropWhile jsSpace rest).symm
      cases hu : unconsIf '/' (rest.dropWhile jsSpace) with
      | none =>
        rw [hu] at h
        dsimp only at h
        rw [drop_takeWhile_len jsSpace (rest.dropWhile jsSpace)] at h
        by_cases hnl : (((rest.dropWhile jsSpace).dropWhile jsSpace).takeWhile
            isAsciiLetter).length = 0
        · rw [if_pos hnl] at h
          exact absurd rfl h
        · rw [if_neg hnl] at h
          rw [drop_takeWhile_len isAsciiLetter ((rest.dropWhile jsSpace).dropWhile
            jsSpace)] at h
          cases hu2 : unconsIf '_' (((rest.dropWhile jsSpace).dropWhile jsSpace).dropWhile
              isAsciiLetter) with
          | none =>
            rw [hu2] at h
            exact absurd rfl h
          | some s6 =>
            rw [hu2] at h
            dsimp only at h
            by_cases hnd : (s6.takeWhile isDigitCh).length = 0
            · rw [if_pos hnd] at h
              exact absurd rfl h
            · rw [if_neg hnd] at h
              rw [drop_takeWhile_len isDigitCh s6] at h
              rw [drop_takeWhile_len jsSpace (s6.dropWhile isDigitCh)] at h
              cases hu3 : unconsIf '>' ((s6.dropWhile isDigitCh).dropWhile jsSpace) with
              | none =>
                rw [hu3] at h
                exact absurd rfl h
              | some t2 =>
                have he : '<' :: rest =
                    '<' :: (rest.takeWhile jsSpace ++ ([] : List Char) ++
                      ((rest.dropWhile jsSpace).takeWhile jsSpace) ++
                      (((rest.dropWhile jsSpace).dropWhile jsSpace).takeWhile isAsciiLetter) ++
                      '_' :: (s6.takeWhile isDigitCh) ++
                      ((s6.dropWhile isDigitCh).takeWhile jsSpace) ++ '>' :: t2) := by
                  rw [List.cons_eq_cons]
                  refine ⟨rfl, ?_⟩
                  conv_lhs => rw [hrest]
                  conv_lhs => rw [(List.takeWhile_append_dropWhile jsSpace
                    (rest.dropWhile jsSpace)).symm]
                  conv_lhs => rw [(List.takeWhile_append_dropWhile isAsciiLetter
                    ((rest.dropWhile jsSpace).dropWhile jsSpace)).symm]
                  conv_lhs => rw [unconsIf_eq_some hu2]
                  conv_lhs => rw [(List.takeWhile_append_dropWhile isDigitCh s6).symm]
                  conv_lhs => rw [(List.takeWhile_append_dropWhile jsSpace
                    (s6.dropWhile isDigitCh)).symm]
                  conv_lhs => rw [unconsIf_eq_some hu3]
                  simp [List.append_assoc]
                rw [he]
                refine pShape_construct _ _ _ _ _ _ _ hw1 (Or.inl rfl)
                  (fun d hd => List.mem_takeWhile_imp hd)
                  (fun d hd => isAsciiLetter_alnumCI (List.mem_takeWhile_imp hd))
                  (fun d hd => List.mem_takeWhile_imp hd)
                  (fun hne => hnd (by rw [hne]; rfl))
                  (fun d hd => List.mem_takeWhile_imp hd)
      | some t1 =>
        rw [hu] at h
        dsimp only at h
        rw [drop_takeWhile_len jsSpace t1] at h
        by_cases hnl : ((t1.dropWhile jsSpace).takeWhile isAsciiLetter).length = 0
        · rw [if_pos hnl] at h
          exact absurd rfl h
        · rw [if_neg hnl] at h
          rw [drop_takeWhile_len isAsciiLetter (t1.dropWhile jsSpace)] at h
          cases hu2 : unconsIf '_' ((t1.dropWhile jsSpace).dropWhile isAsciiLetter) with
          | none =>
            rw [hu2] at h
            exact absurd rfl h
          | some s6 =>
            rw [hu2] at h
            dsimp only at h
            by_cases hnd : (s6.takeWhile isDigitCh).length = 0
            · rw [if_pos hnd] at h
              exact absurd rfl h
            · rw [if_neg hnd] at h
              rw [drop_takeWhile_len isDigitCh s6] at h
              rw [drop_takeWhile_len jsSpace (s6.dropWhile isDigitCh)] at h
              cases hu3 : unconsIf '>' ((s6.dropWhile isDigitCh).dropWhile jsSpace) with
              | none =>
                rw [hu3] at h
                exact absurd rfl h
              | some t2 =>
                have he : '<' :: rest =
                    '<' :: (rest.takeWhile jsSpace ++ ['/'] ++
                      (t1.takeWhile jsSpace) ++
                      ((t1.dropWhile jsSpace).takeWhile isAsciiLetter) ++
                      '_' :: (s6.takeWhile isDigitCh) ++
                      ((s6.dropWhile isDigitCh).takeWhile jsSpace) ++ '>' :: t2) := by
                  rw [List.cons_eq_cons]
                  refine ⟨rfl, ?_⟩
                  conv_lhs => rw [hrest]
                  conv_lhs => rw [unconsIf_eq_some hu]
                  conv_lhs => rw [(List.takeWhile_append_dropWhile jsSpace t1).symm]
                  conv_lhs => rw [(List.takeWhile_append_dropWhile isAsciiLetter
                    (t1.dropWhile jsSpace)).symm]
                  conv_lhs => rw [unconsIf_eq_some hu2]
                  conv_lhs => rw [(List.takeWhile_append_dropWhile isDigitCh s6).symm]
                  conv_lhs => rw [(List.takeWhile_append_dropWhile jsSpace
                    (s6.dropWhile isDigitCh)).symm]
                  conv_lhs => rw [unconsIf_eq_some hu3]
                  simp [List.append_assoc]
                rw [he]
                refine pShape_construct _ _ _ _ _ _ _ hw1 (Or.inr rfl)
                  (fun d hd => List.mem_takeWhile_imp hd)
                  (fun d hd => isAsciiLetter_alnumCI (List.mem_takeWhile_imp hd))
                  (fun d hd => List.mem_takeWhile_imp hd)
                  (fun hne => hnd (by rw [hne]; rfl))
                  (fun d hd => List.mem_takeWhile_imp hd)
    · rw [if_pos hc] at h
      exact absurd rfl h

theorem cleanupScan_id (map : List (List Char × List Char)) :
    ∀ (fuel : Nat) (s : List Char), s.length ≤ fuel → hasPShape s = false →
    cleanupScan map fuel s = s := by
  intro fuel
  induction fuel with
  | zero =>
    intro s hlen _
    cases s with
    | nil => rfl
    | cons c rest => simp at hlen
  | succ fuel ih =>
    intro s hlen hp
    cases s with
    | nil => rfl
    | cons c rest =>
      have h0 := hasPShape_cons_zero hp
      have hn : cleanupMatchLen (c :: rest) = 0 := by
        by_contra hne
        exact absurd h0.1 (cleanup_imp_pShape _ hne)
      unfold cleanupScan
      rw [hn]
      rw [if_pos rfl]
      rw [ih rest (by simp at hlen; omega) h0.2]

theorem replaceAllSimpleGo_fuel (pat rep : List Char) :
    ∀ (fuel1 : Nat) (s : List Char) (fuel2 : Nat), s.length ≤ fuel1 → s.length ≤ fuel2 →
    replaceAllSimpleGo pat rep fuel1 s = replaceAllSimpleGo pat rep fuel2 s := by
  intro fuel1
  induction fuel1 with
  | zero =>
    intro s fuel2 h1 h2
    cases s with
    | nil =>
      cases fuel2 <;> rfl
    | cons c rest => simp at h1
  | succ fuel ih =>
    intro s fuel2 h1 h2
    cases s with
    | nil => cases fuel2 <;> rfl
    | cons c rest =>
      cases fuel2 with
      | zero => simp at h2
      | succ fuel2 =>
        unfold replaceAllSimpleGo
        split
        · rename_i hcond
          rw [ih ((c :: rest).drop pat.length) fuel2 ?_ ?_]
          · have hp : pat ≠ [] := hcond.1
            have hple : 1 ≤ pat.length := by
              cases pat with
              | nil => exact absurd rfl hp
              | cons a b => simp
            simp only [List.length_drop, List.length_cons] at *
            omega
          · have hp : pat ≠ [] := hcond.1
            have hple : 1 ≤ pat.length := by
              cases pat with
              | nil => exact absurd rfl hp
              | cons a b => simp
            simp only [List.length_drop, List.length_cons] at *
            omega
        · rw [ih rest fuel2 (by simp at h1; omega) (by simp at h2; omega)]

theorem replaceAllSimple_id (pat rep : List Char)
    (hpat : pat ≠ []) :
    ∀ (s : List Char), (∀ i, ¬ pat.isPrefixOf (s.drop i) = true) →
    replaceAllSimple pat rep s = s := by
  intro s
  induction s with
  | nil => intro _; rfl
  | cons c rest ih =>
    intro h
    show replaceAllSimpleGo pat rep (c :: rest).length (c :: rest) = c :: rest
    rw [List.length_cons]
    unfold replaceAllSimpleGo
    rw [if_neg (fun hcond => h 0 (by rw [List.drop_zero]; exact hcond.2))]
    show c :: replaceAllSimple pat rep rest = c :: rest
    rw [ih (fun i => h (i + 1))]

theorem replaceAllSimple_append (pat rep : List Char) (hpat : pat ≠ []) :
    ∀ (a b : List Char), (∀ i, i < a.length → ¬ pat.isPrefixOf ((a ++ b).drop i) = true) →
    replaceAllSimple pat rep (a ++ b) = a ++ replaceAllSimple pat rep b := by
  intro a
  induction a with
  | nil => intro b _; rfl
  | cons c a2 ih =>
    intro b h
    show replaceAllSimpleGo pat rep (c :: (a2 ++ b)).length (c :: (a2 ++ b)) = _
    rw [List.length_cons]
    unfold replaceAllSimpleGo
    rw [if_neg (fun hcond => h 0 (by simp) (by rw [List.drop_zero]; exact hcond.2))]
    show c :: replaceAllSimple pat rep (a2 ++ b) = (c :: a2) ++ replaceAllSimple pat rep b
    rw [ih b (fun i hi => h (i + 1) (by simp; omega))]
    rfl

theorem replaceAllSimple_head (pat rep : List Char) (hpat : pat ≠ []) (b : List Char) :
    replaceAllSimple pat rep (pat ++ b) = rep ++ replaceAllSimple pat rep b := by
  cases pat with
  | nil => exact absurd rfl hpat
  | cons c pr =>
    have hpre : (c :: pr).isPrefixOf (c :: (pr ++ b)) = true := by
      rw [List.isPrefixOf_iff_prefix, ← List.cons_append]
      exact List.prefix_append _ _
    have hd : (c :: (pr ++ b)).drop (c :: pr).length = b := by
      rw [← List.cons_append]
      exact List.drop_left _ _
    show replaceAllSimpleGo _ rep ((c :: pr) ++ b).length ((c :: pr) ++ b) = _
    rw [List.cons_append, List.length_cons]
    unfold replaceAllSimpleGo
    rw [if_pos ⟨hpat, hpre⟩]
    rw [hd]
    rw [replaceAllSimpleGo_fuel (c :: pr) rep (pr ++ b).length b b.length
      (by simp) (le_refl _)]
    rfl

theorem expandDollar_no_dollar (rep : List Char) (hd : '$' ∉ rep) :
    ∀ (m bf af : List Char), expandDollar rep m bf af = rep := by
  induction rep with
  | nil => intro m bf af; rfl
  | cons c rest ih =>
    intro m bf af
    unfold expandDollar
    rw [if_neg (fun hc => hd (by rw [← hc]; exact List.mem_cons_self _ _))]
    rw [ih (fun hm => hd (List.mem_cons_of_mem _ hm))]

theorem jsReplaceAllGo_eq_simple (pat rep : List Char) (hd : '$' ∉ rep) :
    ∀ (fuel : Nat) (done s : List Char),
    jsReplaceAllGo pat rep fuel done s = replaceAllSimpleGo pat rep fuel s := by
  intro fuel
  induction fuel with
  | zero =>
    intro done s
    cases s <;> rfl
  | succ fuel ih =>
    intro done s
    cases s with
    | nil => rfl
    | cons c rest =>
      unfold jsReplaceAllGo replaceAllSimpleGo
      split
      · rw [expandDollar_no_dollar rep hd, ih]
      · rw [ih]

theorem jsReplaceAll_eq_simple (s pat rep : List Char) (hd : '$' ∉ rep) :
    jsReplaceAll s pat rep = replaceAllSimple pat rep s :=
  jsReplaceAllGo_eq_simple pat rep hd s.length [] s

theorem prefix_getElem {pat t X : List Char} (h : pat ++ t = X) (j : Nat)
    (hj : j < pat.length) : X[j]? = pat[j]? := by
  rw [← h, List.getElem?_append, if_pos hj]

theorem bracket_last (xm : List Char) : ('<' :: (xm ++ ['>']))[xm.length + 1]? = some '>' := by
  rw [List.getElem?_cons_succ, List.getElem?_append_right (le_refl _)]
  simp

theorem bracket_interior (xm : List Char) (j : Nat) (hj : j < xm.length) :
    ('<' :: (xm ++ ['>']))[j + 1]? = xm[j]? := by
  rw [List.getElem?_cons_succ, List.getElem?_append, if_pos hj]

theorem bracket_length (xm : List Char) : ('<' :: (xm ++ ['>'])).length = xm.length + 2 := by
  simp

theorem patok_no_lt_interior {pat : List Char} (hP : PatOK pat) :
    ∀ j, 1 ≤ j → pat[j]? ≠ some '<' := by
  obtain ⟨pm, rfl, hgt, hlt, _⟩ := hP
  intro j hj hsome
  obtain ⟨j2, rfl⟩ : ∃ j2, j = j2 + 1 := ⟨j - 1, by omega⟩
  by_cases hj2 : j2 < pm.length
  · rw [bracket_interior pm j2 hj2] at hsome
    exact hlt (List.getElem?_mem hsome)
  · rw [List.getElem?_cons_succ, List.getElem?_append_right (by omega)] at hsome
    rcases hn : j2 - pm.length with _ | n
    · rw [hn] at hsome
      simp at hsome
    · rw [hn] at hsome
      simp at hsome

theorem patok_gt_only_last {pat : List Char} (hP : PatOK pat) :
    ∀ j, j + 1 < pat.length → pat[j]? ≠ some '>' := by
  obtain ⟨pm, rfl, hgt, hlt, _⟩ := hP
  intro j hj hsome
  rw [bracket_length] at hj
  cases j with
  | zero => simp at hsome
  | succ j2 =>
    have hj2 : j2 < pm.length := by omega
    rw [bracket_interior pm j2 hj2] at hsome
    exact hgt (List.getElem?_mem hsome)

theorem patok_head {pat : List Char} (hP : PatOK pat) : pat[0]? = some '<' := by
  obtain ⟨pm, rfl, _, _, _⟩ := hP
  exact List.getElem?_cons_zero

theorem patok_ne_nil {pat : List Char} (hP : PatOK pat) : pat ≠ [] := by
  obtain ⟨pm, rfl, _, _, _⟩ := hP
  simp

theorem patok_len {pat : List Char} (hP : PatOK pat) : 2 ≤ pat.length := by
  obtain ⟨pm, rfl, _, _, _⟩ := hP
  rw [bracket_length]
  omega

theorem no_start_in_seg (pat : List Char) (hP : PatOK pat) (s0 wr : List Char)
    (hs0 : s0 ≠ []) (hfree : hasPShape s0 = false)
    (hwr : wr = [] ∨ ∃ w2, wr = '<' :: w2) :
    ¬ pat.isPrefixOf (s0 ++ wr) = true := by
  intro hpre
  obtain ⟨t, ht⟩ := List.isPrefixOf_iff_prefix.mp hpre
  obtain ⟨pm, hpeq, hgtpm, hltpm, hinit⟩ := hP
  by_cases hlen : pat.length ≤ s0.length
  · have htake : s0.take pat.length = pat := by
      have h1 := congrArg (List.take pat.length) ht
      rw [List.take_left] at h1
      rw [List.take_append_eq_append_take, Nat.sub_eq_zero_of_le hlen] at h1
      rw [List.take_zero, List.append_nil] at h1
      exact h1.symm
    have hdecomp : s0 = [] ++ pat ++ s0.drop pat.length := by
      rw [List.nil_append]
      conv_lhs => rw [← List.take_append_drop pat.length s0, htake]
    exact hasPShape_infix hfree hdecomp (hinit _)
  · push_neg at hlen
    rcases hwr with rfl | ⟨w2, rfl⟩
    · have h1 := congrArg List.length ht
      simp only [List.length_append, List.append_nil] at h1
      omega
    · have h1 : (s0 ++ '<' :: w2)[s0.length]? = some '<' := by
        rw [List.getElem?_append_right (le_refl _), Nat.sub_self]
        exact List.getElem?_cons_zero
      have h2 : pat[s0.length]? = some '<' := by
        rw [← prefix_getElem ht s0.length hlen]
        exact h1
      have hs0len : 1 ≤ s0.length := by
        cases s0 with
        | nil => exact absurd rfl hs0
        | cons a b => simp
      exact patok_no_lt_interior ⟨pm, hpeq, hgtpm, hltpm, hinit⟩ s0.length hs0len h2

theorem no_start_at_slot (pat : List Char) (hP : PatOK pat) (x wr : List Char)
    (hS : SlotOK x) (hne : x ≠ pat) :
    ¬ pat.isPrefixOf (x ++ wr) = true := by
  intro hpre
  obtain ⟨t, ht⟩ := List.isPrefixOf_iff_prefix.mp hpre
  obtain ⟨xm, hxeq, hgtxm, _⟩ := hS
  have hxlen : x.length = xm.length + 2 := by rw [hxeq]; exact bracket_length xm
  have hplen := patok_len hP
  rcases lt_trichotomy pat.length x.length with hlt | heq | hgt
  · have hgtidx : pat[pat.length - 1]? = some '>' := by
      obtain ⟨pm, hpeq, _, _, _⟩ := hP
      rw [hpeq, bracket_length]
      have : pm.length + 2 - 1 = pm.length + 1 := by omega
      rw [this, hpeq] at *
      exact bracket_last pm
    have h2 : x[pat.length - 1]? = some '>' := by
      have h3 : (x ++ wr)[pat.length - 1]? = pat[pat.length - 1]? :=
        prefix_getElem ht _ (by omega)
      rw [List.getElem?_append, if_pos (by omega)] at h3
      rw [← h3] at hgtidx
      exact hgtidx
    have h4 : xm[pat.length - 2]? = some '>' := by
      have h5 : pat.length - 1 = (pat.length - 2) + 1 := by omega
      rw [hxeq, h5, bracket_interior xm _ (by omega)] at h2
      exact h2
    exact hgtxm (List.getElem?_mem h4)
  · have htx : pat = x := by
      have h1 := congrArg (List.take pat.length) ht
      rw [List.take_left] at h1
      rw [List.take_append_eq_append_take, Nat.sub_eq_zero_of_le (le_of_eq heq)] at h1
      rw [List.take_zero, List.append_nil, heq, List.take_length] at h1
      exact h1
    exact hne htx.symm
  · have h3 : x[x.length - 1]? = some '>' := by
      rw [hxlen]
      have h6 : xm.length + 2 - 1 = xm.length + 1 := by omega
      rw [h6, hxeq]
      exact bracket_last xm
    have h7 : pat[x.length - 1]? = x[x.length - 1]? := by
      have h8 := prefix_getElem ht (x.length - 1) (by omega)
      rw [List.getElem?_append, if_pos (by omega)] at h8
      exact h8.symm
    exact patok_gt_only_last hP (x.length - 1) (by omega) (h7.trans h3)

theorem no_start_inside_slot (pat : List Char) (hP : PatOK pat) (x wr : List Char)
    (hS : SlotOK x) (j : Nat) (hj1 : 1 ≤ j) (hj2 : j < x.length) :
    ¬ pat.isPrefixOf (x.drop j ++ wr) = true := by
  intro hpre
  obtain ⟨t, ht⟩ := List.isPrefixOf_iff_prefix.mp hpre
  obtain ⟨xm, hxeq, hgtxm, hor⟩ := hS
  have hxlen : x.length = xm.length + 2 := by rw [hxeq]; exact bracket_length xm
  have hplen := patok_len hP
  have hx0 : x[j]? = some '<' := by
    have h1 : (x.drop j ++ wr)[0]? = pat[0]? := prefix_getElem ht 0 (by omega)
    rw [patok_head hP] at h1
    rw [List.getElem?_append, if_pos (by simp; omega), List.getElem?_drop,
      Nat.add_zero] at h1
    exact h1
  have hjxm : j - 1 < xm.length := by
    by_contra hge
    have hj3 : j = xm.length + 1 := by omega
    rw [hxeq, hj3, bracket_last] at hx0
    simp at hx0
  have hltxm : '<' ∈ xm := by
    have h2 : xm[j - 1]? = some '<' := by
      have h3 : j = (j - 1) + 1 := by omega
      rw [hxeq, h3, bracket_interior xm _ hjxm] at hx0
      exact hx0
    exact List.getElem?_mem h2
  rcases hor with hnolt | hfree
  · exact hnolt hltxm
  · by_cases hfit : pat.length ≤ x.length - j
    · have htake : (x.drop j).take pat.length = pat := by
        have h1 := congrArg (List.take pat.length) ht
        rw [List.take_left] at h1
        rw [List.take_append_eq_append_take,
          Nat.sub_eq_zero_of_le (by simp; omega)] at h1
        rw [List.take_zero, List.append_nil] at h1
        exact h1.symm
      have hdecomp : x.drop j = [] ++ pat ++ ((x.drop j).drop pat.length) := by
        rw [List.nil_append]
        conv_lhs => rw [← List.take_append_drop pat.length (x.drop j), htake]
      obtain ⟨pm, hpeq, hgtpm, hltpm, hinit⟩ := hP
      exact hasPShape_infix (hasPShape_drop hfree j) hdecomp (hinit _)
    · push_neg at hfit
      have hk : pat[x.length - 1 - j]? = some '>' := by
        have h1 : (x.drop j ++ wr)[x.length - 1 - j]? = pat[x.length - 1 - j]? :=
          prefix_getElem ht _ (by omega)
        rw [List.getElem?_append, if_pos (by simp; omega), List.getElem?_drop] at h1
        have hj4 : j + (x.length - 1 - j) = x.length - 1 := by omega
        rw [hj4] at h1
        have h3 : x[x.length - 1]? = some '>' := by
          rw [hxlen]
          have h6 : xm.length + 2 - 1 = xm.length + 1 := by omega
          rw [h6, hxeq]
          exact bracket_last xm
        rw [h3] at h1
        exact h1.symm
      exact patok_gt_only_last hP _ (by omega) hk

theorem drop_append_lt {a b : List Char} {i : Nat} (h : i ≤ a.length) :
    (a ++ b).drop i = a.drop i ++ b := by
  rw [List.drop_append_eq_append_drop, Nat.sub_eq_zero_of_le h, List.drop_zero]

theorem not_prefix_nil {pat : List Char} (hpat : pat ≠ []) :
    ¬ pat.isPrefixOf ([] : List Char) = true := by
  intro hpre
  obtain ⟨t, ht⟩ := List.isPrefixOf_iff_prefix.mp hpre
  cases pat with
  | nil => exact hpat rfl
  | cons c r => cases ht

theorem weave_replace (pat rep : List Char) (hP : PatOK pat) :
    ∀ (xs segs : List (List Char)),
    segs.length = xs.length + 1 →
    (∀ s ∈ segs, hasPShape s = false) →
    (∀ x ∈ xs, SlotOK x) →
    replaceAllSimple pat rep (weave segs xs) =
      weave segs (xs.map (fun x => if x = pat then rep else x)) := by
  intro xs
  induction xs with
  | nil =>
    intro segs hlen hsegs _
    obtain ⟨s, rfl⟩ : ∃ s, segs = [s] := by
      cases segs with
      | nil => simp at hlen
      | cons s rest =>
        cases rest with
        | nil => exact ⟨s, rfl⟩
        | cons b r => simp at hlen
    show replaceAllSimple pat rep s = s
    refine replaceAllSimple_id pat rep (patok_ne_nil hP) s ?_
    intro i
    by_cases hi : i < s.length
    · have h1 : s.drop i ≠ [] := by
        intro he
        have := congrArg List.length he
        simp only [List.length_drop, List.length_nil] at this
        omega
      have h2 := no_start_in_seg pat hP (s.drop i) [] h1
        (hasPShape_drop (hsegs s (List.mem_cons_self _ _)) i) (Or.inl rfl)
      rwa [List.append_nil] at h2
    · rw [List.drop_eq_nil_of_le (by omega)]
      exact not_prefix_nil (patok_ne_nil hP)
  | cons x xs2 ih =>
    intro segs hlen hsegs hslots
    obtain ⟨s, segs2, rfl⟩ : ∃ s segs2, segs = s :: segs2 := by
      cases segs with
      | nil => simp at hlen
      | cons s rest => exact ⟨s, rest, rfl⟩
    have hlen2 : segs2.length = xs2.length + 1 := by
      simp only [List.length_cons] at hlen
      omega
    have hsegs2 : ∀ s2 ∈ segs2, hasPShape s2 = false :=
      fun s2 h2 => hsegs s2 (List.mem_cons_of_mem _ h2)
    have hslots2 : ∀ x2 ∈ xs2, SlotOK x2 :=
      fun x2 h2 => hslots x2 (List.mem_cons_of_mem _ h2)
    have hSx : SlotOK x := hslots x (List.mem_cons_self _ _)
    have hs0free : hasPShape s = false := hsegs s (List.mem_cons_self _ _)
    obtain ⟨xm, hxeq, hgtxm, hxor⟩ := hSx
    have hpne := patok_ne_nil hP
    have hxW : ∀ W : List Char, x ++ W = '<' :: (xm ++ ['>'] ++ W) := by
      intro W
      rw [hxeq]
      simp [List.append_assoc]
    have hsegzone : ∀ (Z : List Char), (Z = [] ∨ ∃ w2, Z = '<' :: w2) →
        ∀ i, i < s.length → ¬ pat.isPrefixOf ((s ++ Z).drop i) = true := by
      intro Z hZ i hi
      rw [drop_append_lt (le_of_lt hi)]
      refine no_start_in_seg pat hP (s.drop i) Z ?_ (hasPShape_drop hs0free i) hZ
      intro he
      have := congrArg List.length he
      simp only [List.length_drop, List.length_nil] at this
      omega
    have hP2 := hP
    obtain ⟨pm, hpeq, -, -, -⟩ := hP2
    have hpatW : ∀ W : List Char, pat ++ W = '<' :: (pm ++ ['>'] ++ W) := by
      intro W
      rw [hpeq]
      simp [List.append_assoc]
    by_cases hx : x = pat
    · show replaceAllSimple pat rep ((s ++ x) ++ weave segs2 xs2) = _
      rw [hx, List.append_assoc]
      rw [replaceAllSimple_append pat rep hpne s (pat ++ weave segs2 xs2)
        (fun i hi => hsegzone (pat ++ weave segs2 xs2)
          (Or.inr ⟨pm ++ ['>'] ++ weave segs2 xs2, hpatW _⟩) i hi)]
      rw [replaceAllSimple_head pat rep hpne (weave segs2 xs2)]
      rw [ih segs2 hlen2 hsegs2 hslots2]
      simp only [List.map_cons, if_pos]
      show s ++ (rep ++ weave segs2 (xs2.map (fun x2 => if x2 = pat then rep else x2))) =
        (s ++ rep) ++ weave segs2 (xs2.map (fun x2 => if x2 = pat then rep else x2))
      rw [List.append_assoc]
    · show replaceAllSimple pat rep ((s ++ x) ++ weave segs2 xs2) = _
      have hcond : ∀ i, i < (s ++ x).length →
          ¬ pat.isPrefixOf (((s ++ x) ++ weave segs2 xs2).drop i) = true := by
        intro i hi
        rw [List.length_append] at hi
        rw [List.append_assoc]
        by_cases hi1 : i < s.length
        · exact hsegzone (x ++ weave segs2 xs2)
            (Or.inr ⟨xm ++ ['>'] ++ weave segs2 xs2, hxW _⟩) i hi1
        · by_cases hi2 : i = s.length
          · subst hi2
            rw [List.drop_left]
            exact no_start_at_slot pat hP x (weave segs2 xs2) ⟨xm, hxeq, hgtxm, hxor⟩ hx
          · have hj1 : 1 ≤ i - s.length := by omega
            have hj2 : i - s.length < x.length := by omega
            rw [List.drop_append_eq_append_drop,
              List.drop_eq_nil_of_le (by omega), List.nil_append,
              drop_append_lt (le_of_lt hj2)]
            exact no_start_inside_slot pat hP x (weave segs2 xs2)
              ⟨xm, hxeq, hgtxm, hxor⟩ (i - s.length) hj1 hj2
      rw [replaceAllSimple_append pat rep hpne (s ++ x) (weave segs2 xs2) hcond]
      rw [ih segs2 hlen2 hsegs2 hslots2]
      show _ = weave (s :: segs2) ((if x = pat then rep else x) :: xs2.map _)
      rw [if_neg hx]
      rfl

theorem replaceAllSimple_single_id (c : Char) (rep : List Char) :
    ∀ s, c ∉ s → replaceAllSimple [c] rep s = s := by
  intro s
  induction s with
  | nil => intro _; rfl
  | cons a rest ih =>
    intro h
    show replaceAllSimpleGo [c] rep (a :: rest).length (a :: rest) = a :: rest
    rw [List.length_cons]
    unfold replaceAllSimpleGo
    rw [if_neg ?hneg]
    case hneg =>
      intro hcond
      obtain ⟨t, ht⟩ := List.isPrefixOf_iff_prefix.mp hcond.2
      rw [List.singleton_append] at ht
      have : c = a := (List.cons_eq_cons.mp ht).1
      exact h (this ▸ List.mem_cons_self _ _)
    show a :: replaceAllSimple [c] rep rest = a :: rest
    rw [ih (fun hm => h (List.mem_cons_of_mem _ hm))]

theorem replaceAllSimple_single_last (c : Char) (rep : List Char) (a : List Char)
    (h : c ∉ a) : replaceAllSimple [c] rep (a ++ [c]) = a ++ rep := by
  have h1 : replaceAllSimple [c] rep [c] = rep := by
    show replaceAllSimpleGo [c] rep 1 [c] = rep
    unfold replaceAllSimpleGo
    rw [if_pos ⟨by simp, by rw [List.isPrefixOf_iff_prefix]⟩]
    simp [replaceAllSimpleGo]
  have hcond : ∀ i, i < a.length → ¬ ([c] : List Char).isPrefixOf ((a ++ [c]).drop i) = true := by
    intro i hi hpre
    rw [drop_append_lt (le_of_lt hi)] at hpre
    obtain ⟨t, ht⟩ := List.isPrefixOf_iff_prefix.mp hpre
    rw [List.singleton_append] at ht
    have h2 : (a.drop i ++ [c])[0]? = some c := by
      rw [← ht]
      exact List.getElem?_cons_zero
    rw [List.getElem?_append, if_pos (by simp; omega), List.getElem?_drop,
      Nat.add_zero] at h2
    exact h (List.getElem?_mem h2)
  rw [replaceAllSimple_append [c] rep (by simp) a [c] hcond, h1]

theorem phLeadingSpace_eq (mid : List Char) (hlt : '<' ∉ mid) (hgt : '>' ∉ mid) :
    phLeadingSpace ('<' :: (mid ++ ['>'])) = '<' :: ((' ' :: mid) ++ ['>']) := by
  unfold phLeadingSpace
  rw [jsReplaceAll_eq_simple _ _ _ (by decide)]
  have h1 : ('<' :: (mid ++ ['>'])) = ['<'] ++ (mid ++ ['>']) := rfl
  rw [h1, replaceAllSimple_head ['<'] _ (by simp) (mid ++ ['>'])]
  rw [replaceAllSimple_single_id '<' _ _ ?notin]
  · rfl
  case notin =>
    simp only [List.mem_append, List.mem_singleton]
    rintro (hm | hm)
    · exact hlt hm
    · cases hm
  done

theorem phTrailingSpace_eq (mid : List Char) (hlt : '<' ∉ mid) (hgt : '>' ∉ mid) :
    phTrailingSpace ('<' :: (mid ++ ['>'])) = '<' :: ((mid ++ [' ']) ++ ['>']) := by
  unfold phTrailingSpace
  rw [jsReplaceAll_eq_simple _ _ _ (by decide)]
  have h1 : ('<' :: (mid ++ ['>'])) = ('<' :: mid) ++ ['>'] := by simp
  rw [h1, replaceAllSimple_single_last '>' _ ('<' :: mid) ?notin]
  · simp
  case notin =>
    simp only [List.mem_cons]
    rintro (hm | hm)
    · cases hm
    · exact hgt hm

theorem phWithSpaces_eq (mid : List Char) (hlt : '<' ∉ mid) (hgt : '>' ∉ mid) :
    phWithSpaces ('<' :: (mid ++ ['>'])) = '<' :: ((' ' :: (mid ++ [' '])) ++ ['>']) := by
  unfold phWithSpaces
  rw [show jsReplaceAll ('<' :: (mid ++ ['>'])) ['<'] ['<', ' '] =
    phLeadingSpace ('<' :: (mid ++ ['>'])) from rfl]
  rw [phLeadingSpace_eq mid hlt hgt]
  rw [jsReplaceAll_eq_simple _ _ _ (by decide)]
  have h1 : ('<' :: ((' ' :: mid) ++ ['>'])) = ('<' :: ' ' :: mid) ++ ['>'] := by simp
  rw [h1, replaceAllSimple_single_last '>' _ ('<' :: ' ' :: mid) ?notin]
  · simp
  case notin =>
    simp only [List.mem_cons]
    rintro (hm | hm | hm)
    · cases hm
    · cases hm
    · exact hgt hm

theorem phShape_decomp {p : List Char} {idx : Nat} (h : PhShape p idx) :
    ∃ mid, p = '<' :: (mid ++ ['>']) ∧ '<' ∉ mid ∧ '>' ∉ mid ∧
      (∀ c ∈ mid, jsSpace c = false) ∧
      (∀ w1 w3 t, (∀ c ∈ w1, jsSpace c = true) → (∀ c ∈ w3, jsSpace c = true) →
        pShapeMatchLen ('<' :: (w1 ++ (mid ++ (w3 ++ ('>' :: t))))) ≠ 0) := by
  obtain ⟨nm, sl, hnm, hsl, hp⟩ := h
  refine ⟨sl ++ (nm ++ ('_' :: natToDec idx)), ?_, ?_, ?_, ?_, ?_⟩
  · rw [hp]; simp [List.append_assoc]
  · intro hmem
    simp only [List.mem_append, List.mem_cons] at hmem
    rcases hmem with hmem | hmem | hmem | hmem
    · rcases hsl with rfl | rfl
      · cases hmem
      · rcases List.mem_singleton.mp hmem with he; exact absurd he (by decide)
    · exact (isLowerAlnum_ne (hnm _ hmem)).2.2.1 rfl
    · exact absurd hmem (by decide)
    · exact (isDigitCh_ne (natToDec_digits idx _ hmem)).2.2 rfl
  · intro hmem
    simp only [List.mem_append, List.mem_cons] at hmem
    rcases hmem with hmem | hmem | hmem | hmem
    · rcases hsl with rfl | rfl
      · cases hmem
      · rcases List.mem_singleton.mp hmem with he; exact absurd he (by decide)
    · exact (isLowerAlnum_ne (hnm _ hmem)).2.1 rfl
    · exact absurd hmem (by decide)
    · exact (isDigitCh_ne (natToDec_digits idx _ hmem)).2.1 rfl
  · intro c hmem
    simp only [List.mem_append, List.mem_cons] at hmem
    rcases hmem with hmem | hmem | hmem | hmem
    · rcases hsl with rfl | rfl
      · cases hmem
      · rcases List.mem_singleton.mp hmem with rfl; decide
    · exact (isLowerAlnum_ne (hnm _ hmem)).2.2.2.2
    · rcases hmem with rfl; decide
    · exact isDigitCh_not_space (natToDec_digits idx _ hmem)
  · intro w1 w3 t hw1 hw3
    have he : '<' :: (w1 ++ ((sl ++ (nm ++ ('_' :: natToDec idx))) ++ (w3 ++ ('>' :: t)))) =
        '<' :: (w1 ++ sl ++ [] ++ nm ++ '_' :: natToDec idx ++ w3 ++ '>' :: t) := by
      simp [List.append_assoc]
    rw [he]
    exact pShape_construct w1 sl [] nm (natToDec idx) w3 t hw1 hsl (by simp)
      (fun c hc => isLowerAlnum_alnumCI (hnm c hc)) (natToDec_digits idx)
      (natToDec_ne_nil idx) hw3

theorem phShape_patok {p : List Char} {idx : Nat} (h : PhShape p idx) : PatOK p := by
  obtain ⟨mid, hp, hlt, hgt, hsp, hm⟩ := phShape_decomp h
  refine ⟨mid, hp, hgt, hlt, ?_⟩
  intro t
  have he : ('<' :: (mid ++ ['>'])) ++ t = '<' :: ([] ++ (mid ++ ([] ++ ('>' :: t)))) := by
    simp
  rw [hp, he]
  exact hm [] [] t (by simp) (by simp)

theorem phShape_slotok {p : List Char} {idx : Nat} (h : PhShape p idx) : SlotOK p := by
  obtain ⟨mid, hp, hlt, hgt, hsp, hm⟩ := phShape_decomp h
  exact ⟨mid, hp, hgt, Or.inl hlt⟩

theorem phShape_no_space {p : List Char} {idx : Nat} (h : PhShape p idx) :
    ∀ c ∈ p, jsSpace c = false := by
  obtain ⟨mid, hp, hlt, hgt, hsp, hm⟩ := phShape_decomp h
  intro c hc
  rw [hp] at hc
  simp only [List.mem_cons, List.mem_append] at hc
  rcases hc with rfl | hc | rfl | hc
  · decide
  · exact hsp c hc
  · decide
  · cases hc

theorem phShape_variants {p : List Char} {idx : Nat} (h : PhShape p idx) :
    (PatOK (phLeadingSpace p) ∧ ' ' ∈ phLeadingSpace p) ∧
    (PatOK (phTrailingSpace p) ∧ ' ' ∈ phTrailingSpace p) ∧
    (PatOK (phWithSpaces p) ∧ ' ' ∈ phWithSpaces p) := by
  obtain ⟨mid, hp, hlt, hgt, hsp, hm⟩ := phShape_decomp h
  have hgt2 : '>' ∉ (' ' :: mid) := by
    intro hmem
    rcases List.mem_cons.mp hmem with he | hmem
    · exact absurd he (by decide)
    · exact hgt hmem
  have hlt2 : '<' ∉ (' ' :: mid) := by
    intro hmem
    rcases List.mem_cons.mp hmem with he | hmem
    · exact absurd he (by decide)
    · exact hlt hmem
  have hgt3 : '>' ∉ (mid ++ [' ']) := by
    intro hmem
    rcases List.mem_append.mp hmem with hmem | hmem
    · exact hgt hmem
    · rcases List.mem_singleton.mp hmem with he; exact absurd he (by decide)
  have hlt3 : '<' ∉ (mid ++ [' ']) := by
    intro hmem
    rcases List.mem_append.mp hmem with hmem | hmem
    · exact hlt hmem
    · rcases List.mem_singleton.mp hmem with he; exact absurd he (by decide)
  have hgt4 : '>' ∉ (' ' :: (mid ++ [' '])) := by
    intro hmem
    rcases List.mem_cons.mp hmem with he | hmem
    · exact absurd he (by decide)
    · exact hgt3 hmem
  have hlt4 : '<' ∉ (' ' :: (mid ++ [' '])) := by
    intro hmem
    rcases List.mem_cons.mp hmem with he | hmem
    · exact absurd he (by decide)
    · exact hlt3 hmem
  refine ⟨⟨?_, ?_⟩, ⟨?_, ?_⟩, ⟨?_, ?_⟩⟩
  · rw [hp, phLeadingSpace_eq mid hlt hgt]
    refine ⟨' ' :: mid, rfl, hgt2, hlt2, ?_⟩
    intro t
    have he : ('<' :: ((' ' :: mid) ++ ['>'])) ++ t =
        '<' :: ([' '] ++ (mid ++ ([] ++ ('>' :: t)))) := by simp
    rw [he]
    exact hm [' '] [] t (by decide) (by simp)
  · rw [hp, phLeadingSpace_eq mid hlt hgt]; simp
  · rw [hp, phTrailingSpace_eq mid hlt hgt]
    refine ⟨mid ++ [' '], rfl, hgt3, hlt3, ?_⟩
    intro t
    have he : ('<' :: ((mid ++ [' ']) ++ ['>'])) ++ t =
        '<' :: ([] ++ (mid ++ ([' '] ++ ('>' :: t)))) := by simp
    rw [he]
    exact hm [] [' '] t (by simp) (by decide)
  · rw [hp, phTrailingSpace_eq mid hlt hgt]; simp
  · rw [hp, phWithSpaces_eq mid hlt hgt]
    refine ⟨' ' :: (mid ++ [' ']), rfl, hgt4, hlt4, ?_⟩
    intro t
    have he : ('<' :: ((' ' :: (mid ++ [' '])) ++ ['>'])) ++ t =
        '<' :: ([' '] ++ (mid ++ ([' '] ++ ('>' :: t)))) := by simp
    rw [he]
    exact hm [' '] [' '] t (by decide) (by decide)
  · rw [hp, phWithSpaces_eq mid hlt hgt]; simp

theorem mapGet_of_mem_nodup {κ α : Type} [DecidableEq κ] {m : List (κ × α)} {k : κ} {v : α}
    (hnd : (m.map Prod.fst).Nodup) (hmem : (k, v) ∈ m) : mapGet m k = some v := by
  induction m with
  | nil => cases hmem
  | cons e rest ih =>
    rcases List.mem_cons.mp hmem with rfl | hmem2
    · show (if k = k then some v else mapGet rest k) = some v
      rw [if_pos rfl]
    · show (if e.1 = k then some e.2 else mapGet rest k) = some v
      have hnd2 := hnd
      rw [List.map_cons, List.nodup_cons] at hnd2
      have hk : e.1 ≠ k := by
        intro he
        have hmem3 : k ∈ rest.map Prod.fst := List.mem_map.mpr ⟨(k, v), hmem2, rfl⟩
        rw [he] at hnd2
        exact hnd2.1 hmem3
      rw [if_neg hk]
      exact ih hnd2.2 hmem2

theorem mem_nodup_val_eq {κ α : Type} [DecidableEq κ] {m : List (κ × α)} {k : κ} {v w : α}
    (hnd : (m.map Prod.fst).Nodup) (h1 : (k, v) ∈ m) (h2 : (k, w) ∈ m) : v = w := by
  have e1 := mapGet_of_mem_nodup hnd h1
  have e2 := mapGet_of_mem_nodup hnd h2
  rw [e1] at e2
  exact Option.some.inj e2

theorem phShape_inj {p : List Char} {i j : Nat} (hi : PhShape p i) (hj : PhShape p j) :
    i = j := by
  obtain ⟨nm1, sl1, hnm1, hsl1, hp1⟩ := hi
  obtain ⟨nm2, sl2, hnm2, hsl2, hp2⟩ := hj
  have h := hp1.symm.trans hp2
  have h2 := List.cons.injEq .. ▸ h
  have h3 : (sl1 ++ (nm1 ++ ('_' :: (natToDec i ++ ['>'])))).reverse =
      (sl2 ++ (nm2 ++ ('_' :: (natToDec j ++ ['>'])))).reverse := by
    rw [(List.cons.inj h).2]
  simp only [List.reverse_append, List.reverse_cons, List.append_assoc,
    List.cons_append, List.nil_append, List.reverse_nil] at h3
  have h4 := (List.cons.inj h3).2
  have hdi : ∀ c ∈ (natToDec i).reverse, isDigitCh c = true := by
    intro c hc
    exact natToDec_digits i c (List.mem_reverse.mp hc)
  have hdj : ∀ c ∈ (natToDec j).reverse, isDigitCh c = true := by
    intro c hc
    exact natToDec_digits j c (List.mem_reverse.mp hc)
  have e1 : (((natToDec i).reverse ++ ('_' :: (nm1.reverse ++ sl1.reverse))).takeWhile
      isDigitCh) = (natToDec i).reverse :=
    takeWhile_eq_of_sandwich _ _ hdi (Or.inr ⟨'_', _, rfl, by decide⟩)
  have e2 : (((natToDec j).reverse ++ ('_' :: (nm2.reverse ++ sl2.reverse))).takeWhile
      isDigitCh) = (natToDec j).reverse :=
    takeWhile_eq_of_sandwich _ _ hdj (Or.inr ⟨'_', _, rfl, by decide⟩)
  have h5 : (natToDec i).reverse = (natToDec j).reverse := by
    rw [← e1, ← e2, h4]
  exact natToDec_inj (by
    have := congrArg List.reverse h5
    simpa using this)

theorem insertByLenDesc_perm (x : List Char) :
    ∀ l, (insertByLenDesc x l).Perm (x :: l) := by
  intro l
  induction l with
  | nil => exact List.Perm.refl _
  | cons y rest ih =>
    unfold insertByLenDesc
    split
    · exact (List.Perm.cons y ih).trans (List.Perm.swap x y rest)
    · exact List.Perm.refl _

theorem sortByLenDesc_perm (l : List (List Char)) : (sortByLenDesc l).Perm l := by
  induction l with
  | nil => exact List.Perm.refl _
  | cons x rest ih =>
    show (insertByLenDesc x (sortByLenDesc rest)).Perm (x :: rest)
    exact (insertByLenDesc_perm x (sortByLenDesc rest)).trans (List.Perm.cons x ih)

theorem weave_cons_char (c : Char) (s0 : List Char) (srest xs : List (List Char)) :
    weave ((c :: s0) :: srest) xs = c :: weave (s0 :: srest) xs := by
  cases xs with
  | nil => rfl
  | cons x xr => simp [weave]

theorem weave_cons_decomp (s0 : List Char) (srest xs : List (List Char)) :
    ∃ T, weave (s0 :: srest) xs = s0 ++ T := by
  cases xs with
  | nil => exact ⟨[], by simp [weave]⟩
  | cons x xr => exact ⟨x ++ weave srest xr, by simp [weave]⟩

theorem patok_hasPShape {v : List Char} (h : PatOK v) : hasPShape v = true := by
  obtain ⟨pm, hv, h1, h2, hm⟩ := h
  have h3 := hm []
  rw [List.append_nil] at h3
  exact hasPShape_true_of_match h3

theorem slotsFor_slotok {entries : List (List Char × List Char)}
    (hE : EncEntriesOK entries) (Q : List (List Char)) :
    ∀ x ∈ slotsFor Q entries, SlotOK x := by
  intro x hx
  obtain ⟨e, he, rfl⟩ := List.mem_map.mp hx
  by_cases hq : e.1 ∈ Q
  · rw [if_pos hq]
    obtain ⟨idx, hph⟩ := (hE.2 e he).1
    exact phShape_slotok hph
  · rw [if_neg hq]
    obtain ⟨um, hne, hgt, hu⟩ := (hE.2 e he).2.1
    exact ⟨um, hu, hgt, Or.inr (hE.2 e he).2.2.1⟩

theorem slotsFor_map_variant {entries : List (List Char × List Char)}
    (hE : EncEntriesOK entries) (Q : List (List Char)) (v orig : List Char)
    (hvP : PatOK v) (hvs : ' ' ∈ v) :
    (slotsFor Q entries).map (fun x => if x = v then orig else x) = slotsFor Q entries := by
  conv_rhs => rw [← List.map_id (slotsFor Q entries)]
  refine List.map_congr_left ?_
  intro x hx
  show (if x = v then orig else x) = x
  rw [if_neg ?_]
  obtain ⟨e, he, rfl⟩ := List.mem_map.mp hx
  by_cases hq : e.1 ∈ Q
  · rw [if_pos hq]
    intro hev
    obtain ⟨idx, hph⟩ := (hE.2 e he).1
    have hsp := phShape_no_space hph ' ' (hev ▸ hvs)
    exact absurd hsp (by decide)
  · rw [if_neg hq]
    intro hev
    have h1 : hasPShape e.2 = false := (hE.2 e he).2.2.1
    rw [hev, patok_hasPShape hvP] at h1
    cases h1

theorem slotsFor_step {entries : List (List Char × List Char)}
    (hE : EncEntriesOK entries) {Q : List (List Char)}
    {p orig : List Char} (hmem : (p, orig) ∈ entries) (hpQ : p ∉ Q) :
    (slotsFor (p :: Q) entries).map (fun x => if x = p then orig else x) =
      slotsFor Q entries := by
  unfold slotsFor
  rw [List.map_map]
  refine List.map_congr_left ?_
  intro e he
  show (if (if e.1 ∈ p :: Q then e.1 else e.2) = p then orig else
      (if e.1 ∈ p :: Q then e.1 else e.2)) = (if e.1 ∈ Q then e.1 else e.2)
  by_cases hq : e.1 ∈ p :: Q
  · simp only [if_pos hq]
    by_cases hep : e.1 = p
    · rw [if_pos hep]
      have h2 : (e.1, e.2) ∈ entries := by rw [Prod.mk.eta]; exact he
      rw [hep] at h2
      have hval : orig = e.2 := mem_nodup_val_eq hE.1 hmem h2
      rw [hval, if_neg ?_]
      rw [hep]
      exact hpQ
    · rw [if_neg hep, if_pos ?_]
      rcases List.mem_cons.mp hq with h | h
      · exact absurd h hep
      · exact h
  · simp only [if_neg hq]
    have hep2 : ¬ e.2 = p := by
      intro hev
      have h1 : hasPShape e.2 = false := (hE.2 e he).2.2.1
      obtain ⟨idxp, hphp⟩ := (hE.2 (p, orig) hmem).1
      rw [hev, patok_hasPShape (phShape_patok hphp)] at h1
      cases h1
    rw [if_neg hep2, if_neg (fun hip => hq (List.mem_cons_of_mem p hip))]

theorem decodeStep_weave (entries : List (List Char × List Char))
    (hE : EncEntriesOK entries) (segs : List (List Char))
    (hlen : segs.length = entries.length + 1)
    (hsegs : ∀ s ∈ segs, hasPShape s = false)
    (Q : List (List Char)) (p orig : List Char)
    (hmem : (p, orig) ∈ entries) (hpQ : p ∉ Q) :
    decodeStep entries (weave segs (slotsFor (p :: Q) entries)) p =
      weave segs (slotsFor Q entries) := by
  obtain ⟨idxp, hphp0⟩ := (hE.2 (p, orig) hmem).1
  have hphp : PhShape p idxp := hphp0
  have hPp : PatOK p := phShape_patok hphp
  obtain ⟨um, humne, humgt, hueq0⟩ := (hE.2 (p, orig) hmem).2.1
  have hueq : orig = '<' :: (um ++ ['>']) := hueq0
  have horig : orig ≠ [] := by rw [hueq]; simp
  have hdollar : '$' ∉ orig := (hE.2 (p, orig) hmem).2.2.2
  have hget : mapGet entries p = some orig := mapGet_of_mem_nodup hE.1 hmem
  have hlen1 : segs.length = (slotsFor (p :: Q) entries).length + 1 := by
    simpa [slotsFor] using hlen
  have hlen2 : segs.length = (slotsFor Q entries).length + 1 := by
    simpa [slotsFor] using hlen
  have hr1 : jsReplaceAll (weave segs (slotsFor (p :: Q) entries)) p orig =
      weave segs (slotsFor Q entries) := by
    rw [jsReplaceAll_eq_simple _ _ _ hdollar]
    rw [weave_replace p orig hPp _ segs hlen1 hsegs (slotsFor_slotok hE _)]
    rw [slotsFor_step hE hmem hpQ]
  have hvid : ∀ v, PatOK v → ' ' ∈ v →
      jsReplaceAll (weave segs (slotsFor Q entries)) v orig =
        weave segs (slotsFor Q entries) := by
    intro v hv hvs
    rw [jsReplaceAll_eq_simple _ _ _ hdollar]
    rw [weave_replace v orig hv _ segs hlen2 hsegs (slotsFor_slotok hE _)]
    rw [slotsFor_map_variant hE Q v orig hv hvs]
  obtain ⟨hLS, hTS, hWS⟩ := phShape_variants hphp
  unfold decodeStep
  rw [hget]
  dsimp only
  rw [if_neg horig]
  rw [hr1]
  rw [hvid _ hWS.1 hWS.2]
  simp only [ite_self]
  rw [hvid _ hLS.1 hLS.2]
  simp only [ite_self]
  rw [hvid _ hTS.1 hTS.2]
  simp only [ite_self]

theorem slotsFor_nil (entries : List (List Char × List Char)) :
    slotsFor [] entries = entries.map Prod.snd := by
  unfold slotsFor
  refine List.map_congr_left ?_
  intro e he
  rw [if_neg (List.not_mem_nil e.1)]

theorem decodeFold_weave (entries : List (List Char × List Char))
    (hE : EncEntriesOK entries) (segs : List (List Char))
    (hlen : segs.length = entries.length + 1)
    (hsegs : ∀ s ∈ segs, hasPShape s = false) :
    ∀ P : List (List Char), P.Nodup → (∀ q ∈ P, q ∈ entries.map Prod.fst) →
    P.foldl (decodeStep entries) (weave segs (slotsFor P entries)) =
      weave segs (entries.map Prod.snd) := by
  intro P
  induction P with
  | nil =>
    intro _ _
    rw [List.foldl_nil, slotsFor_nil]
  | cons p rest ih =>
    intro hnd hsub
    obtain ⟨e, he, hep⟩ := List.mem_map.mp (hsub p (List.mem_cons_self p rest))
    have hmem : (p, e.2) ∈ entries := by
      rw [← hep]
      rw [Prod.mk.eta]
      exact he
    have hnd2 := List.nodup_cons.mp hnd
    rw [List.foldl_cons,
      decodeStep_weave entries hE segs hlen hsegs rest p e.2 hmem hnd2.1]
    exact ih hnd2.2 (fun q hq => hsub q (List.mem_cons_of_mem p hq))

theorem take_app_len (a b : List Char) (n : Nat) :
    (a ++ b).take (a.length + n) = a ++ b.take n := by
  induction a with
  | nil => simp
  | cons c a2 ih =>
    show ((c :: a2) ++ b).take ((a2.length + 1) + n) = (c :: a2) ++ b.take n
    rw [List.cons_append]
    have h1 : a2.length + 1 + n = (a2.length + n) + 1 := by omega
    rw [h1, List.take_succ_cons, ih, List.cons_append]

theorem drop_app_len (a b : List Char) (n : Nat) :
    (a ++ b).drop (a.length + n) = b.drop n := by
  induction a with
  | nil => simp
  | cons c a2 ih =>
    show ((c :: a2) ++ b).drop ((a2.length + 1) + n) = b.drop n
    rw [List.cons_append]
    have h1 : a2.length + 1 + n = (a2.length + n) + 1 := by omega
    rw [h1, List.drop_succ_cons, ih]

theorem gtIndex_spec : ∀ (rest : List Char) (k : Nat), gtIndex rest = some k →
    ∃ a b, rest = a ++ '>' :: b ∧ a.length = k ∧ '>' ∉ a := by
  intro rest
  induction rest with
  | nil => intro k h; cases h
  | cons c r ih =>
    intro k h
    unfold gtIndex at h
    by_cases hc : c = '>'
    · rw [if_pos hc] at h
      obtain rfl : (0 : Nat) = k := Option.some.inj h
      exact ⟨[], r, by rw [hc]; rfl, rfl, by simp⟩
    · rw [if_neg hc] at h
      obtain ⟨k2, hk2, hks⟩ := Option.map_eq_some'.mp h
      obtain ⟨a, b, hab, hlen, hgt⟩ := ih k2 hk2
      refine ⟨c :: a, b, by rw [hab]; rfl, by simp [hlen, ← hks], ?_⟩
      intro hm
      rcases List.mem_cons.mp hm with he | hm2
      · exact hc he.symm
      · exact hgt hm2

theorem tagInteriorLen_pos {c : Char} {rest : List Char} {k : Nat}
    (hk : tagInteriorLen (c :: rest) = k) (h : k ≠ 0) :
    c = '<' ∧ gtIndex rest = some k := by
  unfold tagInteriorLen at hk
  dsimp only at hk
  by_cases hc : c = '<'
  · rw [if_pos hc] at hk
    refine ⟨hc, ?_⟩
    cases hg : gtIndex rest with
    | none =>
      rw [hg] at hk
      dsimp only at hk
      exact absurd hk.symm h
    | some g =>
      rw [hg] at hk
      dsimp only at hk
      rw [hk]
  · rw [if_neg hc] at hk
    exact absurd hk.symm h

theorem sanitizeTagName_lower (interior : List Char) :
    ∀ c ∈ sanitizeTagName interior, isLowerAlnum c := by
  intro c hc
  unfold sanitizeTagName at hc
  exact List.of_mem_filter hc

theorem mkPlaceholder_phShape (interior : List Char) (idx : Nat) :
    PhShape (mkPlaceholder interior idx) idx := by
  unfold mkPlaceholder
  cases hu : unconsIf '/' interior with
  | some t =>
    dsimp only
    refine ⟨sanitizeTagName interior, ['/'], sanitizeTagName_lower interior, Or.inr rfl, ?_⟩
    simp [List.append_assoc]
  | none =>
    dsimp only
    refine ⟨sanitizeTagName interior, [], sanitizeTagName_lower interior, Or.inl rfl, ?_⟩
    simp [List.append_assoc]

theorem encodeGo_nil (fuel idx : Nat) : encodeGo fuel [] idx = ([], []) := by
  cases fuel <;> rfl

theorem weave_nil_cons (segs xr : List (List Char)) (x : List Char) :
    weave ([] :: segs) (x :: xr) = x ++ weave segs xr := by
  simp [weave]

theorem encodeGo_struct : ∀ (fuel : Nat) (s : List Char) (idx : Nat),
    s.length ≤ fuel → hasPShape s = false →
    ∃ segs : List (List Char),
      segs.length = (encodeGo fuel s idx).2.length + 1 ∧
      (encodeGo fuel s idx).1 = weave segs ((encodeGo fuel s idx).2.map Prod.fst) ∧
      s = weave segs ((encodeGo fuel s idx).2.map Prod.snd) ∧
      (∀ sg ∈ segs, hasPShape sg = false) ∧
      (∀ i e, ((encodeGo fuel s idx).2)[i]? = some e →
        PhShape e.1 (idx + i) ∧ UnitShape e.2 ∧ hasPShape e.2 = false ∧
        (∀ c ∈ e.2, c ∈ s)) := by
  intro fuel
  induction fuel with
  | zero =>
    intro s idx hlen hps
    have hs : s = [] := List.length_eq_zero.mp (Nat.le_zero.mp hlen)
    subst hs
    refine ⟨[[]], ?_, ?_, ?_, ?_, ?_⟩
    · rw [encodeGo_nil]; rfl
    · rw [encodeGo_nil]; rfl
    · rw [encodeGo_nil]; rfl
    · intro sg hsg
      rcases List.mem_singleton.mp hsg with rfl
      rfl
    · intro i e he
      rw [encodeGo_nil] at he
      simp at he
  | succ fuel ih =>
    intro s idx hlen hps
    cases s with
    | nil =>
      refine ⟨[[]], ?_, ?_, ?_, ?_, ?_⟩
      · rw [encodeGo_nil]; rfl
      · rw [encodeGo_nil]; rfl
      · rw [encodeGo_nil]; rfl
      · intro sg hsg
        rcases List.mem_singleton.mp hsg with rfl
        rfl
      · intro i e he
        rw [encodeGo_nil] at he
        simp at he
    | cons c rest =>
      have heq0 : encodeGo (fuel+1) (c :: rest) idx =
          (if tagInteriorLen (c :: rest) = 0 then
            (c :: (encodeGo fuel rest idx).1, (encodeGo fuel rest idx).2)
          else
            (mkPlaceholder (rest.take (tagInteriorLen (c :: rest))) idx ++
              (encodeGo fuel ((c :: rest).drop (tagInteriorLen (c :: rest) + 2)) (idx + 1)).1,
             (mkPlaceholder (rest.take (tagInteriorLen (c :: rest))) idx,
              (c :: rest).take (tagInteriorLen (c :: rest) + 2)) ::
              (encodeGo fuel ((c :: rest).drop (tagInteriorLen (c :: rest) + 2)) (idx + 1)).2)) :=
        rfl
      by_cases hk : tagInteriorLen (c :: rest) = 0
      · rw [if_pos hk] at heq0
        have hlen2 : rest.length ≤ fuel := by simp at hlen; omega
        have hps0 := hasPShape_cons_zero hps
        obtain ⟨segs, h1, h2, h3, h4, h5⟩ := ih rest idx hlen2 hps0.2
        cases segs with
        | nil => simp at h1
        | cons s0 srest =>
        refine ⟨(c :: s0) :: srest, ?_, ?_, ?_, ?_, ?_⟩
        · rw [heq0]
          simpa using h1
        · rw [heq0]
          show c :: (encodeGo fuel rest idx).1 =
            weave ((c :: s0) :: srest) (List.map Prod.fst (encodeGo fuel rest idx).2)
          rw [weave_cons_char, h2]
        · rw [heq0]
          show c :: rest =
            weave ((c :: s0) :: srest) (List.map Prod.snd (encodeGo fuel rest idx).2)
          rw [weave_cons_char, ← h3]
        · intro sg hsg
          rcases List.mem_cons.mp hsg with rfl | hsg2
          · obtain ⟨T, hT⟩ := weave_cons_decomp s0 srest
              (List.map Prod.snd (encodeGo fuel rest idx).2)
            have h6 : c :: rest = (c :: s0) ++ T := by
              rw [h3, hT]
              rfl
            exact hasPShape_append_left (h6 ▸ hps)
          · exact h4 sg (List.mem_cons_of_mem s0 hsg2)
        · intro i e he
          rw [heq0] at he
          have he2 : ((encodeGo fuel rest idx).2)[i]? = some e := he
          have h7 := h5 i e he2
          exact ⟨h7.1, h7.2.1, h7.2.2.1,
            fun c2 hc2 => List.mem_cons_of_mem c (h7.2.2.2 c2 hc2)⟩
      · obtain ⟨hc, hg⟩ := tagInteriorLen_pos rfl hk
        obtain ⟨a, b, hab, halen, hagt⟩ := gtIndex_spec rest _ hg
        have hane : a ≠ [] := by
          intro h0
          apply hk
          rw [← halen, h0]
          rfl
        subst hc
        subst hab
        rw [if_neg hk] at heq0
        have ht1 : (a ++ '>' :: b).take (tagInteriorLen ('<' :: (a ++ '>' :: b))) = a := by
          rw [← halen]
          exact List.take_left a _
        have harith : tagInteriorLen ('<' :: (a ++ '>' :: b)) + 2 = (a.length + 1) + 1 := by
          rw [← halen]
        have ht2 : ('<' :: (a ++ '>' :: b)).take
            (tagInteriorLen ('<' :: (a ++ '>' :: b)) + 2) = '<' :: (a ++ ['>']) := by
          rw [harith, List.take_succ_cons, take_app_len a ('>' :: b) 1]
          rfl
        have ht3 : ('<' :: (a ++ '>' :: b)).drop
            (tagInteriorLen ('<' :: (a ++ '>' :: b)) + 2) = b := by
          rw [harith, List.drop_succ_cons, drop_app_len a ('>' :: b) 1]
          rfl
        rw [ht1, ht2, ht3] at heq0
        have hsplit : '<' :: (a ++ '>' :: b) = ('<' :: (a ++ ['>'])) ++ b := by simp
        have hlenb : b.length ≤ fuel := by
          simp [List.length_cons, List.length_append] at hlen
          omega
        have hpsb : hasPShape b = false := by
          have h8 := hasPShape_drop hps (a.length + 2)
          rw [show ('<' :: (a ++ '>' :: b)).drop (a.length + 2) = b from by
            rw [show a.length + 2 = (a.length + 1) + 1 from rfl, List.drop_succ_cons,
              drop_app_len a ('>' :: b) 1]
            rfl] at h8
          exact h8
        have hps2 := hps
        rw [hsplit] at hps2
        have hpstag : hasPShape ('<' :: (a ++ ['>'])) = false :=
          hasPShape_append_left hps2
        obtain ⟨segs, h1, h2, h3, h4, h5⟩ := ih b (idx + 1) hlenb hpsb
        refine ⟨[] :: segs, ?_, ?_, ?_, ?_, ?_⟩
        · rw [heq0]
          show ([] :: segs).length = ((mkPlaceholder a idx, '<' :: (a ++ ['>'])) ::
              (encodeGo fuel b (idx + 1)).2).length + 1
          simp [h1]
        · rw [heq0]
          show mkPlaceholder a idx ++ (encodeGo fuel b (idx + 1)).1 =
            weave ([] :: segs) (List.map Prod.fst ((mkPlaceholder a idx,
              '<' :: (a ++ ['>'])) :: (encodeGo fuel b (idx + 1)).2))
          rw [List.map_cons, weave_nil_cons, h2]
        · rw [heq0]
          show '<' :: (a ++ '>' :: b) =
            weave ([] :: segs) (List.map Prod.snd ((mkPlaceholder a idx,
              '<' :: (a ++ ['>'])) :: (encodeGo fuel b (idx + 1)).2))
          rw [List.map_cons, weave_nil_cons, ← h3]
          exact hsplit
        · intro sg hsg
          rcases List.mem_cons.mp hsg with rfl | hsg2
          · rfl
          · exact h4 sg hsg2
        · intro i e he
          rw [heq0] at he
          have he2 : (((mkPlaceholder a idx, '<' :: (a ++ ['>'])) ::
              (encodeGo fuel b (idx + 1)).2))[i]? = some e := he
          cases i with
          | zero =>
            rw [List.getElem?_cons_zero] at he2
            obtain rfl := Option.some.inj he2
            refine ⟨?_, ?_, ?_, ?_⟩
            · show PhShape (mkPlaceholder a idx) (idx + 0)
              rw [Nat.add_zero]
              exact mkPlaceholder_phShape a idx
            · exact ⟨a, hane, hagt, rfl⟩
            · exact hpstag
            · intro c2 hc2
              rw [hsplit]
              exact List.mem_append_left b hc2
          | succ i2 =>
            rw [List.getElem?_cons_succ] at he2
            have h7 := h5 i2 e he2
            refine ⟨?_, h7.2.1, h7.2.2.1, ?_⟩
            · have h8 := h7.1
              rw [show idx + 1 + i2 = idx + (i2 + 1) from by omega] at h8
              exact h8
            · intro c2 hc2
              rw [hsplit]
              exact List.mem_append_right _ (h7.2.2.2 c2 hc2)

/-- C1: the round-trip law `placeholdersToHtml (htmlToPlaceholders m).text
(htmlToPlaceholders m).map = m` as claimed for every markup string is false
(see the counterexample); the corrected law proved here: it holds for every
markup string that contains no `$` character and no substring already shaped
like a placeholder (`hasPShape m = false`), which covers all ordinary HTML.
The underscore stripped by tag-name sanitization makes inputs that already
contain `name_digits` tokens collide with the cleanup regex, which erases
them. -/
theorem c1_roundtrip_amended (m : List Char) (hd : '$' ∉ m)
    (hps : hasPShape m = false) :
    placeholdersToHtml (htmlToPlaceholders m).1 (htmlToPlaceholders m).2 = m := by
  obtain ⟨segs, h1, h2, h3, h4, h5⟩ := encodeGo_struct m.length m 0 le_rfl hps
  have hnd : ((encodeGo m.length m 0).2.map Prod.fst).Nodup := by
    rw [List.nodup_iff_injective_get]
    rintro ⟨i, hi⟩ ⟨j, hj⟩ hij
    have hi2 : i < (encodeGo m.length m 0).2.length := by simpa using hi
    have hj2 : j < (encodeGo m.length m 0).2.length := by simpa using hj
    have ei : (List.map Prod.fst (encodeGo m.length m 0).2).get ⟨i, hi⟩ =
        ((encodeGo m.length m 0).2.get ⟨i, hi2⟩).1 := by
      simp
    have ej : (List.map Prod.fst (encodeGo m.length m 0).2).get ⟨j, hj⟩ =
        ((encodeGo m.length m 0).2.get ⟨j, hj2⟩).1 := by
      simp
    have he2i : (encodeGo m.length m 0).2[i]? =
        some ((encodeGo m.length m 0).2.get ⟨i, hi2⟩) := by
      rw [List.getElem?_eq_getElem hi2]
      rfl
    have he2j : (encodeGo m.length m 0).2[j]? =
        some ((encodeGo m.length m 0).2.get ⟨j, hj2⟩) := by
      rw [List.getElem?_eq_getElem hj2]
      rfl
    have hpi := (h5 i _ he2i).1
    have hpj := (h5 j _ he2j).1
    rw [ei, ej] at hij
    rw [← hij] at hpj
    have hij2 := phShape_inj hpi hpj
    exact Fin.ext (show i = j by omega)
  have hE : EncEntriesOK (encodeGo m.length m 0).2 := by
    refine ⟨hnd, ?_⟩
    intro e he
    obtain ⟨⟨i, hi⟩, hei⟩ := List.mem_iff_get.mp he
    have he2 : (encodeGo m.length m 0).2[i]? = some e := by
      rw [List.getElem?_eq_getElem hi, ← hei]
      rfl
    have h7 := h5 i e he2
    exact ⟨⟨0 + i, h7.1⟩, h7.2.1, h7.2.2.1, fun hdol => hd (h7.2.2.2 '$' hdol)⟩
  have hperm := sortByLenDesc_perm ((encodeGo m.length m 0).2.map Prod.fst)
  have hndS : (sortByLenDesc ((encodeGo m.length m 0).2.map Prod.fst)).Nodup :=
    hperm.nodup_iff.mpr hnd
  have hsubS : ∀ q ∈ sortByLenDesc ((encodeGo m.length m 0).2.map Prod.fst),
      q ∈ (encodeGo m.length m 0).2.map Prod.fst :=
    fun q hq => hperm.mem_iff.mp hq
  have hinit : slotsFor (sortByLenDesc ((encodeGo m.length m 0).2.map Prod.fst))
      (encodeGo m.length m 0).2 = (encodeGo m.length m 0).2.map Prod.fst := by
    unfold slotsFor
    refine List.map_congr_left ?_
    intro e he
    rw [if_pos (hperm.mem_iff.mpr (List.mem_map.mpr ⟨e, he, rfl⟩))]
  have hfold := decodeFold_weave (encodeGo m.length m 0).2 hE segs h1 h4
    (sortByLenDesc ((encodeGo m.length m 0).2.map Prod.fst)) hndS hsubS
  rw [hinit] at hfold
  show cleanupScan (encodeGo m.length m 0).2
    ((sortByLenDesc ((encodeGo m.length m 0).2.map Prod.fst)).foldl
      (decodeStep (encodeGo m.length m 0).2) (encodeGo m.length m 0).1).length
    ((sortByLenDesc ((encodeGo m.length m 0).2.map Prod.fst)).foldl
      (decodeStep (encodeGo m.length m 0).2) (encodeGo m.length m 0).1) = m
  rw [h2, hfold, ← h3]
  exact cleanupScan_id (encodeGo m.length m 0).2 m.length m le_rfl hps

/-- C1 counterexample to the unconditional claim: the input `x<a_1>y`
round-trips to `xy`.  Encoding turns `<a_1>` into the placeholder `<a1_0>`
(sanitization drops the underscore from the name), decoding restores
`x<a_1>y`, but the final cleanup regex of `placeholdersToHtml` then matches
the original token `<a_1>` itself, finds no map entry for it, and replaces
it by the empty string. -/
theorem c1_roundtrip_counterexample :
    placeholdersToHtml (htmlToPlaceholders ('x' :: '<' :: 'a' :: '_' :: '1' :: '>' :: ['y'])).1
      (htmlToPlaceholders ('x' :: '<' :: 'a' :: '_' :: '1' :: '>' :: ['y'])).2 =
      ['x', 'y'] ∧
    ('x' :: 'y' :: ([] : List Char)) ≠ ('x' :: '<' :: 'a' :: '_' :: '1' :: '>' :: ['y']) := by
  constructor
  · decide
  · decide

/-- C1 witness: the corrected round-trip law applied to `<b>Hi</b>`. -/
theorem c1_roundtrip_amended_witness :
    ('$' ∉ ('<' :: 'b' :: '>' :: 'H' :: 'i' :: '<' :: '/' :: 'b' :: ['>']) ∧
      hasPShape ('<' :: 'b' :: '>' :: 'H' :: 'i' :: '<' :: '/' :: 'b' :: ['>']) = false) ∧
    placeholdersToHtml
      (htmlToPlaceholders ('<' :: 'b' :: '>' :: 'H' :: 'i' :: '<' :: '/' :: 'b' :: ['>'])).1
      (htmlToPlaceholders ('<' :: 'b' :: '>' :: 'H' :: 'i' :: '<' :: '/' :: 'b' :: ['>'])).2 =
      ('<' :: 'b' :: '>' :: 'H' :: 'i' :: '<' :: '/' :: 'b' :: ['>']) :=
  ⟨⟨by decide, by decide⟩,
    c1_roundtrip_amended ('<' :: 'b' :: '>' :: 'H' :: 'i' :: '<' :: '/' :: 'b' :: ['>'])
      (by decide) (by decide)⟩
